import Mathlib

/-!
# Mark-and-sweep collector of `src/libexpr/gc.cc`

A shallow embedding of the constructor `GC::GC`, `GC::addArena`,
`GC::addToFreeList`, `GC::gc` and `GC::freeUnmarked`, and of `jsonToAttrs` and
`attrsToJson` of `src/libstore/fetchers/attrs.cc`.

* Addresses are natural numbers counted in words; `0` is the null pointer.
* The heap maps the address of a header to the object that starts there.  A write
  through an object pointer changes the cell of that header only.
* `gc.hh` and `value.hh` are not part of the sources: the tag enumeration, the
  header accessors and the per-type `words()` functions are modelled from the
  specification (each such definition says so).
* The build modelled is the one without `GC_DEBUG` (no poisoning in the sweep).
* The two loops of the collector (`processStack`, the arena walk) take a fuel
  argument that bounds their number of iterations; `Outcome.timeout` is the
  artefact of running out of it.
-/

namespace Nix

/-! ## Data model -/

/-- Modelled from the spec: the tag enumeration of `gc.hh` (section 3.3): the
    `Free` sentinel, the container family, the `Value` family, and `tInvalid n`
    for any other bit pattern found in a header. -/
inductive Tag where
  | tFree
  | tString
  | tBindings
  | tValueList
  | tEnv
  | tWithExprEnv
  | tWithAttrsEnv
  | tContext
  | tInt
  | tBool
  | tNull
  | tFloat
  | tShortString
  | tStaticString
  | tLongString
  | tPath
  | tAttrs
  | tList0
  | tList1
  | tList2
  | tListN
  | tThunk
  | tBlackhole
  | tApp
  | tPrimOpApp
  | tLambda
  | tPrimOp
  | tInvalid (n : Nat)
  deriving DecidableEq, Repr

/-- Modelled from the spec: the range test `tag >= tInt && tag <= tFloat` of
    `freeUnmarked`; the `Value` family is the set of tags "in the range
    `Int`..`Float`" (sections 3.3 and 4.4). -/
def isValueTag : Tag → Bool
  | .tInt | .tBool | .tNull | .tFloat | .tShortString | .tStaticString
  | .tLongString | .tPath | .tAttrs | .tList0 | .tList1 | .tList2 | .tListN
  | .tThunk | .tBlackhole | .tApp | .tPrimOpApp | .tLambda | .tPrimOp => true
  | _ => false

/-- An object as the collector sees it: the header (`type`, the mark bit
    `marked` that `isMarked()` reads, `misc`), the `next` link of a `Free`
    block, and the pointer fields read by `pushPointers` (`attrValues` are the
    `value` pointers of the `size_` attributes of a `Bindings`, `elems` the
    `size()` elements of a `PtrList`, `values` the `getSize()` slots of an
    `Env`).  The field `words` is the value returned by the own `words()` of a
    `Value`, `String`, `Bindings`, `PtrList` or `Env`: these functions are in the
    missing headers and are taken as data. -/
structure Obj where
  type : Tag
  marked : Bool
  misc : Nat
  words : Nat
  next : Nat
  up : Nat
  values : List Nat
  attrValues : List Nat
  elems : List Nat
  string_s : Nat
  string_context : Nat
  path : Nat
  attrs : Nat
  smallList0 : Nat
  smallList1 : Nat
  bigList : Nat
  thunk_env : Nat
  app_left : Nat
  app_right : Nat
  lambda_env : Nat
  deriving DecidableEq, Repr

/-- The heap: the object whose header is at each address. -/
abbrev Heap := Nat → Obj

/-- An arena: `size` words starting at address `start`. -/
structure Arena where
  start : Nat
  size : Nat
  deriving DecidableEq, Repr

/-- One segregated free-list: its threshold and the address of its first block. -/
structure FreeList where
  minSize : Nat
  front : Nat
  deriving DecidableEq, Repr

/-- The collector state.  `ptrRoots` are the values of the registered
    `Ptr<Object>` slots and `objRoots` the objects embedded in the registered
    `Root<Object>` nodes, both in list order from the front sentinel.
    `validate` says whether `assertObject` checks its argument. -/
structure GC where
  heap : Heap
  arenas : List Arena
  freeLists : List FreeList
  ptrRoots : List Nat
  objRoots : List Obj
  totalSize : Nat
  nextSize : Nat
  allTimeWordsFreed : Nat
  validate : Bool

/-- How a run of collector code ends: it returns, the process aborts (in the
    given state), or the fuel of the model runs out. -/
inductive Outcome (α : Type) where
  | done (a : α)
  | abort (s : GC)
  | timeout

/-- Write object `o` at header address `p`. -/
def setObj (h : Heap) (p : Nat) (o : Obj) : Heap :=
  fun a => if a = p then o else h a

/-- Replace the heap of a state. -/
def GC.withHeap (s : GC) (h : Heap) : GC :=
  { s with heap := h }

/-! ## `GC::addToFreeList` -/

/-- Modelled from the spec: `Free::words()`, the size of a free block, is the
    `misc` field of its header (section 3.5). -/
def freeWords (o : Obj) : Nat :=
  o.misc

/-- Modelled from the spec: `Free::setSize`, writing the `misc` field. -/
def setSize (o : Obj) (n : Nat) : Obj :=
  { o with misc := n }

/-- The loop of `addToFreeList` over the lists it has not tried yet, in the
    order it tries them (largest threshold first): the first list with
    `size >= minSize` gets `obj` as its front; the result is the old front of
    that list and the updated lists. -/
def linkFirst (obj size : Nat) : List FreeList → Option (Nat × List FreeList)
  | [] => none
  | fl :: rest =>
    if size ≥ fl.minSize then some (fl.front, { fl with front := obj } :: rest)
    else
      match linkFirst obj size rest with
      | none => none
      | some (nxt, rest1) => some (nxt, fl :: rest1)

/-- The function `GC::addToFreeList(obj)`: walk the lists from last to first and push `obj`
    on the first whose threshold it reaches; `abort()` when there is none. -/
def addToFreeList (s : GC) (obj : Nat) : Outcome GC :=
  match linkFirst obj (freeWords (s.heap obj)) s.freeLists.reverse with
  | none => .abort s
  | some (nxt, lists) =>
    .done { s with heap := setObj s.heap obj { s.heap obj with next := nxt },
                   freeLists := lists.reverse }

/-! ## Mark phase of `GC::gc` -/

/-- The function `GC::isObject(p)`: `p` lies in some arena. -/
def isObject (s : GC) (p : Nat) : Bool :=
  s.arenas.any fun a => decide (a.start ≤ p) && decide (p < a.start + a.size)

/-- Modelled from the spec: `assertObject` of `gc.hh`; with validation enabled
    a pointer outside all arenas is fatal (section 4.5).  The result is whether
    the assertion passes. -/
def assertObject (s : GC) (p : Nat) : Bool :=
  !s.validate || isObject s p

/-- The lambda `push`: a null pointer is skipped, any other is asserted and put
    on top of the stack (the head of the list); `none` is an abort. -/
def push (s : GC) (stack : List Nat) (p : Nat) : Option (List Nat) :=
  if p = 0 then some stack
  else if assertObject s p then some (p :: stack) else none

/-- A `for` loop that pushes each pointer of an array in turn. -/
def pushEach (s : GC) : List Nat → List Nat → Option (List Nat)
  | stack, [] => some stack
  | stack, p :: ps =>
    match push s stack p with
    | none => none
    | some stack1 => pushEach s stack1 ps

/-- The lambda `pushPointers`: the switch on the tag; `none` is an abort
    (`tFree`, or the `default` case).  The slot `values[0]` of a `WithAttrsEnv`
    without slots reads as null. -/
def pushPointers (s : GC) (stack : List Nat) (obj : Obj) : Option (List Nat) :=
  match obj.type with
  | .tFree => none
  | .tBindings => pushEach s stack obj.attrValues
  | .tValueList => pushEach s stack obj.elems
  | .tEnv =>
    match push s stack obj.up with
    | none => none
    | some stack1 => pushEach s stack1 obj.values
  | .tWithExprEnv => push s stack obj.up
  | .tWithAttrsEnv =>
    match push s stack obj.up with
    | none => none
    | some stack1 => push s stack1 (obj.values.getD 0 0)
  | .tString | .tContext | .tInt | .tBool | .tNull | .tList0 | .tFloat
  | .tShortString | .tStaticString => some stack
  | .tLongString =>
    match push s stack obj.string_s with
    | none => none
    | some stack1 =>
      if obj.string_context % 2 = 0 then push s stack1 obj.string_context
      else some stack1
  | .tPath => push s stack obj.path
  | .tAttrs => push s stack obj.attrs
  | .tList1 => push s stack obj.smallList0
  | .tList2 =>
    match push s stack obj.smallList0 with
    | none => none
    | some stack1 => push s stack1 obj.smallList1
  | .tListN => push s stack obj.bigList
  | .tThunk | .tBlackhole => push s stack obj.thunk_env
  | .tApp | .tPrimOpApp =>
    match push s stack obj.app_left with
    | none => none
    | some stack1 => push s stack1 obj.app_right
  | .tLambda => push s stack obj.lambda_env
  | .tPrimOp => some stack
  | .tInvalid _ => none

/-- Modelled from the spec: `obj->mark()` of `gc.hh` sets the mark bit in the
    header of the object at `p` and changes nothing else (section 3.2). -/
def markAt (s : GC) (p : Nat) : GC :=
  s.withHeap (setObj s.heap p { s.heap p with marked := true })

/-- Modelled from the spec: `obj->unmark()` of `gc.hh` clears the mark bit in
    the header of the object at `p` and changes nothing else (section 3.2). -/
def unmarkAt (s : GC) (p : Nat) : GC :=
  s.withHeap (setObj s.heap p { s.heap p with marked := false })

/-- The lambda `processStack`: pop until the stack is empty; an unmarked object
    is counted, marked and traced.  The result is the state and the counter
    `marked`. -/
def processStack : Nat → GC → List Nat → Nat → Outcome (GC × Nat)
  | _, s, [], marked => .done (s, marked)
  | 0, _, _ :: _, _ => .timeout
  | fuel + 1, s, obj :: stack, marked =>
    if (s.heap obj).marked then processStack fuel s stack marked
    else
      let s1 := markAt s obj
      match pushPointers s1 stack (s1.heap obj) with
      | none => .abort s1
      | some stack1 => processStack fuel s1 stack1 (marked + 1)

/-- The loop over the `Root<Object>` list: trace the embedded object in place,
    then empty the stack. -/
def markObjRoots (fuel : Nat) : GC → List Obj → Nat → Outcome (GC × Nat)
  | s, [], marked => .done (s, marked)
  | s, r :: rs, marked =>
    match pushPointers s [] r with
    | none => .abort s
    | some stack =>
      match processStack fuel s stack marked with
      | .done (s1, marked1) => markObjRoots fuel s1 rs marked1
      | .abort s1 => .abort s1
      | .timeout => .timeout

/-- The loop over the `Ptr<Object>` list: a null slot is skipped, any other
    referent is pushed and the stack emptied. -/
def markPtrRoots (fuel : Nat) : GC → List Nat → Nat → Outcome (GC × Nat)
  | s, [], marked => .done (s, marked)
  | s, p :: ps, marked =>
    if p = 0 then markPtrRoots fuel s ps marked
    else
      match processStack fuel s [p] marked with
      | .done (s1, marked1) => markPtrRoots fuel s1 ps marked1
      | .abort s1 => .abort s1
      | .timeout => .timeout

/-- The mark phase of `GC::gc` (lines 100-239): both root loops, starting with
    `marked = 0`. -/
def markPhase (fuel : Nat) (s : GC) : Outcome (GC × Nat) :=
  match markObjRoots fuel s s.objRoots 0 with
  | .done (s1, marked1) => markPtrRoots fuel s1 s1.ptrRoots marked1
  | .abort s1 => .abort s1
  | .timeout => .timeout

/-! ## `GC::freeUnmarked` -/

/-- Modelled from the spec: `Context::getSize()` of the missing headers, a
    length kept in the `misc` field of the header (section 3.2). -/
def contextSize (o : Obj) : Nat :=
  o.misc

/-- The size dispatch of `freeUnmarked` (lines 282-311): `none` is the
    `default` case, which aborts. -/
def objSize (o : Obj) : Option Nat :=
  if isValueTag o.type then some o.words
  else
    match o.type with
    | .tFree => some (freeWords o)
    | .tString => some o.words
    | .tBindings => some o.words
    | .tValueList => some o.words
    | .tEnv | .tWithExprEnv | .tWithAttrsEnv => some o.words
    | .tContext => some (contextSize o + 1)
    | _ => none

/-- The lambda `linkCurFree` without the final `curFree = nullptr`, which the
    callers do. -/
def linkCurFree (s : GC) (curFree : Nat) : Outcome GC :=
  if curFree ≠ 0 ∧ freeWords (s.heap curFree) > 1 then addToFreeList s curFree
  else .done s

/-- The lambda `mergeFree`: grow the block `curFree` by `objSize` words; `none`
    is the failing assertion `curFree->words() >= 1`. -/
def mergeFree (s : GC) (curFree objSize : Nat) : Option GC :=
  if freeWords (s.heap curFree) ≥ 1 then
    some (s.withHeap (setObj s.heap curFree
      (setSize (s.heap curFree) (freeWords (s.heap curFree) + objSize))))
  else none

/-- Convert the object at `p` to a free object of `n` words
    (`curFree->type = tFree; curFree->setSize(objSize)`). -/
def convertToFree (s : GC) (p n : Nat) : GC :=
  s.withHeap (setObj s.heap p (setSize { s.heap p with type := .tFree } n))

/-- The `while (pos < end)` loop of `freeUnmarked`.  The arguments after the
    fuel are the state, `pos`, `curFree` (0 for `nullptr`), `objectsFreed` and
    `wordsFreed`; the result holds their final values. -/
def freeUnmarkedLoop (stop : Nat) :
    Nat → GC → Nat → Nat → Nat → Nat → Outcome (GC × Nat × Nat × Nat × Nat)
  | 0, s, pos, curFree, objectsFreed, wordsFreed =>
    if pos < stop then .timeout else .done (s, pos, curFree, objectsFreed, wordsFreed)
  | fuel + 1, s, pos, curFree, objectsFreed, wordsFreed =>
    if pos < stop then
      match objSize (s.heap pos) with
      | none => .abort s
      | some n =>
        if (s.heap pos).type = .tFree then
          if curFree ≠ 0 then
            match mergeFree s curFree n with
            | none => .abort s
            | some s1 =>
              freeUnmarkedLoop stop fuel s1 (pos + n) curFree objectsFreed wordsFreed
          else freeUnmarkedLoop stop fuel s (pos + n) pos objectsFreed wordsFreed
        else if (s.heap pos).marked then
          match linkCurFree s curFree with
          | .done s1 =>
            freeUnmarkedLoop stop fuel (unmarkAt s1 pos) (pos + n) 0 objectsFreed wordsFreed
          | .abort s1 => .abort s1
          | .timeout => .timeout
        else if curFree ≠ 0 then
          match mergeFree s curFree n with
          | none => .abort s
          | some s1 =>
            freeUnmarkedLoop stop fuel s1 (pos + n) curFree (objectsFreed + 1) (wordsFreed + n)
        else
          freeUnmarkedLoop stop fuel (convertToFree s pos n) (pos + n) pos
            (objectsFreed + 1) (wordsFreed + n)
    else .done (s, pos, curFree, objectsFreed, wordsFreed)

/-- The function `GC::freeUnmarked(arena)`: the loop, the last `linkCurFree`, and the
    assertion `pos == end`.  The result is the state with `objectsFreed` and
    `wordsFreed`. -/
def freeUnmarked (fuel : Nat) (s : GC) (arena : Arena) : Outcome (GC × Nat × Nat) :=
  match freeUnmarkedLoop (arena.start + arena.size) fuel s arena.start 0 0 0 with
  | .done (s1, pos, curFree, objectsFreed, wordsFreed) =>
    match linkCurFree s1 curFree with
    | .done s2 =>
      if pos = arena.start + arena.size then .done (s2, objectsFreed, wordsFreed)
      else .abort s2
    | .abort s2 => .abort s2
    | .timeout => .timeout
  | .abort s1 => .abort s1
  | .timeout => .timeout

/-! ## Sweep phase of `GC::gc` -/

/-- Lines 242-243: every free-list is emptied. -/
def resetFreeLists (s : GC) : GC :=
  { s with freeLists := s.freeLists.map fun fl => { fl with front := 0 } }

/-- Lines 250-254: sweep the arenas in order, adding up the two counters. -/
def sweepArenas (fuel : Nat) : GC → List Arena → Nat → Nat → Outcome (GC × Nat × Nat)
  | s, [], totalObjectsFreed, totalWordsFreed =>
    .done (s, totalObjectsFreed, totalWordsFreed)
  | s, arena :: rest, totalObjectsFreed, totalWordsFreed =>
    match freeUnmarked fuel s arena with
    | .done (s1, objectsFreed, wordsFreed) =>
      sweepArenas fuel s1 rest (totalObjectsFreed + objectsFreed)
        (totalWordsFreed + wordsFreed)
    | .abort s1 => .abort s1
    | .timeout => .timeout

/-- The function `GC::gc()`: mark from the roots, reset the free-lists, sweep every arena,
    add the freed words to `allTimeWordsFreed`. -/
def gc (fuel : Nat) (s : GC) : Outcome GC :=
  match markPhase fuel s with
  | .done (s1, _) =>
    let s2 := resetFreeLists s1
    match sweepArenas fuel s2 s2.arenas 0 0 with
    | .done (s3, _, totalWordsFreed) =>
      .done { s3 with allTimeWordsFreed := s3.allTimeWordsFreed + totalWordsFreed }
    | .abort s3 => .abort s3
    | .timeout => .timeout
  | .abort s1 => .abort s1
  | .timeout => .timeout

/-! ## Vocabulary of the statements -/

/-- The size in words that `freeUnmarked` computes for `o`; 0 for an unknown tag. -/
def objWords (o : Obj) : Nat :=
  (objSize o).getD 0

/-- The list `l` holds the headers met when stepping from `pos` by the size of
    each header, every header has a known tag and a positive size, and the
    walk lands exactly on `stop`. -/
def Tiles (h : Heap) (stop : Nat) : Nat → List Nat → Prop
  | pos, [] => pos = stop
  | pos, a :: l =>
    a = pos ∧ pos < stop ∧ 0 < objWords (h pos) ∧ Tiles h stop (pos + objWords (h pos)) l

/-- The headers met when walking from `pos` towards `stop` in steps of the size
    of each header (at most `fuel` of them). -/
def headers (h : Heap) (stop : Nat) : Nat → Nat → List Nat
  | 0, _ => []
  | fuel + 1, pos =>
    if pos < stop then pos :: headers h stop fuel (pos + objWords (h pos)) else []

/-- The headers of an arena, walked from its start. -/
def arenaHeaders (h : Heap) (A : Arena) : List Nat :=
  headers h (A.start + A.size) A.size A.start

/-- The arena is tiled by objects: the walk from its start lands on its end. -/
def Tiled (h : Heap) (A : Arena) : Prop :=
  Tiles h (A.start + A.size) A.start (arenaHeaders h A)

/-- The headers of all arenas, in sweep order. -/
def allHeaders (s : GC) : List Nat :=
  s.arenas.flatMap (arenaHeaders s.heap)

/-- The tag table of section 3.3 as a function: the out-edges that the table
    lists for the tag of the object, in the order of the table; the context
    field of a `LongString` is one only if its low bit is 0, and slot 0 of a
    `WithAttrsEnv` without slots reads as null.  These are the pointers that
    `pushPointers` hands to `push`. -/
def outEdges (o : Obj) : List Nat :=
  match o.type with
  | .tBindings => o.attrValues
  | .tValueList => o.elems
  | .tEnv => o.up :: o.values
  | .tWithExprEnv => [o.up]
  | .tWithAttrsEnv => [o.up, o.values.getD 0 0]
  | .tLongString =>
    if o.string_context % 2 = 0 then [o.string_s, o.string_context] else [o.string_s]
  | .tPath => [o.path]
  | .tAttrs => [o.attrs]
  | .tList1 => [o.smallList0]
  | .tList2 => [o.smallList0, o.smallList1]
  | .tListN => [o.bigList]
  | .tThunk | .tBlackhole => [o.thunk_env]
  | .tApp | .tPrimOpApp => [o.app_left, o.app_right]
  | .tLambda => [o.lambda_env]
  | _ => []

/-- The tags `pushPointers` can trace: all but `tFree` and the unknown ones. -/
def traceable : Tag → Bool
  | .tFree => false
  | .tInvalid _ => false
  | _ => true

/-- Transitive reachability from the registered roots: the non-null referents
    of the pointer slots, the non-null out-edges of the embedded root objects,
    and the non-null out-edges of reachable objects. -/
inductive Reach (s : GC) : Nat → Prop where
  | ptr {p : Nat} : p ∈ s.ptrRoots → p ≠ 0 → Reach s p
  | root {r : Obj} {p : Nat} : r ∈ s.objRoots → p ∈ outEdges r → p ≠ 0 → Reach s p
  | edge {x p : Nat} : Reach s x → p ∈ outEdges (s.heap x) → p ≠ 0 → Reach s p

/-- The blocks linked from `p` through the `next` fields, up to the null
    pointer, are exactly `l`. -/
def Chain (h : Heap) : Nat → List Nat → Prop
  | p, [] => p = 0
  | p, a :: l => p = a ∧ a ≠ 0 ∧ Chain h (h a).next l

/-- The threshold of the list `addToFreeList` picks for a block of `size`
    words, scanning the lists in the order given. -/
def pickMin (size : Nat) : List FreeList → Option Nat
  | [] => none
  | fl :: rest => if size ≥ fl.minSize then some fl.minSize else pickMin size rest

/-- The threshold of the free-list on which a block of `size` words is put. -/
def sizeClass (s : GC) (size : Nat) : Option Nat :=
  pickMin size s.freeLists.reverse

/-- The function `addToFreeList` made total (the state is kept when it aborts). -/
def pushFree (s : GC) (obj : Nat) : GC :=
  match addToFreeList s obj with
  | .done s1 => s1
  | _ => s

/-- A block of an arena as the sweep sees it: header address, size in words,
    and whether it is reclaimable (tag `Free`, or not marked). -/
structure Blk where
  addr : Nat
  size : Nat
  free : Bool
  deriving DecidableEq, Repr

/-- The block at header `a`. -/
def blkOf (h : Heap) (a : Nat) : Blk :=
  ⟨a, objWords (h a), decide ((h a).type = .tFree) || !(h a).marked⟩

/-- The blocks at the headers `l`. -/
def blocks (h : Heap) (l : List Nat) : List Blk :=
  l.map (blkOf h)

/-- Coalescing as the spec words it: walking the blocks left to right, a
    reclaimable block is folded into the running accumulator `cur`, a live block
    flushes it. -/
def coalesce : Option Blk → List Blk → List Blk
  | none, [] => []
  | some c, [] => [c]
  | none, b :: bs => if b.free then coalesce (some b) bs else b :: coalesce none bs
  | some c, b :: bs =>
    if b.free then coalesce (some { c with size := c.size + b.size }) bs
    else c :: b :: coalesce none bs

/-- What the sweep leaves at one block of its output: a reclaimable block is a
    `Free` header of that size, linked on a free-list when larger than one
    word; a live block has its mark cleared. -/
def applyBlk (s : GC) (b : Blk) : GC :=
  if b.free then
    if b.size > 1 then pushFree (convertToFree s b.addr b.size) b.addr
    else convertToFree s b.addr b.size
  else unmarkAt s b.addr

/-- The effect of the sweep on a sequence of output blocks. -/
def applyBlks (s : GC) (bs : List Blk) : GC :=
  bs.foldl applyBlk s

/-- The accumulator that corresponds to the variable `curFree`. -/
def curBlk (s : GC) (curFree : Nat) : Option Blk :=
  if curFree = 0 then none else some ⟨curFree, freeWords (s.heap curFree), true⟩

/-- The function `freeUnmarked` from the middle of an arena: the loop, the last
    `linkCurFree`, the final assertion. -/
def sweepFrom (stop fuel : Nat) (s : GC) (pos curFree objectsFreed wordsFreed : Nat) :
    Outcome (GC × Nat × Nat) :=
  match freeUnmarkedLoop stop fuel s pos curFree objectsFreed wordsFreed with
  | .done (s1, pos1, curFree1, objectsFreed1, wordsFreed1) =>
    match linkCurFree s1 curFree1 with
    | .done s2 =>
      if pos1 = stop then .done (s2, objectsFreed1, wordsFreed1) else .abort s2
    | .abort s2 => .abort s2
    | .timeout => .timeout
  | .abort s1 => .abort s1
  | .timeout => .timeout

/-- The free-lists can take every block of two words or more, and no two of
    them have the same threshold. -/
def ListsOk (s : GC) : Prop :=
  (s.freeLists.map FreeList.minSize).Nodup ∧ ∃ fl ∈ s.freeLists, fl.minSize ≤ 2

/-- The blocks the sweep leaves in an arena: its headers, coalesced. -/
def arenaOut (h : Heap) (A : Arena) : List Blk :=
  coalesce none (blocks h (arenaHeaders h A))

/-- The blocks the sweep leaves in all arenas, in sweep order. -/
def allOut (h : Heap) (arenas : List Arena) : List Blk :=
  arenas.flatMap (arenaOut h)

/-- The blocks of `bs` that the sweep links on the list with threshold `t`,
    last linked first. -/
def chainOf (s : GC) (t : Nat) (bs : List Blk) : List Nat :=
  ((bs.filter fun b =>
      b.free && decide (1 < b.size) && decide (sizeClass s b.size = some t)).map
    Blk.addr).reverse

/-- Two arenas do not overlap. -/
def Arena.disjoint (A B : Arena) : Prop :=
  A.start + A.size ≤ B.start ∨ B.start + B.size ≤ A.start

/-- The blocks tile the words from `pos` to `stop`. -/
def Contig (stop : Nat) : Nat → List Blk → Prop
  | pos, [] => pos = stop
  | pos, b :: bs => b.addr = pos ∧ pos < stop ∧ 0 < b.size ∧ Contig stop (pos + b.size) bs

/-- No two neighbours in the list are both reclaimable. -/
def NoAdjFree : List Blk → Prop
  | [] => True
  | [_] => True
  | b :: c :: bs => ¬ (b.free = true ∧ c.free = true) ∧ NoAdjFree (c :: bs)

/-- State `s` differs from `s0` by mark bits that were set, and by nothing else. -/
def OnlyMarks (s0 s : GC) : Prop :=
  s = s0.withHeap s.heap ∧
  ∀ x, s.heap x = s0.heap x ∨ s.heap x = { s0.heap x with marked := true }

/-- The invariant of the marking loop, relative to the state `s0` in which the
    collection started: only reachable traceable objects have been marked, the
    stack holds reachable objects, and the children of a marked reachable object
    are marked or on the stack. -/
structure MarkInv (s0 s : GC) (stack : List Nat) : Prop where
  fields : s = s0.withHeap s.heap
  cells : ∀ x, s.heap x = s0.heap x ∨
    (Reach s0 x ∧ traceable (s0.heap x).type = true ∧
      s.heap x = { s0.heap x with marked := true })
  stack_reach : ∀ p ∈ stack, Reach s0 p
  closed : ∀ x, Reach s0 x → (s.heap x).marked = true →
    ∀ p ∈ outEdges (s0.heap x), p ≠ 0 → (s.heap p).marked = true ∨ p ∈ stack

/-- The work left for the marking loop among the addresses `L`: one step for
    each unmarked object, and one for each pointer it will push. -/
def markWeight (L : List Nat) (s0 s : GC) : Nat :=
  (L.map fun a => if (s.heap a).marked then 0 else 1 + (outEdges (s0.heap a)).length).sum

/-- A bound on the fuel the mark phase needs when all reachable addresses are
    in `L`. -/
def markBound (L : List Nat) (s0 : GC) : Nat :=
  markWeight L s0 s0 + 1 + (s0.objRoots.map fun r => (outEdges r).length).sum

/-- The heap invariants between collections: the free-lists are the segregated
    ones, the arenas are non-null, disjoint and tiled by objects, no object is
    marked, and every pointer that can be reached from the roots refers to the
    header of an object of some arena. -/
structure WellFormed (s : GC) : Prop where
  lists : ListsOk s
  arenas_pos : ∀ A ∈ s.arenas, 0 < A.start
  arenas_disjoint : s.arenas.Pairwise Arena.disjoint
  tiled : ∀ A ∈ s.arenas, Tiled s.heap A
  unmarked : ∀ a ∈ allHeaders s, (s.heap a).marked = false
  reach_valid : ∀ x, Reach s x → x ∈ allHeaders s

/-- No embedded root and no reachable object is a `Free` block, and every
    embedded root has a known tag: the mark phase has nothing to abort on. -/
def Traceable (s : GC) : Prop :=
  (∀ r ∈ s.objRoots, traceable r.type = true) ∧
  ∀ x, Reach s x → (s.heap x).type ≠ .tFree

/-- The heap `hm` is the heap of `s` with the mark bit set on exactly the reachable
    objects. -/
def MarkedHeap (s : GC) (hm : Heap) : Prop :=
  (∀ x, Reach s x → hm x = { s.heap x with marked := true }) ∧
  (∀ x, ¬ Reach s x → hm x = s.heap x)

/-- The sweep phase applied to the marked heap `hm`: the free-lists are
    emptied and the coalesced blocks of all arenas are written back. -/
def sweepResult (s : GC) (hm : Heap) : GC :=
  applyBlks (resetFreeLists (s.withHeap hm)) (allOut hm s.arenas)

/-- What a completed collection leaves: the reachable objects are marked, the
    sweep phase runs on that heap, and `wordsFreed` is added to the
    statistics. -/
def GcPost (s s1 : GC) : Prop :=
  ∃ (hm : Heap) (wordsFreed : Nat), MarkedHeap s hm ∧
    s1 = { sweepResult s hm with allTimeWordsFreed := s.allTimeWordsFreed + wordsFreed }

/-! ## A small heap on which the theorems are instantiated -/

/-- An unmarked object of tag `t` and `words` words with every pointer null. -/
def exObj (t : Tag) (words : Nat) : Obj :=
  { type := t, marked := false, misc := 0, words := words, next := 0, up := 0, values := [],
    attrValues := [], elems := [], string_s := 0, string_context := 0, path := 0, attrs := 0,
    smallList0 := 0, smallList1 := 0, bigList := 0, thunk_env := 0, app_left := 0,
    app_right := 0, lambda_env := 0 }

/-- Arena one (words 8 to 71): a `List2` cell that points to the `Int` at 56,
    five dead objects of 8 words each, the `Int`, and a free block of 8 words.
    Arena two (words 100 to 103): one free block. -/
def exHeap : Heap := fun a =>
  if a = 8 then { exObj .tList2 8 with smallList1 := 56 }
  else if a = 16 then { exObj .tList1 8 with smallList0 := 24 }
  else if a = 24 ∨ a = 32 ∨ a = 40 ∨ a = 48 then exObj .tString 8
  else if a = 56 then exObj .tInt 8
  else if a = 64 then { exObj .tFree 0 with misc := 8 }
  else if a = 100 then { exObj .tFree 0 with misc := 4 }
  else exObj (.tInvalid 0) 0

/-- The eight segregated lists; the two free blocks are linked. -/
def exLists : List FreeList :=
  [⟨2, 0⟩, ⟨3, 0⟩, ⟨4, 100⟩, ⟨8, 64⟩, ⟨16, 0⟩, ⟨32, 0⟩, ⟨64, 0⟩, ⟨128, 0⟩]

/-- A collector state before a collection: one null slot, one slot that holds
    the `List2` cell, and one embedded root that points to the `Int`. -/
def exGC : GC :=
  { heap := exHeap, arenas := [⟨8, 64⟩, ⟨100, 4⟩], freeLists := exLists, ptrRoots := [0, 8],
    objRoots := [{ exObj .tList1 3 with smallList0 := 56 }], totalSize := 68, nextSize := 6,
    allTimeWordsFreed := 0, validate := true }

/-- The same state between the mark phase and the sweep: the two live objects
    are marked and the lists are empty. -/
def exMarked : GC :=
  { exGC with
    heap := fun a => if a = 8 ∨ a = 56 then { exHeap a with marked := true } else exHeap a,
    freeLists := exLists.map fun fl => { fl with front := 0 } }

/-- The state `exGC` with a stale pointer in its only slot: it refers to the
    free block at 64. -/
def exStale : GC :=
  { exGC with ptrRoots := [64] }

/-! ## The trace step with its calls to `push` made visible -/

/-- A `for` loop that hands each pointer of an array to the callee `push` in
    turn; `none` is an abort inside the callee. -/
def forEachWith {σ : Type} (push : σ → Nat → Option σ) : σ → List Nat → Option σ
  | st, [] => some st
  | st, p :: ps =>
    match push st p with
    | none => none
    | some st1 => forEachWith push st1 ps

/-- The switch of the lambda `pushPointers` (lines 107-213) with the lambda
    `push` that it calls taken as a parameter: `st` is whatever the callee
    updates (for the collector, the marking stack).  `none` is an abort, in the
    switch (`tFree`, `default`) or inside the callee. -/
def pushPointersWith {σ : Type} (push : σ → Nat → Option σ) (st : σ) (obj : Obj) : Option σ :=
  match obj.type with
  | .tFree => none
  | .tBindings => forEachWith push st obj.attrValues
  | .tValueList => forEachWith push st obj.elems
  | .tEnv =>
    match push st obj.up with
    | none => none
    | some st1 => forEachWith push st1 obj.values
  | .tWithExprEnv => push st obj.up
  | .tWithAttrsEnv =>
    match push st obj.up with
    | none => none
    | some st1 => push st1 (obj.values.getD 0 0)
  | .tString | .tContext | .tInt | .tBool | .tNull | .tList0 | .tFloat
  | .tShortString | .tStaticString => some st
  | .tLongString =>
    match push st obj.string_s with
    | none => none
    | some st1 =>
      if obj.string_context % 2 = 0 then push st1 obj.string_context
      else some st1
  | .tPath => push st obj.path
  | .tAttrs => push st obj.attrs
  | .tList1 => push st obj.smallList0
  | .tList2 =>
    match push st obj.smallList0 with
    | none => none
    | some st1 => push st1 obj.smallList1
  | .tListN => push st obj.bigList
  | .tThunk | .tBlackhole => push st obj.thunk_env
  | .tApp | .tPrimOpApp =>
    match push st obj.app_left with
    | none => none
    | some st1 => push st1 obj.app_right
  | .tLambda => push st obj.lambda_env
  | .tPrimOp => some st
  | .tInvalid _ => none

/-- The lambda `push` with a record of its calls: the state is the marking
    stack together with the arguments of the calls made so far, oldest
    first. -/
def pushLogged (s : GC) (st : List Nat × List Nat) (p : Nat) : Option (List Nat × List Nat) :=
  match push s st.1 p with
  | none => none
  | some stack1 => some (stack1, st.2 ++ [p])

/-! ## The mark phase with a record of the objects it traces -/

/-- The lambda `processStack` with a record of the heap objects it hands to
    `pushPointers`, latest first.  The record is returned whatever the
    outcome. -/
def processStackLog : Nat → GC → List Nat → Nat → List Nat → Outcome (GC × Nat) × List Nat
  | _, s, [], marked, log => (.done (s, marked), log)
  | 0, _, _ :: _, _, log => (.timeout, log)
  | fuel + 1, s, obj :: stack, marked, log =>
    if (s.heap obj).marked then processStackLog fuel s stack marked log
    else
      let s1 := markAt s obj
      match pushPointers s1 stack (s1.heap obj) with
      | none => (.abort s1, obj :: log)
      | some stack1 => processStackLog fuel s1 stack1 (marked + 1) (obj :: log)

/-- The loop over the `Root<Object>` list, with the record. -/
def markObjRootsLog (fuel : Nat) :
    GC → List Obj → Nat → List Nat → Outcome (GC × Nat) × List Nat
  | s, [], marked, log => (.done (s, marked), log)
  | s, r :: rs, marked, log =>
    match pushPointers s [] r with
    | none => (.abort s, log)
    | some stack =>
      match processStackLog fuel s stack marked log with
      | (.done (s1, marked1), log1) => markObjRootsLog fuel s1 rs marked1 log1
      | (.abort s1, log1) => (.abort s1, log1)
      | (.timeout, log1) => (.timeout, log1)

/-- The loop over the `Ptr<Object>` list, with the record. -/
def markPtrRootsLog (fuel : Nat) :
    GC → List Nat → Nat → List Nat → Outcome (GC × Nat) × List Nat
  | s, [], marked, log => (.done (s, marked), log)
  | s, p :: ps, marked, log =>
    if p = 0 then markPtrRootsLog fuel s ps marked log
    else
      match processStackLog fuel s [p] marked log with
      | (.done (s1, marked1), log1) => markPtrRootsLog fuel s1 ps marked1 log1
      | (.abort s1, log1) => (.abort s1, log1)
      | (.timeout, log1) => (.timeout, log1)

/-- The mark phase of `GC::gc` with the record of the heap objects traced,
    latest first. -/
def markPhaseLog (fuel : Nat) (s : GC) : Outcome (GC × Nat) × List Nat :=
  match markObjRootsLog fuel s s.objRoots 0 [] with
  | (.done (s1, marked1), log1) => markPtrRootsLog fuel s1 s1.ptrRoots marked1 log1
  | (.abort s1, log1) => (.abort s1, log1)
  | (.timeout, log1) => (.timeout, log1)

/-! ## `GC::addArena` and the constructor -/

/-- Modelled from the spec: the constant `WORD_SIZE` of `gc.hh`, the number of
    bytes of a word (section 3.1: "typically 8 bytes"). -/
def WORD_SIZE : Nat := 8

/-- Modelled from the spec: the constructor `Free(size)` of `gc.hh`, which
    writes the header of a free block over whatever the memory holds: tag
    `Free`, mark bit clear, the size in `misc` (sections 3.2 and 3.5). -/
def newFree (o : Obj) (size : Nat) : Obj :=
  { o with type := .tFree, marked := false, misc := size }

/-- The number of bits that `k` has beyond 53, counted by halving (at most
    `fuel` of them). -/
def excessBits : Nat → Nat → Nat
  | 0, _ => 0
  | fuel + 1, k => if k < 2 ^ 53 then 0 else 1 + excessBits fuel (k / 2)

/-- The value nearest to `k` among the numbers with 53 significant bits, the
    even one of two nearest: what a `double` holds after the conversion of the
    integer `k`, and after an operation whose exact result is `k`.  The 64
    halvings cover every `k` below 2^117. -/
def roundDouble (k : Nat) : Nat :=
  if k < 2 ^ 53 then k
  else
    let e := excessBits 64 k
    let q := k / 2 ^ e
    let r := k % 2 ^ e
    if 2 ^ e < 2 * r ∨ (2 * r = 2 ^ e ∧ q % 2 = 1) then (q + 1) * 2 ^ e else q * 2 ^ e

/-- The right-hand side of `nextSize = arenaSize * 1.5` (line 83) for a 64-bit
    `size_t`: `arenaSize` is converted to `double`, multiplied by 1.5 in
    `double`, and the product is converted back by truncation.  Twice the
    product is `roundDouble (3 * roundDouble arenaSize)` (halving a `double` is
    exact).  The result is `none` when the product is 2^64 or more: the
    conversion of such a value is not defined, and the line has no clamp. -/
def growSize (arenaSize : Nat) : Option Nat :=
  let product2 := roundDouble (3 * roundDouble arenaSize)
  if product2 / 2 < 2 ^ 64 then some (product2 / 2) else none

/-- The function `GC::addArena(arenaSize)`.  Modelled from the spec: the
    constructor `Arena(arenaSize)` of `gc.hh` acquires a region of `arenaSize`
    words (section 4.1); `start` is the address of the region it returns.
    `undef` is the value that the platform leaves in `nextSize` when the
    conversion of line 83 is not defined.  `totalSize` is a 64-bit `size_t`. -/
def addArena (s : GC) (start arenaSize undef : Nat) : Outcome GC :=
  match addToFreeList (s.withHeap (setObj s.heap start (newFree (s.heap start) arenaSize)))
      start with
  | .done s1 =>
    .done { s1 with
      arenas := s1.arenas ++ [⟨start, arenaSize⟩],
      totalSize := (s1.totalSize + arenaSize) % 2 ^ 64,
      nextSize := (growSize arenaSize).getD undef }
  | .abort s1 => .abort s1
  | .timeout => .timeout

/-- The eight segregated lists as the constructor sets them up (lines 33-40),
    all empty. -/
def emptyLists : List FreeList :=
  [⟨2, 0⟩, ⟨3, 0⟩, ⟨4, 0⟩, ⟨8, 0⟩, ⟨16, 0⟩, ⟨32, 0⟩, ⟨64, 0⟩, ⟨128, 0⟩]

/-- The constructor `GC::GC()`: `nextSize` from the environment, two empty root
    lists, the eight free-lists, and the first arena.  `env` is what
    `parseSize<size_t>` makes of the variable `GC_INITIAL_HEAP_SIZE` when it is
    set; the default is the string "131072".  `h` is the memory as it is,
    `validate` the setting of `assertObject`, and `start` and `undef` are as in
    `addArena`. -/
def newGC (h : Heap) (validate : Bool) (env : Option Nat) (start undef : Nat) : Outcome GC :=
  let nextSize := max 2 (env.getD 131072 / WORD_SIZE)
  addArena
    { heap := h, arenas := [], freeLists := emptyLists, ptrRoots := [], objRoots := [],
      totalSize := 0, nextSize := nextSize, allTimeWordsFreed := 0, validate := validate }
    start nextSize undef

/-! ## The walk of an arena, whatever it holds -/

/-- The tags for which the size dispatch of `freeUnmarked` has a case, as the
    claim on the failure of the sweep lists them: the `Value` family (the range
    `Int`..`Float`), `Free`, `String`, `Bindings`, `ValueList`, `Env`,
    `WithExprEnv`, `WithAttrsEnv` and `Context`. -/
def knownTag (t : Tag) : Bool :=
  isValueTag t ||
    decide (t ∈ [Tag.tFree, Tag.tString, Tag.tBindings, Tag.tValueList, Tag.tEnv,
      Tag.tWithExprEnv, Tag.tWithAttrsEnv, Tag.tContext])

/-- The headers reached when stepping from `pos` towards `stop` by the size of
    each header (at most `fuel` steps); a header for which the size dispatch
    has no case is the last one. -/
def walk (h : Heap) (stop : Nat) : Nat → Nat → List Nat
  | 0, _ => []
  | fuel + 1, pos =>
    if pos < stop then
      match objSize (h pos) with
      | none => [pos]
      | some n => pos :: walk h stop fuel (pos + n)
    else []

/-- Where that walk ends: the first position not below `stop`, or the header
    for which the size dispatch has no case. -/
def walkEnd (h : Heap) (stop : Nat) : Nat → Nat → Nat
  | 0, pos => pos
  | fuel + 1, pos =>
    if pos < stop then
      match objSize (h pos) with
      | none => pos
      | some n => walkEnd h stop fuel (pos + n)
    else pos

/-! ## Attributes and their JSON form (`src/libstore/fetchers/attrs.cc`)

`attrs.hh` and the JSON library are not among the sources.  `Attrs` is a
`std::map` from `std::string` to `Attr`; a map is modelled by the list of its
entries in increasing key order, which is the order in which it is iterated;
keys are compared as `std::string`s are, character by character (`toList`).
A JSON value is modelled after the value kinds of `nlohmann::json`, whose
objects are `std::map`s too. -/

/-- Modelled from the spec: the type `Attr` of `attrs.hh`, a value that is a
    `std::string` or an `int64_t` (the two alternatives that `attrsToJson`
    tests for, and the two kinds of value of the round-trip claim). -/
inductive Attr where
  | str (s : String)
  | int (n : Int)
  deriving DecidableEq, Repr

/-- Modelled from the spec: the type `Attrs` of `attrs.hh`, a `std::map` from
    names to values, as the list of its entries in increasing key order. -/
abbrev Attrs := List (String × Attr)

/-- A value of `nlohmann::json`.  Of a floating-point number the model keeps
    what `get<int64_t>()` returns for it. -/
inductive Json where
  | null
  | boolean (b : Bool)
  | number_integer (n : Int)
  | number_unsigned (n : Nat)
  | number_float (asInt64 : Int)
  | string (s : String)
  | array (elems : List Json)
  | object (members : List (String × Json))

/-- The member `emplace(key, value)` of `std::map`: the entry is inserted at
    its place in key order unless the key is present already. -/
def mapEmplace {α : Type} : List (String × α) → String → α → List (String × α)
  | [], key, value => [(key, value)]
  | (k, v) :: rest, key, value =>
    if key.toList < k.toList then (key, value) :: (k, v) :: rest
    else if key = k then (k, v) :: rest
    else (k, v) :: mapEmplace rest key value

/-- The assignment `m[key] = value` on a `std::map`: the entry is inserted at
    its place in key order, or the value of the present entry replaced. -/
def mapAssign {α : Type} : List (String × α) → String → α → List (String × α)
  | [], key, value => [(key, value)]
  | (k, v) :: rest, key, value =>
    if key.toList < k.toList then (key, value) :: (k, v) :: rest
    else if key = k then (k, value) :: rest
    else (k, v) :: mapAssign rest key value

/-- The assignment `json[key] = value`: `operator[]` makes an object of a null
    value first; on a value that is neither null nor an object it throws
    (`none`). -/
def Json.assign (json : Json) (key : String) (value : Json) : Option Json :=
  match json with
  | .null => some (.object [(key, value)])
  | .object members => some (.object (mapAssign members key value))
  | _ => none

/-- The function `json.items()`: the members of an object in key order, the elements
    of an array under their indices, nothing for null, and any other value
    itself under the empty key. -/
def Json.items (json : Json) : List (String × Json) :=
  match json with
  | .null => []
  | .object members => members
  | .array elems => elems.enum.map fun p => (toString p.1, p.2)
  | other => [("", other)]

/-- The test `is_number()`. -/
def Json.is_number : Json → Bool
  | .number_integer _ | .number_unsigned _ | .number_float _ => true
  | _ => false

/-- The test `is_string()`. -/
def Json.is_string : Json → Bool
  | .string _ => true
  | _ => false

/-- The conversion `get<int64_t>()` of a number: an unsigned number is cast
    to 64 bits signed.  It is not called on another value. -/
def Json.getInt64 : Json → Int
  | .number_integer n => n
  | .number_unsigned n => ((n : Int) + 2 ^ 63) % 2 ^ 64 - 2 ^ 63
  | .number_float asInt64 => asInt64
  | _ => 0

/-- The conversion `get<std::string>()` of a string.  It is not called on
    another value. -/
def Json.getString : Json → String
  | .string s => s
  | _ => ""

/-- The loop of `jsonToAttrs` over the items that are left, `attrs` being the
    map built so far; the `throw` ends it. -/
def jsonToAttrsLoop : List (String × Json) → Attrs → Except String Attrs
  | [], attrs => .ok attrs
  | (key, value) :: rest, attrs =>
    if value.is_number then
      jsonToAttrsLoop rest (mapEmplace attrs key (.int value.getInt64))
    else if value.is_string then
      jsonToAttrsLoop rest (mapEmplace attrs key (.str value.getString))
    else .error "unsupported input attribute type in lock file"

/-- The function `jsonToAttrs(json)`. -/
def jsonToAttrs (json : Json) : Except String Attrs :=
  jsonToAttrsLoop json.items []

/-- The loop of `attrsToJson` over the entries that are left, `json` being the
    value built so far.  The two alternatives of `Attr` are the two branches;
    the `abort()` of the third has no value to be reached with.  `none` is an
    exception of `json[...]`. -/
def attrsToJsonLoop : Attrs → Json → Option Json
  | [], json => some json
  | (name, .int v) :: rest, json =>
    match json.assign name (.number_integer v) with
    | none => none
    | some json1 => attrsToJsonLoop rest json1
  | (name, .str v) :: rest, json =>
    match json.assign name (.string v) with
    | none => none
    | some json1 => attrsToJsonLoop rest json1

/-- The function `attrsToJson(attrs)`: the loop, started on the default-constructed
    value, which is null. -/
def attrsToJson (attrs : Attrs) : Option Json :=
  attrsToJsonLoop attrs .null

/-- The JSON value that `attrsToJson` stores for an attribute value. -/
def attrToJson : Attr → Json
  | .int v => .number_integer v
  | .str v => .string v

/-! ## More small heaps on which the theorems are instantiated -/

/-- A `LongString` of 3 words at 8 whose body is the `String` at 11 and whose
    context field holds 999, an inline context (low bit 1) that is not the
    address of anything.  Words 16 to 23 are a free block. -/
def strHeap : Heap := fun a =>
  if a = 8 then { exObj .tLongString 3 with string_s := 11, string_context := 999 }
  else if a = 11 then exObj .tString 5
  else if a = 16 then { exObj .tFree 0 with misc := 8 }
  else exObj (.tInvalid 0) 0

/-- A collector state whose only root is a pointer slot that holds the
    `LongString`; pointers are validated. -/
def strGC : GC :=
  { heap := strHeap, arenas := [⟨8, 16⟩],
    freeLists := [⟨2, 0⟩, ⟨3, 0⟩, ⟨4, 0⟩, ⟨8, 16⟩, ⟨16, 0⟩, ⟨32, 0⟩, ⟨64, 0⟩, ⟨128, 0⟩],
    ptrRoots := [8], objRoots := [], totalSize := 16, nextSize := 24,
    allTimeWordsFreed := 0, validate := true }

/-- A chain of 100 `List2` cells of 3 words each at the addresses 8, 11, ...,
    305, linked through the second slot; the cell at 305 ends the chain. -/
def chainHeap : Heap := fun a =>
  if 8 ≤ a ∧ a < 308 ∧ (a - 8) % 3 = 0 then
    { exObj .tList2 3 with smallList1 := if a = 305 then 0 else a + 3 }
  else exObj (.tInvalid 0) 0

/-- A collector state in which only the head of the chain is registered. -/
def chainGC : GC :=
  { heap := chainHeap, arenas := [⟨8, 300⟩], freeLists := emptyLists, ptrRoots := [8],
    objRoots := [], totalSize := 300, nextSize := 450, allTimeWordsFreed := 0,
    validate := true }

/-- Three cells with a cycle and a shared child: the `List2` at 8 points to 11
    and 14, the `List2` at 11 points to 14 and back to 8, the `List1` at 14
    points back to 8. -/
def cycHeap : Heap := fun a =>
  if a = 8 then { exObj .tList2 3 with smallList0 := 11, smallList1 := 14 }
  else if a = 11 then { exObj .tList2 3 with smallList0 := 14, smallList1 := 8 }
  else if a = 14 then { exObj .tList1 3 with smallList0 := 8 }
  else exObj (.tInvalid 0) 0

/-- A collector state with two pointer slots, one on each `List2` cell. -/
def cycGC : GC :=
  { heap := cycHeap, arenas := [⟨8, 9⟩], freeLists := emptyLists, ptrRoots := [8, 11],
    objRoots := [], totalSize := 9, nextSize := 13, allTimeWordsFreed := 0,
    validate := true }

/-- Arena one (words 8 to 31): a dead `String`, the `Int` that the only root
    points to, and another dead `String`, 8 words each.  Arena two (words 100
    to 107): one free block of 8 words. -/
def orderHeap : Heap := fun a =>
  if a = 8 ∨ a = 24 then exObj .tString 8
  else if a = 16 then exObj .tInt 8
  else if a = 100 then { exObj .tFree 0 with misc := 8 }
  else exObj (.tInvalid 0) 0

/-- A collector state on that heap; the free block is on the list of
    threshold 8. -/
def orderGC : GC :=
  { heap := orderHeap, arenas := [⟨8, 24⟩, ⟨100, 8⟩],
    freeLists := [⟨2, 0⟩, ⟨3, 0⟩, ⟨4, 0⟩, ⟨8, 100⟩, ⟨16, 0⟩, ⟨32, 0⟩, ⟨64, 0⟩, ⟨128, 0⟩],
    ptrRoots := [16], objRoots := [], totalSize := 32, nextSize := 12,
    allTimeWordsFreed := 0, validate := true }

/-! ## Basic facts -/

theorem setObj_same (h : Heap) (p : Nat) (o : Obj) : setObj h p o p = o := by
  simp [setObj]

theorem setObj_other (h : Heap) (p : Nat) (o : Obj) (a : Nat) (ha : a ≠ p) :
    setObj h p o a = h a := by
  simp [setObj, ha]

theorem setObj_self (h : Heap) (p : Nat) : setObj h p (h p) = h := by
  funext a
  by_cases ha : a = p
  · subst ha; simp [setObj]
  · simp [setObj, ha]

theorem setObj_setObj (h : Heap) (p : Nat) (o1 o2 : Obj) :
    setObj (setObj h p o1) p o2 = setObj h p o2 := by
  funext a
  by_cases ha : a = p <;> simp [setObj, ha]

/-! ## The arena walk, one step at a time -/

theorem sweepFrom_stop (stop fuel : Nat) (s s2 : GC) (c nf wf : Nat)
    (hl : linkCurFree s c = .done s2) :
    sweepFrom stop fuel s stop c nf wf = .done (s2, nf, wf) := by
  cases fuel <;> simp [sweepFrom, freeUnmarkedLoop, hl]

theorem sweepFrom_free_merge (stop fuel : Nat) (s s1 : GC) (pos c nf wf n : Nat)
    (h : pos < stop) (hn : objSize (s.heap pos) = some n)
    (ht : (s.heap pos).type = .tFree) (hc : c ≠ 0) (hm : mergeFree s c n = some s1) :
    sweepFrom stop (fuel + 1) s pos c nf wf = sweepFrom stop fuel s1 (pos + n) c nf wf := by
  simp [sweepFrom, freeUnmarkedLoop, h, hn, ht, hc, hm]

theorem sweepFrom_free_first (stop fuel : Nat) (s : GC) (pos nf wf n : Nat)
    (h : pos < stop) (hn : objSize (s.heap pos) = some n)
    (ht : (s.heap pos).type = .tFree) :
    sweepFrom stop (fuel + 1) s pos 0 nf wf = sweepFrom stop fuel s (pos + n) pos nf wf := by
  simp [sweepFrom, freeUnmarkedLoop, h, hn, ht]

theorem sweepFrom_marked (stop fuel : Nat) (s s1 : GC) (pos c nf wf n : Nat)
    (h : pos < stop) (hn : objSize (s.heap pos) = some n)
    (ht : (s.heap pos).type ≠ .tFree) (hm : (s.heap pos).marked = true)
    (hl : linkCurFree s c = .done s1) :
    sweepFrom stop (fuel + 1) s pos c nf wf =
      sweepFrom stop fuel (unmarkAt s1 pos) (pos + n) 0 nf wf := by
  simp [sweepFrom, freeUnmarkedLoop, h, hn, ht, hm, hl]

theorem sweepFrom_dead_merge (stop fuel : Nat) (s s1 : GC) (pos c nf wf n : Nat)
    (h : pos < stop) (hn : objSize (s.heap pos) = some n)
    (ht : (s.heap pos).type ≠ .tFree) (hm : (s.heap pos).marked = false)
    (hc : c ≠ 0) (hmg : mergeFree s c n = some s1) :
    sweepFrom stop (fuel + 1) s pos c nf wf =
      sweepFrom stop fuel s1 (pos + n) c (nf + 1) (wf + n) := by
  simp [sweepFrom, freeUnmarkedLoop, h, hn, ht, hm, hc, hmg]

theorem sweepFrom_dead_first (stop fuel : Nat) (s : GC) (pos nf wf n : Nat)
    (h : pos < stop) (hn : objSize (s.heap pos) = some n)
    (ht : (s.heap pos).type ≠ .tFree) (hm : (s.heap pos).marked = false) :
    sweepFrom stop (fuel + 1) s pos 0 nf wf =
      sweepFrom stop fuel (convertToFree s pos n) (pos + n) pos (nf + 1) (wf + n) := by
  simp [sweepFrom, freeUnmarkedLoop, h, hn, ht, hm]

theorem freeUnmarked_eq_sweepFrom (fuel : Nat) (s : GC) (A : Arena) :
    freeUnmarked fuel s A = sweepFrom (A.start + A.size) fuel s A.start 0 0 0 := by
  rfl

/-! ## Sizes -/

theorem objSize_of_pos {o : Obj} (h : 0 < objWords o) : objSize o = some (objWords o) := by
  unfold objWords at *
  cases hs : objSize o with
  | none => simp [hs] at h
  | some n => simp

theorem objSize_free {o : Obj} (h : o.type = .tFree) : objSize o = some (freeWords o) := by
  simp [objSize, h, isValueTag]

theorem objWords_free {o : Obj} (h : o.type = .tFree) : objWords o = freeWords o := by
  simp [objWords, objSize_free h]

theorem objSize_unmark (o : Obj) (b : Bool) : objSize { o with marked := b } = objSize o := by
  rfl

theorem objSize_next (o : Obj) (n : Nat) : objSize { o with next := n } = objSize o := by
  rfl

theorem objWords_convert (o : Obj) (n : Nat) :
    objWords (setSize { o with type := .tFree } n) = n := by
  simp [objWords, objSize, setSize, isValueTag, freeWords]

/-! ## `addToFreeList` -/

theorem linkFirst_some (obj size : Nat) :
    ∀ (L : List FreeList) (nxt : Nat) (L1 : List FreeList),
      linkFirst obj size L = some (nxt, L1) →
      ∃ pre fl post, L = pre ++ fl :: post ∧ L1 = pre ++ { fl with front := obj } :: post ∧
        nxt = fl.front ∧ fl.minSize ≤ size ∧ (∀ g ∈ pre, size < g.minSize) ∧
        pickMin size L = some fl.minSize := by
  intro L
  induction L with
  | nil => intro nxt L1 h; simp [linkFirst] at h
  | cons fl rest ih =>
    intro nxt L1 h
    by_cases hs : size ≥ fl.minSize
    · simp [linkFirst, hs] at h
      refine ⟨[], fl, rest, by simp, by simp [h.2], h.1.symm, hs, by simp, by simp [pickMin, hs]⟩
    · simp only [linkFirst, hs, if_false] at h
      cases hr : linkFirst obj size rest with
      | none => simp [hr] at h
      | some r =>
        obtain ⟨n1, r1⟩ := r
        simp [hr] at h
        obtain ⟨pre, g, post, h1, h2, h3, h4, h5, h6⟩ := ih n1 r1 hr
        refine ⟨fl :: pre, g, post, by simp [h1], by simp [← h.2, h2], by rw [← h.1, h3], h4, ?_, ?_⟩
        · intro x hx
          rcases List.mem_cons.1 hx with rfl | hx
          · omega
          · exact h5 x hx
        · simp [pickMin, hs, h6]

theorem linkFirst_none (obj size : Nat) :
    ∀ (L : List FreeList), linkFirst obj size L = none → ∀ fl ∈ L, size < fl.minSize := by
  intro L
  induction L with
  | nil => intro _ fl hfl; simp at hfl
  | cons g rest ih =>
    intro h fl hfl
    by_cases hs : size ≥ g.minSize
    · simp [linkFirst, hs] at h
    · simp only [linkFirst, hs, if_false] at h
      cases hr : linkFirst obj size rest with
      | none =>
        rcases List.mem_cons.1 hfl with rfl | hfl
        · omega
        · exact ih hr fl hfl
      | some r => simp [hr] at h

theorem GC.withHeap_heap (s : GC) : s.withHeap s.heap = s := by
  cases s; rfl

/-- The shape of `pushFree`: one `next` field and the list fronts change. -/
theorem pushFree_shape (s : GC) (obj : Nat) :
    ∃ nxt lists, pushFree s obj =
        { s with heap := setObj s.heap obj { s.heap obj with next := nxt }, freeLists := lists } ∧
      lists.map FreeList.minSize = s.freeLists.map FreeList.minSize := by
  unfold pushFree addToFreeList
  cases hr : linkFirst obj (freeWords (s.heap obj)) s.freeLists.reverse with
  | none =>
    refine ⟨(s.heap obj).next, s.freeLists, ?_, rfl⟩
    simp only
    have : ({ s.heap obj with next := (s.heap obj).next } : Obj) = s.heap obj := by
      cases s.heap obj; rfl
    rw [this, setObj_self]
  | some r =>
    obtain ⟨nxt, L1⟩ := r
    obtain ⟨pre, fl, post, h1, h2, -, -, -, -⟩ := linkFirst_some _ _ _ _ _ hr
    refine ⟨nxt, L1.reverse, rfl, ?_⟩
    have e : s.freeLists = (pre ++ fl :: post).reverse := by rw [← h1, List.reverse_reverse]
    rw [h2, e]
    simp

theorem addToFreeList_done (s : GC) (obj : Nat) (hL : ListsOk s)
    (h2 : 2 ≤ freeWords (s.heap obj)) : addToFreeList s obj = .done (pushFree s obj) := by
  unfold pushFree
  unfold addToFreeList
  cases hr : linkFirst obj (freeWords (s.heap obj)) s.freeLists.reverse with
  | none =>
    obtain ⟨fl, hfl, hle⟩ := hL.2
    have := linkFirst_none _ _ _ hr fl (by simpa using hfl)
    omega
  | some r => rfl

theorem pushFree_heap_other (s : GC) (obj a : Nat) (ha : a ≠ obj) :
    (pushFree s obj).heap a = s.heap a := by
  obtain ⟨nxt, lists, h, -⟩ := pushFree_shape s obj
  rw [h]; simp [setObj, ha]

theorem pushFree_heap_same (s : GC) (obj : Nat) :
    ∃ nxt, (pushFree s obj).heap obj = { s.heap obj with next := nxt } := by
  obtain ⟨nxt, lists, h, -⟩ := pushFree_shape s obj
  exact ⟨nxt, by rw [h]; simp [setObj]⟩

theorem pushFree_listsOk (s : GC) (obj : Nat) (hL : ListsOk s) : ListsOk (pushFree s obj) := by
  obtain ⟨nxt, lists, h, hm⟩ := pushFree_shape s obj
  rw [h]
  unfold ListsOk at *
  simp only
  rw [hm]
  refine ⟨hL.1, ?_⟩
  obtain ⟨fl, hfl, hle⟩ := hL.2
  have : fl.minSize ∈ lists.map FreeList.minSize := by
    rw [hm]; exact List.mem_map_of_mem _ hfl
  obtain ⟨g, hg, hge⟩ := List.mem_map.1 this
  exact ⟨g, hg, by omega⟩

theorem linkCurFree_done (s : GC) (c : Nat) (hL : ListsOk s) :
    linkCurFree s c =
      .done (if c ≠ 0 ∧ freeWords (s.heap c) > 1 then pushFree s c else s) := by
  unfold linkCurFree
  by_cases h : c ≠ 0 ∧ freeWords (s.heap c) > 1
  · rw [if_pos h, if_pos h]
    exact addToFreeList_done s c hL (by omega)
  · rw [if_neg h, if_neg h]

/-! ## Tilings and blocks -/

theorem Tiles_ge (h : Heap) (stop : Nat) :
    ∀ (l : List Nat) (pos : Nat), Tiles h stop pos l → ∀ a ∈ l, pos ≤ a ∧ a < stop := by
  intro l
  induction l with
  | nil => intro pos _ a ha; simp at ha
  | cons b l ih =>
    intro pos hT a ha
    obtain ⟨h1, h2, h3, h4⟩ := hT
    rcases List.mem_cons.1 ha with rfl | ha
    · omega
    · have := ih _ h4 a ha
      omega

theorem Tiles_congr (h h1 : Heap) (stop : Nat) :
    ∀ (l : List Nat) (pos : Nat),
      (∀ a, pos ≤ a → a < stop → objWords (h1 a) = objWords (h a)) →
      Tiles h stop pos l → Tiles h1 stop pos l := by
  intro l
  induction l with
  | nil => intro pos _ hT; exact hT
  | cons b l ih =>
    intro pos hc hT
    obtain ⟨h1', h2, h3, h4⟩ := hT
    have e := hc pos (le_refl _) h2
    refine ⟨h1', h2, by rw [e]; exact h3, ?_⟩
    rw [e]
    exact ih _ (fun a ha hlt => hc a (by omega) hlt) h4

theorem blocks_congr (h h1 : Heap) (l : List Nat) (hc : ∀ a ∈ l, h1 a = h a) :
    blocks h1 l = blocks h l := by
  unfold blocks
  apply List.map_congr_left
  intro a ha
  simp [blkOf, hc a ha]

theorem coalesce_some_head :
    ∀ (bs : List Blk) (c : Blk), ∃ M rest, coalesce (some c) bs = ⟨c.addr, M, c.free⟩ :: rest := by
  intro bs
  induction bs with
  | nil => intro c; exact ⟨c.size, [], by simp [coalesce]⟩
  | cons b bs ih =>
    intro c
    by_cases hb : b.free
    · obtain ⟨M, rest, h⟩ := ih { c with size := c.size + b.size }
      exact ⟨M, rest, by simp [coalesce, hb, h]⟩
    · exact ⟨c.size, b :: coalesce none bs, by simp [coalesce, hb]⟩

theorem convertToFree_id (s : GC) (c : Nat) (h : (s.heap c).type = .tFree) :
    convertToFree s c (freeWords (s.heap c)) = s := by
  unfold convertToFree
  have : setSize { s.heap c with type := .tFree } (freeWords (s.heap c)) = s.heap c := by
    revert h
    cases s.heap c
    intro h
    simp only at h
    simp [setSize, freeWords, h]
  rw [this, setObj_self, GC.withHeap_heap]

theorem convertToFree_convertToFree (s : GC) (c n m : Nat) :
    convertToFree (convertToFree s c n) c m = convertToFree s c m := by
  simp [convertToFree, GC.withHeap, setObj_setObj, setObj_same, setSize]

theorem convertToFree_mergeFree (s s1 : GC) (c n m : Nat) (h : mergeFree s c n = some s1) :
    convertToFree s1 c m = convertToFree s c m := by
  unfold mergeFree at h
  split at h
  · simp only [Option.some.injEq] at h
    subst h
    simp [convertToFree, GC.withHeap, setObj_setObj, setObj_same, setSize]
  · simp at h

theorem applyBlk_free_congr (s s1 : GC) (c M : Nat)
    (h : convertToFree s1 c M = convertToFree s c M) :
    applyBlk s1 ⟨c, M, true⟩ = applyBlk s ⟨c, M, true⟩ := by
  simp [applyBlk, h]

theorem applyBlks_coalesce_congr (s s1 : GC) (c : Blk) (bs : List Blk) (hf : c.free = true)
    (h : ∀ M, convertToFree s1 c.addr M = convertToFree s c.addr M) :
    applyBlks s1 (coalesce (some c) bs) = applyBlks s (coalesce (some c) bs) := by
  obtain ⟨M, rest, e⟩ := coalesce_some_head bs c
  rw [e, hf]
  simp only [applyBlks, List.foldl_cons]
  rw [applyBlk_free_congr s s1 c.addr M (h M)]

theorem applyBlk_cur (s : GC) (c : Nat) (h : (s.heap c).type = .tFree) :
    applyBlk s ⟨c, freeWords (s.heap c), true⟩ =
      if freeWords (s.heap c) > 1 then pushFree s c else s := by
  simp [applyBlk, convertToFree_id s c h]

theorem mergeFree_some (s : GC) (c n : Nat) (h : 1 ≤ freeWords (s.heap c)) :
    mergeFree s c n = some (s.withHeap (setObj s.heap c
      (setSize (s.heap c) (freeWords (s.heap c) + n)))) := by
  simp [mergeFree, h]

/-! ## The sweep of one arena is coalescing -/

theorem sweepFrom_spec (stop : Nat) :
    ∀ (l : List Nat) (fuel : Nat) (s : GC) (pos c nf wf : Nat),
      Tiles s.heap stop pos l → l.length ≤ fuel → ListsOk s → 0 < pos →
      (c ≠ 0 → (s.heap c).type = .tFree ∧ c < pos ∧ 1 ≤ freeWords (s.heap c)) →
      ∃ nf1 wf1, sweepFrom stop fuel s pos c nf wf =
        .done (applyBlks s (coalesce (curBlk s c) (blocks s.heap l)), nf1, wf1) := by
  intro l
  induction l with
  | nil =>
    intro fuel s pos c nf wf hT _ hL _ hc
    have hp : pos = stop := hT
    subst hp
    refine ⟨nf, wf, ?_⟩
    rw [sweepFrom_stop _ _ _ _ _ _ _ (linkCurFree_done s c hL)]
    by_cases hc0 : c = 0
    · subst hc0
      simp [curBlk, blocks, coalesce, applyBlks]
    · obtain ⟨ht, -, -⟩ := hc hc0
      simp only [curBlk, hc0, if_false, blocks, List.map_nil, coalesce, applyBlks,
        List.foldl_cons, List.foldl_nil]
      rw [applyBlk_cur s c ht]
      simp [hc0]
  | cons a l ih =>
    intro fuel s pos c nf wf hT hf hL hp hc
    obtain ⟨rfl, hlt, hw, hT1⟩ := hT
    cases fuel with
    | zero => simp at hf
    | succ f =>
    have hn := objSize_of_pos hw
    have hf1 : l.length ≤ f := by simpa using hf
    have hmem := Tiles_ge _ _ _ _ hT1
    have ha0 : a ≠ 0 := by omega
    by_cases ht : (s.heap a).type = .tFree
    · by_cases hc0 : c = 0
      · subst hc0
        rw [sweepFrom_free_first _ _ _ _ _ _ _ hlt hn ht]
        obtain ⟨nf1, wf1, e⟩ := ih f s (a + objWords (s.heap a)) a nf wf hT1 hf1 hL
          (by omega) (fun _ => ⟨ht, by omega, by rw [← objWords_free ht]; omega⟩)
        refine ⟨nf1, wf1, ?_⟩
        rw [e]
        simp [curBlk, blocks, coalesce, blkOf, ht, objWords_free ht, ha0]
      · obtain ⟨hct, hclt, hc1⟩ := hc hc0
        have hm := mergeFree_some s c (objWords (s.heap a)) hc1
        rw [sweepFrom_free_merge _ _ _ _ _ _ _ _ _ hlt hn ht hc0 hm]
        generalize hs1 : s.withHeap (setObj s.heap c
          (setSize (s.heap c) (freeWords (s.heap c) + objWords (s.heap a)))) = s1 at hm
        have hne : ∀ x, c < x → s1.heap x = s.heap x := by
          intro x hx
          simp [← hs1, GC.withHeap, setObj, show x ≠ c by omega]
        have hT2 : Tiles s1.heap stop (a + objWords (s.heap a)) l :=
          Tiles_congr _ _ _ _ _ (fun x hx _ => by rw [hne x (by omega)]) hT1
        have hL1 : ListsOk s1 := by rw [← hs1]; exact hL
        have hcell : s1.heap c = setSize (s.heap c) (freeWords (s.heap c) + objWords (s.heap a)) := by
          simp [← hs1, GC.withHeap, setObj]
        obtain ⟨nf1, wf1, e⟩ := ih f s1 _ c nf wf hT2 hf1 hL1 (by omega)
          (fun _ => ⟨by rw [hcell]; simpa [setSize] using hct, by omega,
            by rw [hcell]; simp [setSize, freeWords]; omega⟩)
        refine ⟨nf1, wf1, ?_⟩
        rw [e]
        have hb : blocks s1.heap l = blocks s.heap l :=
          blocks_congr _ _ _ (fun x hx => hne x (by have := hmem x hx; omega))
        rw [hb]
        have hcur1 : curBlk s1 c =
            some ⟨c, freeWords (s.heap c) + objWords (s.heap a), true⟩ := by
          simp [curBlk, hc0, hcell, setSize, freeWords]
        have hco : coalesce (curBlk s c) (blocks s.heap (a :: l)) =
            coalesce (some ⟨c, freeWords (s.heap c) + objWords (s.heap a), true⟩)
              (blocks s.heap l) := by
          simp [curBlk, hc0, blocks, coalesce, blkOf, ht]
        rw [hcur1, hco]
        rw [applyBlks_coalesce_congr s s1
          ⟨c, freeWords (s.heap c) + objWords (s.heap a), true⟩ _ rfl
          (fun M => convertToFree_mergeFree s s1 c _ M hm)]
    · by_cases hmk : (s.heap a).marked = true
      · have hl := linkCurFree_done s c hL
        rw [sweepFrom_marked _ _ _ _ _ _ _ _ _ hlt hn ht hmk hl]
        generalize hs1 : (if c ≠ 0 ∧ freeWords (s.heap c) > 1 then pushFree s c else s) = s1
        have hs1L : ListsOk s1 := by
          rw [← hs1]; split
          · exact pushFree_listsOk s c hL
          · exact hL
        have hne1 : ∀ x, x ≠ c → s1.heap x = s.heap x := by
          intro x hx
          rw [← hs1]; split
          · exact pushFree_heap_other s c x hx
          · rfl
        have hca : c ≠ a := by
          intro hca
          subst hca
          have := (hc ha0).2.1
          omega
        have hne : ∀ x, a < x → (unmarkAt s1 a).heap x = s.heap x := by
          intro x hx
          have hxc : x ≠ c := by
            intro hxc
            subst hxc
            have := (hc (by omega)).2.1
            omega
          simp [unmarkAt, GC.withHeap, setObj, show x ≠ a by omega, hne1 x hxc]
        have hT2 : Tiles (unmarkAt s1 a).heap stop (a + objWords (s.heap a)) l :=
          Tiles_congr _ _ _ _ _ (fun x hx _ => by rw [hne x (by omega)]) hT1
        obtain ⟨nf1, wf1, e⟩ := ih f (unmarkAt s1 a) _ 0 nf wf hT2 hf1 hs1L (by omega)
          (fun h => absurd rfl h)
        refine ⟨nf1, wf1, ?_⟩
        rw [e]
        have hb : blocks (unmarkAt s1 a).heap l = blocks s.heap l :=
          blocks_congr _ _ _ (fun x hx => hne x (by have := hmem x hx; omega))
        rw [hb]
        have hcur0 : curBlk (unmarkAt s1 a) 0 = none := by simp [curBlk]
        rw [hcur0]
        have hblk : blkOf s.heap a = ⟨a, objWords (s.heap a), false⟩ := by
          simp [blkOf, ht, hmk]
        by_cases hc0 : c = 0
        · subst hc0
          have : s1 = s := by rw [← hs1]; simp
          subst this
          simp [curBlk, blocks, coalesce, hblk, applyBlks, applyBlk]
        · obtain ⟨hct, -, -⟩ := hc hc0
          have : applyBlk s ⟨c, freeWords (s.heap c), true⟩ = s1 := by
            rw [applyBlk_cur s c hct, ← hs1]
            simp [hc0]
          simp only [curBlk, hc0, if_false, blocks, List.map_cons, hblk, coalesce,
            applyBlks, List.foldl_cons, Bool.false_eq_true]
          rw [this]
          simp [applyBlk]
      · have hmk0 : (s.heap a).marked = false := by simpa using hmk
        have hblk : blkOf s.heap a = ⟨a, objWords (s.heap a), true⟩ := by
          simp [blkOf, ht, hmk0]
        by_cases hc0 : c = 0
        · subst hc0
          rw [sweepFrom_dead_first _ _ _ _ _ _ _ hlt hn ht hmk0]
          generalize hs1 : convertToFree s a (objWords (s.heap a)) = s1
          have hcell : s1.heap a =
              setSize { s.heap a with type := .tFree } (objWords (s.heap a)) := by
            simp [← hs1, convertToFree, GC.withHeap, setObj]
          have hne : ∀ x, a < x → s1.heap x = s.heap x := by
            intro x hx
            simp [← hs1, convertToFree, GC.withHeap, setObj, show x ≠ a by omega]
          have hT2 : Tiles s1.heap stop (a + objWords (s.heap a)) l :=
            Tiles_congr _ _ _ _ _ (fun x hx _ => by rw [hne x (by omega)]) hT1
          have hL1 : ListsOk s1 := by rw [← hs1]; exact hL
          obtain ⟨nf1, wf1, e⟩ := ih f s1 _ a (nf + 1) (wf + objWords (s.heap a)) hT2 hf1 hL1
            (by omega)
            (fun _ => ⟨by rw [hcell]; simp [setSize], by omega,
              by rw [hcell]; simp [setSize, freeWords]; omega⟩)
          refine ⟨nf1, wf1, ?_⟩
          rw [e]
          have hb : blocks s1.heap l = blocks s.heap l :=
            blocks_congr _ _ _ (fun x hx => hne x (by have := hmem x hx; omega))
          rw [hb]
          have hcur1 : curBlk s1 a = some ⟨a, objWords (s.heap a), true⟩ := by
            simp [curBlk, ha0, hcell, setSize, freeWords]
          have hco : coalesce (curBlk s 0) (blocks s.heap (a :: l)) =
              coalesce (some ⟨a, objWords (s.heap a), true⟩) (blocks s.heap l) := by
            simp [curBlk, blocks, coalesce, hblk]
          rw [hcur1, hco]
          rw [applyBlks_coalesce_congr s s1 ⟨a, objWords (s.heap a), true⟩ _ rfl
            (fun M => by rw [← hs1]; exact convertToFree_convertToFree s a _ M)]
        · obtain ⟨hct, hclt, hc1⟩ := hc hc0
          have hm := mergeFree_some s c (objWords (s.heap a)) hc1
          rw [sweepFrom_dead_merge _ _ _ _ _ _ _ _ _ hlt hn ht hmk0 hc0 hm]
          generalize hs1 : s.withHeap (setObj s.heap c
            (setSize (s.heap c) (freeWords (s.heap c) + objWords (s.heap a)))) = s1 at hm
          have hne : ∀ x, c < x → s1.heap x = s.heap x := by
            intro x hx
            simp [← hs1, GC.withHeap, setObj, show x ≠ c by omega]
          have hT2 : Tiles s1.heap stop (a + objWords (s.heap a)) l :=
            Tiles_congr _ _ _ _ _ (fun x hx _ => by rw [hne x (by omega)]) hT1
          have hL1 : ListsOk s1 := by rw [← hs1]; exact hL
          have hcell : s1.heap c =
              setSize (s.heap c) (freeWords (s.heap c) + objWords (s.heap a)) := by
            simp [← hs1, GC.withHeap, setObj]
          obtain ⟨nf1, wf1, e⟩ := ih f s1 _ c (nf + 1) (wf + objWords (s.heap a)) hT2 hf1 hL1
            (by omega)
            (fun _ => ⟨by rw [hcell]; simpa [setSize] using hct, by omega,
              by rw [hcell]; simp [setSize, freeWords]; omega⟩)
          refine ⟨nf1, wf1, ?_⟩
          rw [e]
          have hb : blocks s1.heap l = blocks s.heap l :=
            blocks_congr _ _ _ (fun x hx => hne x (by have := hmem x hx; omega))
          rw [hb]
          have hcur1 : curBlk s1 c =
              some ⟨c, freeWords (s.heap c) + objWords (s.heap a), true⟩ := by
            simp [curBlk, hc0, hcell, setSize, freeWords]
          have hco : coalesce (curBlk s c) (blocks s.heap (a :: l)) =
              coalesce (some ⟨c, freeWords (s.heap c) + objWords (s.heap a), true⟩)
                (blocks s.heap l) := by
            simp [curBlk, hc0, blocks, coalesce, hblk]
          rw [hcur1, hco]
          rw [applyBlks_coalesce_congr s s1
            ⟨c, freeWords (s.heap c) + objWords (s.heap a), true⟩ _ rfl
            (fun M => convertToFree_mergeFree s s1 c _ M hm)]

/-! ## The effect of the sweep on the cells of its output blocks -/

theorem applyBlk_heap_other (s : GC) (b : Blk) (x : Nat) (hx : x ≠ b.addr) :
    (applyBlk s b).heap x = s.heap x := by
  unfold applyBlk
  split
  · split
    · rw [pushFree_heap_other _ _ _ hx]
      simp [convertToFree, GC.withHeap, setObj, hx]
    · simp [convertToFree, GC.withHeap, setObj, hx]
  · simp [unmarkAt, GC.withHeap, setObj, hx]

theorem applyBlk_heap_live (s : GC) (b : Blk) (hb : b.free = false) :
    (applyBlk s b).heap b.addr = { s.heap b.addr with marked := false } := by
  simp [applyBlk, hb, unmarkAt, GC.withHeap, setObj]

theorem applyBlk_heap_free (s : GC) (b : Blk) (hb : b.free = true) :
    ∃ nxt, (applyBlk s b).heap b.addr =
      { s.heap b.addr with type := .tFree, misc := b.size, next := nxt } := by
  unfold applyBlk
  rw [if_pos hb]
  split
  · obtain ⟨nxt, h⟩ := pushFree_heap_same (convertToFree s b.addr b.size) b.addr
    exact ⟨nxt, by rw [h]; simp [convertToFree, GC.withHeap, setObj, setSize]⟩
  · exact ⟨(s.heap b.addr).next, by simp [convertToFree, GC.withHeap, setObj, setSize]⟩

theorem applyBlks_heap_other (x : Nat) :
    ∀ (bs : List Blk) (s : GC), (∀ b ∈ bs, x ≠ b.addr) → (applyBlks s bs).heap x = s.heap x := by
  intro bs
  induction bs with
  | nil => intro s _; rfl
  | cons b bs ih =>
    intro s h
    simp only [applyBlks, List.foldl_cons]
    have := ih (applyBlk s b) (fun c hc => h c (List.mem_cons_of_mem _ hc))
    simp only [applyBlks] at this
    rw [this, applyBlk_heap_other s b x (h b (List.mem_cons_self _ _))]

theorem applyBlks_heap_live :
    ∀ (bs : List Blk) (s : GC), (bs.map Blk.addr).Nodup → ∀ b ∈ bs, b.free = false →
      (applyBlks s bs).heap b.addr = { s.heap b.addr with marked := false } := by
  intro bs
  induction bs with
  | nil => intro s _ b hb; simp at hb
  | cons c bs ih =>
    intro s hnd b hb hf
    simp only [List.map_cons, List.nodup_cons] at hnd
    simp only [applyBlks, List.foldl_cons]
    rcases List.mem_cons.1 hb with rfl | hb
    · have := applyBlks_heap_other b.addr bs (applyBlk s b) (fun c hc heq =>
        hnd.1 (by rw [heq]; exact List.mem_map_of_mem _ hc))
      simp only [applyBlks] at this
      rw [this, applyBlk_heap_live s b hf]
    · have := ih (applyBlk s c) hnd.2 b hb hf
      simp only [applyBlks] at this
      rw [this, applyBlk_heap_other s c b.addr (fun heq =>
        hnd.1 (by rw [← heq]; exact List.mem_map_of_mem _ hb))]

theorem applyBlks_heap_free :
    ∀ (bs : List Blk) (s : GC), (bs.map Blk.addr).Nodup → ∀ b ∈ bs, b.free = true →
      ∃ nxt, (applyBlks s bs).heap b.addr =
        { s.heap b.addr with type := .tFree, misc := b.size, next := nxt } := by
  intro bs
  induction bs with
  | nil => intro s _ b hb; simp at hb
  | cons c bs ih =>
    intro s hnd b hb hf
    simp only [List.map_cons, List.nodup_cons] at hnd
    simp only [applyBlks, List.foldl_cons]
    rcases List.mem_cons.1 hb with rfl | hb
    · have := applyBlks_heap_other b.addr bs (applyBlk s b) (fun c hc heq =>
        hnd.1 (by rw [heq]; exact List.mem_map_of_mem _ hc))
      simp only [applyBlks] at this
      rw [this]
      exact applyBlk_heap_free s b hf
    · have := ih (applyBlk s c) hnd.2 b hb hf
      simp only [applyBlks] at this
      rw [applyBlk_heap_other s c b.addr (fun heq =>
        hnd.1 (by rw [← heq]; exact List.mem_map_of_mem _ hb))] at this
      exact this

/-! ## Fields the sweep leaves alone -/

theorem pushFree_fields (s : GC) (obj : Nat) :
    (pushFree s obj).arenas = s.arenas ∧ (pushFree s obj).ptrRoots = s.ptrRoots ∧
    (pushFree s obj).objRoots = s.objRoots ∧ (pushFree s obj).validate = s.validate ∧
    (pushFree s obj).totalSize = s.totalSize ∧ (pushFree s obj).nextSize = s.nextSize ∧
    (pushFree s obj).allTimeWordsFreed = s.allTimeWordsFreed ∧
    (pushFree s obj).freeLists.map FreeList.minSize = s.freeLists.map FreeList.minSize := by
  obtain ⟨nxt, lists, h, hm⟩ := pushFree_shape s obj
  rw [h]
  simp [hm]

theorem applyBlk_fields (s : GC) (b : Blk) :
    (applyBlk s b).arenas = s.arenas ∧ (applyBlk s b).ptrRoots = s.ptrRoots ∧
    (applyBlk s b).objRoots = s.objRoots ∧ (applyBlk s b).validate = s.validate ∧
    (applyBlk s b).totalSize = s.totalSize ∧ (applyBlk s b).nextSize = s.nextSize ∧
    (applyBlk s b).allTimeWordsFreed = s.allTimeWordsFreed ∧
    (applyBlk s b).freeLists.map FreeList.minSize = s.freeLists.map FreeList.minSize := by
  unfold applyBlk
  split
  · split
    · exact pushFree_fields (convertToFree s b.addr b.size) b.addr
    · simp [convertToFree, GC.withHeap]
  · simp [unmarkAt, GC.withHeap]

theorem applyBlks_fields :
    ∀ (bs : List Blk) (s : GC),
    (applyBlks s bs).arenas = s.arenas ∧ (applyBlks s bs).ptrRoots = s.ptrRoots ∧
    (applyBlks s bs).objRoots = s.objRoots ∧ (applyBlks s bs).validate = s.validate ∧
    (applyBlks s bs).totalSize = s.totalSize ∧ (applyBlks s bs).nextSize = s.nextSize ∧
    (applyBlks s bs).allTimeWordsFreed = s.allTimeWordsFreed ∧
    (applyBlks s bs).freeLists.map FreeList.minSize = s.freeLists.map FreeList.minSize := by
  intro bs
  induction bs with
  | nil => intro s; simp [applyBlks]
  | cons b bs ih =>
    intro s
    have h1 := ih (applyBlk s b)
    have h2 := applyBlk_fields s b
    simp only [applyBlks, List.foldl_cons] at h1 ⊢
    obtain ⟨a1, a2, a3, a4, a5, a6, a7, a8⟩ := h1
    obtain ⟨b1, b2, b3, b4, b5, b6, b7, b8⟩ := h2
    exact ⟨a1.trans b1, a2.trans b2, a3.trans b3, a4.trans b4, a5.trans b5, a6.trans b6,
      a7.trans b7, a8.trans b8⟩

theorem listsOk_of_minSize (s s1 : GC)
    (h : s1.freeLists.map FreeList.minSize = s.freeLists.map FreeList.minSize)
    (hL : ListsOk s) : ListsOk s1 := by
  unfold ListsOk at *
  rw [h]
  refine ⟨hL.1, ?_⟩
  obtain ⟨fl, hfl, hle⟩ := hL.2
  have : fl.minSize ∈ s1.freeLists.map FreeList.minSize := by
    rw [h]; exact List.mem_map_of_mem _ hfl
  obtain ⟨g, hg, hge⟩ := List.mem_map.1 this
  exact ⟨g, hg, by omega⟩

theorem applyBlks_listsOk (bs : List Blk) (s : GC) (hL : ListsOk s) :
    ListsOk (applyBlks s bs) :=
  listsOk_of_minSize s _ (applyBlks_fields bs s).2.2.2.2.2.2.2 hL

theorem sizeClass_congr (s s1 : GC)
    (h : s1.freeLists.map FreeList.minSize = s.freeLists.map FreeList.minSize) (n : Nat) :
    sizeClass s1 n = sizeClass s n := by
  unfold sizeClass
  have key : ∀ (L1 L2 : List FreeList),
      L1.map FreeList.minSize = L2.map FreeList.minSize → pickMin n L1 = pickMin n L2 := by
    intro L1
    induction L1 with
    | nil =>
      intro L2 h
      cases L2 with
      | nil => rfl
      | cons _ _ => simp at h
    | cons a L1 ih =>
      intro L2 h
      cases L2 with
      | nil => simp at h
      | cons b L2 =>
        simp only [List.map_cons, List.cons.injEq] at h
        simp [pickMin, h.1, ih L2 h.2]
  apply key
  rw [List.map_reverse, List.map_reverse, h]

/-! ## The free-lists after a sweep -/

theorem Chain_congr (h h1 : Heap) :
    ∀ (l : List Nat) (p : Nat), (∀ a ∈ l, (h1 a).next = (h a).next) →
      Chain h p l → Chain h1 p l := by
  intro l
  induction l with
  | nil => intro p _ hc; exact hc
  | cons a l ih =>
    intro p hn hc
    obtain ⟨h1', h2, h3⟩ := hc
    refine ⟨h1', h2, ?_⟩
    rw [hn a (List.mem_cons_self _ _)]
    exact ih _ (fun b hb => hn b (List.mem_cons_of_mem _ hb)) h3

theorem pushFree_spec (s : GC) (obj : Nat) (hL : ListsOk s)
    (h2 : 2 ≤ freeWords (s.heap obj)) :
    ∃ fl ∈ s.freeLists, sizeClass s (freeWords (s.heap obj)) = some fl.minSize ∧
      (pushFree s obj).heap = setObj s.heap obj { s.heap obj with next := fl.front } ∧
      { fl with front := obj } ∈ (pushFree s obj).freeLists ∧
      ∀ g ∈ (pushFree s obj).freeLists,
        g = { fl with front := obj } ∨ (g ∈ s.freeLists ∧ g.minSize ≠ fl.minSize) := by
  unfold pushFree addToFreeList sizeClass
  cases hr : linkFirst obj (freeWords (s.heap obj)) s.freeLists.reverse with
  | none =>
    obtain ⟨fl, hfl, hle⟩ := hL.2
    have := linkFirst_none _ _ _ hr fl (by simpa using hfl)
    omega
  | some r =>
    obtain ⟨nxt, L1⟩ := r
    obtain ⟨pre, fl, post, e1, e2, e3, -, -, e6⟩ := linkFirst_some _ _ _ _ _ hr
    have hmem : ∀ g, g ∈ s.freeLists ↔ g ∈ pre ∨ g = fl ∨ g ∈ post := by
      intro g
      rw [← List.mem_reverse, e1]
      simp
    have hnd : ((pre ++ fl :: post).map FreeList.minSize).Nodup := by
      rw [← e1, List.map_reverse, List.nodup_reverse]
      exact hL.1
    rw [List.map_append, List.map_cons, List.nodup_append] at hnd
    obtain ⟨-, hnd2, hdis⟩ := hnd
    rw [List.nodup_cons] at hnd2
    refine ⟨fl, (hmem fl).2 (Or.inr (Or.inl rfl)), e6, by simp [e3], ?_, ?_⟩
    · simp [e2]
    · intro g hg
      simp only [e2, List.mem_reverse, List.mem_append, List.mem_cons] at hg
      rcases hg with hg | hg | hg
      · right
        refine ⟨(hmem g).2 (Or.inl hg), ?_⟩
        intro heq
        exact hdis (List.mem_map_of_mem _ hg) (by rw [heq]; simp)
      · left; exact hg
      · right
        refine ⟨(hmem g).2 (Or.inr (Or.inr hg)), ?_⟩
        intro heq
        exact hnd2.1 (by rw [← heq]; exact List.mem_map_of_mem _ hg)

theorem chainOf_congr (s s1 : GC)
    (h : s1.freeLists.map FreeList.minSize = s.freeLists.map FreeList.minSize)
    (t : Nat) (bs : List Blk) : chainOf s1 t bs = chainOf s t bs := by
  unfold chainOf
  simp only [sizeClass_congr s s1 h]

theorem chainOf_mem (s : GC) (t : Nat) (bs : List Blk) (a : Nat) (ha : a ∈ chainOf s t bs) :
    ∃ b ∈ bs, b.addr = a ∧ b.free = true ∧ 1 < b.size ∧ sizeClass s b.size = some t := by
  unfold chainOf at ha
  simp only [List.mem_reverse, List.mem_map, List.mem_filter, Bool.and_eq_true,
    decide_eq_true_eq] at ha
  obtain ⟨b, ⟨hb, ⟨h1, h2⟩, h3⟩, h4⟩ := ha
  exact ⟨b, hb, h4, h1, h2, h3⟩

theorem applyBlks_snoc (s : GC) (bs : List Blk) (b : Blk) :
    applyBlks s (bs ++ [b]) = applyBlk (applyBlks s bs) b := by
  simp [applyBlks, List.foldl_append]

theorem applyBlks_chains (s : GC) (hL : ListsOk s) (init : Nat → List Nat)
    (h0 : ∀ fl ∈ s.freeLists, Chain s.heap fl.front (init fl.minSize)) :
    ∀ (bs : List Blk), (bs.map Blk.addr).Nodup → (∀ b ∈ bs, b.addr ≠ 0) →
      (∀ t, ∀ a ∈ init t, ∀ b ∈ bs, a ≠ b.addr) →
      ∀ fl ∈ (applyBlks s bs).freeLists,
        Chain (applyBlks s bs).heap fl.front (chainOf s fl.minSize bs ++ init fl.minSize) := by
  intro bs
  induction bs using List.list_reverse_induction with
  | base =>
    intro _ _ _ fl hfl
    simp only [applyBlks, List.foldl_nil] at hfl ⊢
    simpa [chainOf] using h0 fl hfl
  | ind bs b ih =>
    intro hnd hnz hini fl hfl
    rw [List.map_append, List.nodup_append] at hnd
    obtain ⟨hnd1, -, hdis⟩ := hnd
    have hnz1 : ∀ c ∈ bs, c.addr ≠ 0 := fun c hc => hnz c (by simp [hc])
    have ih1 := ih hnd1 hnz1 (fun t a ha c hc => hini t a ha c (by simp [hc]))
    have hbn : ∀ a ∈ bs.map Blk.addr, a ≠ b.addr := by
      intro a ha heq
      exact hdis ha (by simp [heq])
    rw [applyBlks_snoc] at hfl ⊢
    generalize hS : applyBlks s bs = S at ih1 hfl ⊢
    have hSmin : S.freeLists.map FreeList.minSize = s.freeLists.map FreeList.minSize := by
      rw [← hS]; exact (applyBlks_fields bs s).2.2.2.2.2.2.2
    have hSL : ListsOk S := listsOk_of_minSize s S hSmin hL
    have hsub : ∀ t, ∀ a ∈ chainOf s t bs ++ init t, a ≠ b.addr := by
      intro t a ha
      rcases List.mem_append.1 ha with ha | ha
      · obtain ⟨c, hc, hca, -⟩ := chainOf_mem s t bs a ha
        exact hbn a (by rw [← hca]; exact List.mem_map_of_mem _ hc)
      · exact hini t a ha b (by simp)
    by_cases hb : b.free = true ∧ 1 < b.size
    · -- the block is linked
      have hS2 : applyBlk S b = pushFree (convertToFree S b.addr b.size) b.addr := by
        simp [applyBlk, hb.1, hb.2]
      rw [hS2] at hfl ⊢
      generalize hC : convertToFree S b.addr b.size = C at hfl ⊢
      have hCl : C.freeLists = S.freeLists := by rw [← hC]; rfl
      have hCw : freeWords (C.heap b.addr) = b.size := by
        rw [← hC]; simp [convertToFree, GC.withHeap, setObj, setSize, freeWords]
      have hCL : ListsOk C := listsOk_of_minSize S C (by rw [hCl]) hSL
      obtain ⟨g, hg, hcls, hheap, -, hall⟩ := pushFree_spec C b.addr hCL (by omega)
      have hnext : ∀ a, a ≠ b.addr →
          ((pushFree C b.addr).heap a).next = (S.heap a).next := by
        intro a ha
        rw [hheap, ← hC]
        simp [convertToFree, GC.withHeap, setObj, ha]
      have hclsS : sizeClass s b.size = some g.minSize := by
        rw [← sizeClass_congr s C (by rw [hCl, hSmin]), ← hCw]
        exact hcls
      rcases hall fl hfl with rfl | ⟨hflS, hne⟩
      · have hch : chainOf s g.minSize (bs ++ [b]) = b.addr :: chainOf s g.minSize bs := by
          simp [chainOf, List.filter_append, hb.1, hb.2, hclsS]
        simp only
        rw [hch, List.cons_append]
        refine ⟨rfl, hnz b (by simp), ?_⟩
        have hgS : g ∈ S.freeLists := by rw [← hCl]; exact hg
        have hbnext : ((pushFree C b.addr).heap b.addr).next = g.front := by
          rw [hheap]; simp [setObj]
        rw [hbnext]
        exact Chain_congr S.heap _ _ _ (fun a ha => hnext a (hsub _ a ha)) (ih1 g hgS)
      · have hch : chainOf s fl.minSize (bs ++ [b]) = chainOf s fl.minSize bs := by
          have : ¬ sizeClass s b.size = some fl.minSize := by
            rw [hclsS]
            intro h
            exact hne (Option.some.inj h).symm
          simp [chainOf, List.filter_append, this]
        rw [hch]
        have hflS1 : fl ∈ S.freeLists := by rw [← hCl]; exact hflS
        exact Chain_congr S.heap _ _ _ (fun a ha => hnext a (hsub _ a ha)) (ih1 fl hflS1)
    · -- the block is live, or too small to be linked
      have hch : chainOf s fl.minSize (bs ++ [b]) = chainOf s fl.minSize bs := by
        have : ¬ (b.free = true ∧ 1 < b.size ∧ sizeClass s b.size = some fl.minSize) :=
          fun h => hb ⟨h.1, h.2.1⟩
        simp only [chainOf, List.filter_append, List.map_append, List.reverse_append]
        have hf : List.filter (fun b =>
            b.free && decide (1 < b.size) && decide (sizeClass s b.size = some fl.minSize))
            [b] = [] := by
          simp only [List.filter_cons, List.filter_nil]
          split
          · rename_i h
            simp only [Bool.and_eq_true, decide_eq_true_eq] at h
            exact absurd ⟨h.1.1, h.1.2, h.2⟩ this
          · rfl
        rw [hf]
        simp
      rw [hch]
      have hlists : (applyBlk S b).freeLists = S.freeLists := by
        unfold applyBlk
        split
        · rename_i hf
          have : ¬ 1 < b.size := fun h => hb ⟨hf, h⟩
          simp [this, convertToFree, GC.withHeap]
        · simp [unmarkAt, GC.withHeap]
      have hnext : ∀ a, a ≠ b.addr → ((applyBlk S b).heap a).next = (S.heap a).next := by
        intro a ha
        rw [applyBlk_heap_other S b a ha]
      rw [hlists] at hfl
      exact Chain_congr S.heap _ _ _ (fun a ha => hnext a (hsub _ a ha)) (ih1 fl hfl)

/-! ## Coalescing, on lists of blocks -/

theorem coalesce_some_head_ge :
    ∀ (bs : List Blk) (c : Blk),
      ∃ M rest, coalesce (some c) bs = ⟨c.addr, M, c.free⟩ :: rest ∧ c.size ≤ M := by
  intro bs
  induction bs with
  | nil => intro c; exact ⟨c.size, [], by simp [coalesce], le_refl _⟩
  | cons b bs ih =>
    intro c
    by_cases hb : b.free
    · obtain ⟨M, rest, h, hle⟩ := ih { c with size := c.size + b.size }
      exact ⟨M, rest, by simp [coalesce, hb, h], by simp at hle; omega⟩
    · exact ⟨c.size, b :: coalesce none bs, by simp [coalesce, hb], le_refl _⟩

theorem coalesce_addr_mem :
    ∀ (bs : List Blk) (cur : Option Blk) (d : Blk), d ∈ coalesce cur bs →
      (∃ c, cur = some c ∧ d.addr = c.addr) ∨ d.addr ∈ bs.map Blk.addr := by
  intro bs
  induction bs with
  | nil =>
    intro cur d hd
    cases cur with
    | none => simp [coalesce] at hd
    | some c =>
      simp only [coalesce, List.mem_singleton] at hd
      exact Or.inl ⟨c, rfl, by rw [hd]⟩
  | cons b bs ih =>
    intro cur d hd
    cases cur with
    | none =>
      by_cases hb : b.free
      · simp only [coalesce, hb, if_true] at hd
        rcases ih _ d hd with ⟨c, hc, hdc⟩ | h
        · right
          simp only [Option.some.injEq] at hc
          subst hc
          simp [hdc]
        · right; simp [List.mem_map] at h ⊢; right; exact h
      · simp only [coalesce, hb, Bool.false_eq_true, if_false, List.mem_cons] at hd
        rcases hd with rfl | hd
        · right; simp
        · rcases ih _ d hd with ⟨c, hc, -⟩ | h
          · simp at hc
          · right; simp [List.mem_map] at h ⊢; right; exact h
    | some c =>
      by_cases hb : b.free
      · simp only [coalesce, hb, if_true] at hd
        rcases ih _ d hd with ⟨c1, hc, hdc⟩ | h
        · left
          simp only [Option.some.injEq] at hc
          subst hc
          exact ⟨c, rfl, hdc⟩
        · right; simp [List.mem_map] at h ⊢; right; exact h
      · simp only [coalesce, hb, Bool.false_eq_true, if_false, List.mem_cons] at hd
        rcases hd with rfl | rfl | hd
        · left; exact ⟨d, rfl, rfl⟩
        · right; simp
        · rcases ih _ d hd with ⟨c1, hc, -⟩ | h
          · simp at hc
          · right; simp [List.mem_map] at h ⊢; right; exact h

theorem Contig_ge (stop : Nat) :
    ∀ (bs : List Blk) (pos : Nat), Contig stop pos bs →
      ∀ b ∈ bs, pos ≤ b.addr ∧ b.addr + b.size ≤ stop ∧ 0 < b.size := by
  intro bs
  induction bs with
  | nil => intro pos _ b hb; simp at hb
  | cons c bs ih =>
    intro pos hC b hb
    obtain ⟨h1, h2, h3, h4⟩ := hC
    have hle : pos + c.size ≤ stop := by
      cases bs with
      | nil => have : pos + c.size = stop := h4; omega
      | cons d ds => have := h4.2.1; omega
    rcases List.mem_cons.1 hb with rfl | hb
    · omega
    · have := ih _ h4 b hb
      omega

theorem Contig_nodup (stop : Nat) :
    ∀ (bs : List Blk) (pos : Nat), Contig stop pos bs → (bs.map Blk.addr).Nodup := by
  intro bs
  induction bs with
  | nil => intro pos _; simp
  | cons c bs ih =>
    intro pos hC
    obtain ⟨h1, h2, h3, h4⟩ := hC
    simp only [List.map_cons, List.nodup_cons]
    refine ⟨?_, ih _ h4⟩
    intro hmem
    obtain ⟨d, hd, hda⟩ := List.mem_map.1 hmem
    have := Contig_ge stop bs _ h4 d hd
    omega

theorem Contig_coalesce (stop : Nat) :
    ∀ (bs : List Blk) (pos : Nat), Contig stop pos bs →
      Contig stop pos (coalesce none bs) ∧
      ∀ c : Blk, c.addr + c.size = pos → 0 < c.size →
        Contig stop c.addr (coalesce (some c) bs) := by
  intro bs
  induction bs with
  | nil =>
    intro pos hC
    have hp : pos = stop := hC
    refine ⟨by simpa [coalesce] using hC, ?_⟩
    intro c hc hpos
    simp only [coalesce, Contig]
    exact ⟨trivial, by omega, hpos, by omega⟩
  | cons b bs ih =>
    intro pos hC
    obtain ⟨h1, h2, h3, h4⟩ := hC
    obtain ⟨ihn, ihs⟩ := ih _ h4
    constructor
    · by_cases hb : b.free
      · simp only [coalesce, hb, if_true]
        have := ihs b (by omega) h3
        rw [h1] at this
        exact this
      · simp only [coalesce, hb]
        exact ⟨h1, h2, h3, ihn⟩
    · intro c hc hpos
      by_cases hb : b.free
      · simp only [coalesce, hb, if_true]
        exact ihs { c with size := c.size + b.size } (by simp; omega) (by simp; omega)
      · simp only [coalesce, hb]
        refine ⟨rfl, by omega, hpos, ?_⟩
        rw [hc]
        exact ⟨h1, h2, h3, ihn⟩

theorem NoAdjFree_cons_live (b : Blk) (bs : List Blk) (hb : b.free = false)
    (h : NoAdjFree bs) : NoAdjFree (b :: bs) := by
  cases bs with
  | nil => trivial
  | cons c cs => exact ⟨by simp [hb], h⟩

theorem NoAdjFree_coalesce :
    ∀ (bs : List Blk), NoAdjFree (coalesce none bs) ∧
      ∀ c : Blk, NoAdjFree (coalesce (some c) bs) := by
  intro bs
  induction bs with
  | nil => exact ⟨trivial, fun c => trivial⟩
  | cons b bs ih =>
    obtain ⟨ihn, ihs⟩ := ih
    constructor
    · by_cases hb : b.free
      · simp only [coalesce, hb, if_true]; exact ihs b
      · simp only [coalesce, hb]
        exact NoAdjFree_cons_live b _ (by simpa using hb) ihn
    · intro c
      by_cases hb : b.free
      · simp only [coalesce, hb, if_true]; exact ihs _
      · simp only [coalesce, hb]
        exact ⟨by simp [hb], NoAdjFree_cons_live b _ (by simpa using hb) ihn⟩

theorem coalesce_live_mem :
    ∀ (bs : List Blk) (cur : Option Blk) (b : Blk), b ∈ bs → b.free = false →
      b ∈ coalesce cur bs := by
  intro bs
  induction bs with
  | nil => intro cur b hb; simp at hb
  | cons c bs ih =>
    intro cur b hb hf
    cases cur with
    | none =>
      by_cases hc : c.free
      · simp only [coalesce, hc, if_true]
        rcases List.mem_cons.1 hb with rfl | hb
        · simp [hf] at hc
        · exact ih _ b hb hf
      · simp only [coalesce, hc]
        rcases List.mem_cons.1 hb with rfl | hb
        · simp
        · exact List.mem_cons_of_mem _ (ih _ b hb hf)
    | some d =>
      by_cases hc : c.free
      · simp only [coalesce, hc, if_true]
        rcases List.mem_cons.1 hb with rfl | hb
        · simp [hf] at hc
        · exact ih _ b hb hf
      · simp only [coalesce, hc]
        rcases List.mem_cons.1 hb with rfl | hb
        · simp
        · exact List.mem_cons_of_mem _ (List.mem_cons_of_mem _ (ih _ b hb hf))

theorem coalesce_mem_live :
    ∀ (bs : List Blk) (cur : Option Blk) (b : Blk), b ∈ coalesce cur bs → b.free = false →
      (∀ c, cur = some c → c.free = true) → b ∈ bs := by
  intro bs
  induction bs with
  | nil =>
    intro cur b hb hf hcur
    cases cur with
    | none => simp [coalesce] at hb
    | some c =>
      simp only [coalesce, List.mem_singleton] at hb
      subst hb
      have := hcur b rfl
      simp [hf] at this
  | cons c bs ih =>
    intro cur b hb hf hcur
    cases cur with
    | none =>
      by_cases hc : c.free
      · simp only [coalesce, hc, if_true] at hb
        exact List.mem_cons_of_mem _ (ih _ b hb hf (fun d hd => by
          simp only [Option.some.injEq] at hd; subst hd; exact hc))
      · simp only [coalesce, hc, Bool.false_eq_true, if_false, List.mem_cons] at hb
        rcases hb with rfl | hb
        · simp
        · exact List.mem_cons_of_mem _ (ih _ b hb hf (fun d hd => by simp at hd))
    | some d =>
      have hdf := hcur d rfl
      by_cases hc : c.free
      · simp only [coalesce, hc, if_true] at hb
        exact List.mem_cons_of_mem _ (ih _ b hb hf (fun e he => by
          simp only [Option.some.injEq] at he; subst he; exact hdf))
      · simp only [coalesce, hc, Bool.false_eq_true, if_false, List.mem_cons] at hb
        rcases hb with rfl | rfl | hb
        · simp [hf] at hdf
        · simp
        · exact List.mem_cons_of_mem _ (ih _ b hb hf (fun d hd => by simp at hd))

theorem coalesce_free_of_mem :
    ∀ (bs : List Blk) (cur : Option Blk) (d : Blk), d ∈ coalesce cur bs → d.free = true →
      (∀ b ∈ bs, 2 ≤ b.size) → (∀ c, cur = some c → 2 ≤ c.size) → 2 ≤ d.size := by
  intro bs
  induction bs with
  | nil =>
    intro cur d hd _ _ hcur
    cases cur with
    | none => simp [coalesce] at hd
    | some c =>
      simp only [coalesce, List.mem_singleton] at hd
      subst hd
      exact hcur d rfl
  | cons c bs ih =>
    intro cur d hd hf hall hcur
    have hall1 : ∀ b ∈ bs, 2 ≤ b.size := fun b hb => hall b (List.mem_cons_of_mem _ hb)
    have hc2 := hall c (List.mem_cons_self _ _)
    cases cur with
    | none =>
      by_cases hc : c.free
      · simp only [coalesce, hc, if_true] at hd
        exact ih _ d hd hf hall1 (fun e he => by
          simp only [Option.some.injEq] at he; subst he; exact hc2)
      · simp only [coalesce, hc, Bool.false_eq_true, if_false, List.mem_cons] at hd
        rcases hd with rfl | hd
        · exact hc2
        · exact ih _ d hd hf hall1 (fun e he => by simp at he)
    | some e =>
      have he2 := hcur e rfl
      by_cases hc : c.free
      · simp only [coalesce, hc, if_true] at hd
        exact ih _ d hd hf hall1 (fun x hx => by
          simp only [Option.some.injEq] at hx; subst hx; simp; omega)
      · simp only [coalesce, hc, Bool.false_eq_true, if_false, List.mem_cons] at hd
        rcases hd with rfl | rfl | hd
        · exact he2
        · exact hc2
        · exact ih _ d hd hf hall1 (fun e he => by simp at he)

theorem coalesce_cover (stop : Nat) :
    ∀ (bs : List Blk) (pos : Nat) (cur : Option Blk), Contig stop pos bs →
      (∀ c, cur = some c → c.free = true ∧ c.addr + c.size = pos) →
      ∀ b ∈ bs, b.free = true →
        ∃ d ∈ coalesce cur bs, d.free = true ∧ d.addr ≤ b.addr ∧
          b.addr + b.size ≤ d.addr + d.size := by
  intro bs
  induction bs with
  | nil => intro pos cur _ _ b hb; simp at hb
  | cons c bs ih =>
    intro pos cur hC hcur b hb hf
    obtain ⟨h1, h2, h3, h4⟩ := hC
    cases cur with
    | none =>
      by_cases hc : c.free
      · simp only [coalesce, hc, if_true]
        rcases List.mem_cons.1 hb with rfl | hb
        · obtain ⟨M, rest, e, hle⟩ := coalesce_some_head_ge bs b
          rw [e]
          exact ⟨⟨b.addr, M, b.free⟩, by simp, hf, le_refl _, by simp; omega⟩
        · exact ih _ (some c) h4 (fun d hd => by
            simp only [Option.some.injEq] at hd; subst hd; exact ⟨hc, by omega⟩) b hb hf
      · simp only [coalesce, hc]
        rcases List.mem_cons.1 hb with rfl | hb
        · simp [hf] at hc
        · obtain ⟨d, hd, hd1⟩ := ih _ none h4 (fun d hd => by simp at hd) b hb hf
          exact ⟨d, List.mem_cons_of_mem _ hd, hd1⟩
    | some e =>
      obtain ⟨hef, hep⟩ := hcur e rfl
      by_cases hc : c.free
      · simp only [coalesce, hc, if_true]
        rcases List.mem_cons.1 hb with rfl | hb
        · obtain ⟨M, rest, e1, hle⟩ :=
            coalesce_some_head_ge bs { e with size := e.size + b.size }
          rw [e1]
          refine ⟨⟨e.addr, M, e.free⟩, by simp, hef, by simp; omega, ?_⟩
          simp at hle ⊢
          omega
        · exact ih _ (some { e with size := e.size + c.size }) h4 (fun d hd => by
            simp only [Option.some.injEq] at hd; subst hd; exact ⟨hef, by simp; omega⟩) b hb hf
      · simp only [coalesce, hc]
        rcases List.mem_cons.1 hb with rfl | hb
        · simp [hf] at hc
        · obtain ⟨d, hd, hd1⟩ := ih _ none h4 (fun d hd => by simp at hd) b hb hf
          exact ⟨d, List.mem_cons_of_mem _ (List.mem_cons_of_mem _ hd), hd1⟩

/-! ## Tracing one object -/

theorem pushEach_some (s : GC) :
    ∀ (ps stack st : List Nat), pushEach s stack ps = some st →
      st = (ps.filter fun p => decide (p ≠ 0)).reverse ++ stack := by
  intro ps
  induction ps with
  | nil => intro stack st h; simp [pushEach] at h; simp [h]
  | cons p ps ih =>
    intro stack st h
    simp only [pushEach] at h
    by_cases hp : p = 0
    · subst hp
      simp only [push, if_true] at h
      have := ih _ _ h
      simpa using this
    · simp only [push, hp, if_false] at h
      by_cases ha : assertObject s p = true
      · simp only [ha, if_true] at h
        have := ih _ _ h
        simp [this, hp, List.filter_cons]
      · simp [ha] at h

theorem pushEach_ok (s : GC) :
    ∀ (ps stack : List Nat), (∀ p ∈ ps, p ≠ 0 → assertObject s p = true) →
      ∃ st, pushEach s stack ps = some st := by
  intro ps
  induction ps with
  | nil => intro stack _; exact ⟨stack, rfl⟩
  | cons p ps ih =>
    intro stack h
    simp only [pushEach]
    by_cases hp : p = 0
    · subst hp
      simp only [push, if_true]
      exact ih _ (fun q hq => h q (List.mem_cons_of_mem _ hq))
    · simp only [push, hp, if_false, h p (List.mem_cons_self _ _) hp, if_true]
      exact ih _ (fun q hq => h q (List.mem_cons_of_mem _ hq))

theorem pushEach_two (s : GC) (stack : List Nat) (p q : Nat) :
    pushEach s stack [p, q] =
      match push s stack p with
      | none => none
      | some stack1 => push s stack1 q := by
  simp only [pushEach]
  cases push s stack p with
  | none => rfl
  | some st =>
    simp only
    cases push s st q <;> rfl

theorem pushEach_one (s : GC) (stack : List Nat) (p : Nat) :
    pushEach s stack [p] = push s stack p := by
  simp only [pushEach]
  cases push s stack p <;> rfl

theorem pushPointers_eq (s : GC) (stack : List Nat) (o : Obj) :
    pushPointers s stack o =
      if traceable o.type = true then pushEach s stack (outEdges o) else none := by
  unfold pushPointers outEdges
  cases h : o.type <;> simp only [traceable, if_true, Bool.false_eq_true, if_false] <;>
    first
    | rfl
    | (rw [pushEach_one])
    | (rw [pushEach_two])
    | (by_cases hc : o.string_context % 2 = 0
       · simp only [hc, if_true]
         rw [pushEach_two]
       · simp only [hc, if_false]
         rw [pushEach_one]
         cases push s stack o.string_s <;> rfl)

theorem outEdges_marked (o : Obj) (b : Bool) : outEdges { o with marked := b } = outEdges o := by
  rfl

/-! ## The invariant of the marking loop -/

theorem MarkInv.edges {s0 s : GC} {stack : List Nat} (h : MarkInv s0 s stack) (x : Nat) :
    outEdges (s.heap x) = outEdges (s0.heap x) ∧ (s.heap x).type = (s0.heap x).type := by
  rcases h.cells x with e | ⟨-, -, e⟩ <;> rw [e]
  · exact ⟨rfl, rfl⟩
  · exact ⟨rfl, rfl⟩

theorem MarkInv.onlyMarks {s0 s : GC} {stack : List Nat} (h : MarkInv s0 s stack) :
    OnlyMarks s0 s := by
  refine ⟨h.fields, fun x => ?_⟩
  rcases h.cells x with e | ⟨-, -, e⟩
  · exact Or.inl e
  · exact Or.inr e

theorem MarkInv.init (s0 : GC) (h0 : ∀ x, Reach s0 x → (s0.heap x).marked = false) :
    MarkInv s0 s0 [] := by
  refine ⟨(GC.withHeap_heap s0).symm, fun x => Or.inl rfl, fun p hp => by simp at hp, ?_⟩
  intro x hx hm
  rw [h0 x hx] at hm
  simp at hm

theorem MarkInv.skip {s0 s : GC} {stack : List Nat} {obj : Nat}
    (h : MarkInv s0 s (obj :: stack)) (hm : (s.heap obj).marked = true) :
    MarkInv s0 s stack := by
  refine ⟨h.fields, h.cells, fun p hp => h.stack_reach p (List.mem_cons_of_mem _ hp), ?_⟩
  intro x hx hmx p hp hp0
  rcases h.closed x hx hmx p hp hp0 with h1 | h1
  · exact Or.inl h1
  · rcases List.mem_cons.1 h1 with rfl | h2
    · exact Or.inl hm
    · exact Or.inr h2

theorem MarkInv.grow {s0 s : GC} {stack stack1 : List Nat}
    (h : MarkInv s0 s stack) (hsub : ∀ p ∈ stack, p ∈ stack1)
    (hre : ∀ p ∈ stack1, Reach s0 p) : MarkInv s0 s stack1 := by
  refine ⟨h.fields, h.cells, hre, ?_⟩
  intro x hx hmx p hp hp0
  rcases h.closed x hx hmx p hp hp0 with h1 | h1
  · exact Or.inl h1
  · exact Or.inr (hsub p h1)

theorem markAt_heap_same (s : GC) (p : Nat) :
    (markAt s p).heap p = { s.heap p with marked := true } := by
  simp [markAt, GC.withHeap, setObj]

theorem markAt_heap_other (s : GC) (p x : Nat) (h : x ≠ p) : (markAt s p).heap x = s.heap x := by
  simp [markAt, GC.withHeap, setObj, h]

theorem markAt_marked_mono (s : GC) (p x : Nat) (h : (s.heap x).marked = true) :
    ((markAt s p).heap x).marked = true := by
  by_cases hx : x = p
  · subst hx; rw [markAt_heap_same]
  · rw [markAt_heap_other s p x hx]; exact h

theorem withHeap_fields (s0 s : GC) (h : s = s0.withHeap s.heap) :
    s.arenas = s0.arenas ∧ s.validate = s0.validate ∧ s.freeLists = s0.freeLists ∧
    s.ptrRoots = s0.ptrRoots ∧ s.objRoots = s0.objRoots ∧ s.totalSize = s0.totalSize ∧
    s.nextSize = s0.nextSize ∧ s.allTimeWordsFreed = s0.allTimeWordsFreed := by
  rw [h]
  simp [GC.withHeap]

theorem markAt_fields (s0 s : GC) (p : Nat) (h : s = s0.withHeap s.heap) :
    markAt s p = s0.withHeap (markAt s p).heap := by
  rw [h]
  simp [markAt, GC.withHeap]

theorem pushEach_congr (s s1 : GC) (ha : s1.arenas = s.arenas) (hv : s1.validate = s.validate) :
    ∀ (ps stack : List Nat), pushEach s1 stack ps = pushEach s stack ps := by
  have hp : ∀ stack p, push s1 stack p = push s stack p := by
    intro stack p
    simp [push, assertObject, isObject, ha, hv]
  intro ps
  induction ps with
  | nil => intro stack; rfl
  | cons p ps ih =>
    intro stack
    simp only [pushEach, hp]
    cases push s stack p with
    | none => rfl
    | some st => exact ih st

theorem MarkInv.step {s0 s : GC} {stack stack1 : List Nat} {obj : Nat}
    (h : MarkInv s0 s (obj :: stack)) (hm : (s.heap obj).marked = false)
    (hp : pushPointers (markAt s obj) stack ((markAt s obj).heap obj) = some stack1) :
    MarkInv s0 (markAt s obj) stack1 ∧
      stack1.length ≤ stack.length + (outEdges (s0.heap obj)).length ∧
      (∀ p ∈ stack, p ∈ stack1) ∧ traceable (s0.heap obj).type = true := by
  have hobj : Reach s0 obj := h.stack_reach obj (List.mem_cons_self _ _)
  have hcell : s.heap obj = s0.heap obj := by
    rcases h.cells obj with e | ⟨-, -, e⟩
    · exact e
    · rw [e] at hm; simp at hm
  rw [pushPointers_eq, markAt_heap_same, hcell] at hp
  have htr : traceable (s0.heap obj).type = true := by
    by_contra hn
    simp only [hn] at hp
    simp at hp
  simp only [htr, if_true] at hp
  have hst := pushEach_some _ _ _ _ hp
  rw [outEdges_marked] at hst
  have hmem : ∀ p, p ∈ stack1 ↔ (p ∈ outEdges (s0.heap obj) ∧ p ≠ 0) ∨ p ∈ stack := by
    intro p
    rw [hst]
    simp [List.mem_filter]
  refine ⟨⟨markAt_fields s0 s obj h.fields, ?_, ?_, ?_⟩, ?_, fun p hp => (hmem p).2 (Or.inr hp), htr⟩
  · intro x
    by_cases hx : x = obj
    · subst hx
      right
      exact ⟨hobj, htr, by rw [markAt_heap_same, hcell]⟩
    · rw [markAt_heap_other s obj x hx]
      exact h.cells x
  · intro p hp1
    rcases (hmem p).1 hp1 with ⟨he, hp0⟩ | hs
    · exact Reach.edge hobj he hp0
    · exact h.stack_reach p (List.mem_cons_of_mem _ hs)
  · intro x hx hmx p hpe hp0
    by_cases hxo : x = obj
    · subst hxo
      exact Or.inr ((hmem p).2 (Or.inl ⟨hpe, hp0⟩))
    · rw [markAt_heap_other s obj x hxo] at hmx
      rcases h.closed x hx hmx p hpe hp0 with h1 | h1
      · exact Or.inl (markAt_marked_mono s obj p h1)
      · rcases List.mem_cons.1 h1 with rfl | h2
        · left; rw [markAt_heap_same]
        · exact Or.inr ((hmem p).2 (Or.inr h2))
  · rw [hst, List.length_append, List.length_reverse]
    have := List.length_filter_le (fun p => decide (p ≠ 0)) (outEdges (s0.heap obj))
    omega

theorem onlyMarks_markAt {s0 s : GC} (h : OnlyMarks s0 s) (obj : Nat) :
    OnlyMarks s0 (markAt s obj) := by
  refine ⟨markAt_fields s0 s obj h.1, fun x => ?_⟩
  by_cases hx : x = obj
  · subst hx
    rw [markAt_heap_same]
    rcases h.2 x with e | e <;> rw [e]
    · exact Or.inr rfl
    · exact Or.inr rfl
  · rw [markAt_heap_other s obj x hx]
    exact h.2 x

/-! ## `processStack` -/

theorem processStack_done (s0 : GC) :
    ∀ (fuel : Nat) (s : GC) (stack : List Nat) (m : Nat) (s1 : GC) (m1 : Nat),
      MarkInv s0 s stack → processStack fuel s stack m = .done (s1, m1) →
      MarkInv s0 s1 [] ∧ (∀ x, (s.heap x).marked = true → (s1.heap x).marked = true) ∧
        ∀ p ∈ stack, (s1.heap p).marked = true := by
  intro fuel
  induction fuel with
  | zero =>
    intro s stack m s1 m1 hI hr
    cases stack with
    | nil =>
      simp only [processStack, Outcome.done.injEq, Prod.mk.injEq] at hr
      obtain ⟨rfl, -⟩ := hr
      exact ⟨hI, fun x hx => hx, fun p hp => by simp at hp⟩
    | cons obj stack => simp [processStack] at hr
  | succ fuel ih =>
    intro s stack m s1 m1 hI hr
    cases stack with
    | nil =>
      simp only [processStack, Outcome.done.injEq, Prod.mk.injEq] at hr
      obtain ⟨rfl, -⟩ := hr
      exact ⟨hI, fun x hx => hx, fun p hp => by simp at hp⟩
    | cons obj stack =>
      by_cases hm : (s.heap obj).marked = true
      · simp only [processStack, hm, if_true] at hr
        obtain ⟨h1, h2, h3⟩ := ih s stack m s1 m1 (hI.skip hm) hr
        refine ⟨h1, h2, ?_⟩
        intro p hp
        rcases List.mem_cons.1 hp with rfl | hp
        · exact h2 p hm
        · exact h3 p hp
      · have hm0 : (s.heap obj).marked = false := by simpa using hm
        simp only [processStack, hm0, Bool.false_eq_true, if_false] at hr
        cases hpp : pushPointers (markAt s obj) stack ((markAt s obj).heap obj) with
        | none => simp [hpp] at hr
        | some stack1 =>
          simp only [hpp] at hr
          obtain ⟨hI1, -, hsub, -⟩ := hI.step hm0 hpp
          obtain ⟨h1, h2, h3⟩ := ih _ stack1 (m + 1) s1 m1 hI1 hr
          refine ⟨h1, fun x hx => h2 x (markAt_marked_mono s obj x hx), ?_⟩
          intro p hp
          rcases List.mem_cons.1 hp with rfl | hp
          · exact h2 p (by rw [markAt_heap_same])
          · exact h3 p (hsub p hp)

theorem processStack_abort (s0 : GC) :
    ∀ (fuel : Nat) (s : GC) (stack : List Nat) (m : Nat) (s1 : GC),
      MarkInv s0 s stack → processStack fuel s stack m = .abort s1 → OnlyMarks s0 s1 := by
  intro fuel
  induction fuel with
  | zero =>
    intro s stack m s1 _ hr
    cases stack <;> simp [processStack] at hr
  | succ fuel ih =>
    intro s stack m s1 hI hr
    cases stack with
    | nil => simp [processStack] at hr
    | cons obj stack =>
      by_cases hm : (s.heap obj).marked = true
      · simp only [processStack, hm, if_true] at hr
        exact ih s stack m s1 (hI.skip hm) hr
      · have hm0 : (s.heap obj).marked = false := by simpa using hm
        simp only [processStack, hm0, Bool.false_eq_true, if_false] at hr
        cases hpp : pushPointers (markAt s obj) stack ((markAt s obj).heap obj) with
        | none =>
          simp only [hpp, Outcome.abort.injEq] at hr
          rw [← hr]
          exact onlyMarks_markAt hI.onlyMarks obj
        | some stack1 =>
          simp only [hpp] at hr
          exact ih _ stack1 (m + 1) s1 (hI.step hm0 hpp).1 hr

/-! ## Termination of the marking loop -/

theorem sum_map_le_of_le (f g : Nat → Nat) :
    ∀ (L : List Nat), (∀ a ∈ L, g a ≤ f a) → (L.map g).sum ≤ (L.map f).sum := by
  intro L
  induction L with
  | nil => intro _; simp
  | cons a L ih =>
    intro h
    simp only [List.map_cons, List.sum_cons]
    have h1 := h a (List.mem_cons_self _ _)
    have h2 := ih (fun b hb => h b (List.mem_cons_of_mem _ hb))
    omega

theorem sum_map_drop (f g : Nat → Nat) (obj k : Nat) :
    ∀ (L : List Nat), (∀ a ∈ L, g a ≤ f a) → obj ∈ L → g obj + k ≤ f obj →
      (L.map g).sum + k ≤ (L.map f).sum := by
  intro L
  induction L with
  | nil => intro _ h; simp at h
  | cons a L ih =>
    intro h hmem hk
    simp only [List.map_cons, List.sum_cons]
    have h1 := h a (List.mem_cons_self _ _)
    have hL : ∀ b ∈ L, g b ≤ f b := fun b hb => h b (List.mem_cons_of_mem _ hb)
    rcases List.mem_cons.1 hmem with rfl | hmem
    · have := sum_map_le_of_le f g L hL
      omega
    · have := ih hL hmem hk
      omega

theorem markWeight_le (L : List Nat) (s0 s s1 : GC)
    (h : ∀ x, (s.heap x).marked = true → (s1.heap x).marked = true) :
    markWeight L s0 s1 ≤ markWeight L s0 s := by
  unfold markWeight
  apply sum_map_le_of_le
  intro a _
  by_cases h1 : (s.heap a).marked = true
  · simp [h1, h a h1]
  · by_cases h2 : (s1.heap a).marked = true <;> simp [h1, h2]

theorem markWeight_markAt (L : List Nat) (s0 s : GC) (obj : Nat) (hL : obj ∈ L)
    (hm : (s.heap obj).marked = false) :
    markWeight L s0 (markAt s obj) + (1 + (outEdges (s0.heap obj)).length) ≤
      markWeight L s0 s := by
  unfold markWeight
  apply sum_map_drop _ _ obj _ L _ hL
  · simp [markAt_heap_same, hm]
  · intro a _
    by_cases h1 : (s.heap a).marked = true
    · simp [h1, markAt_marked_mono s obj a h1]
    · by_cases h2 : ((markAt s obj).heap a).marked = true <;> simp [h1, h2]

theorem MarkInv.weight_le {s0 s : GC} {stack : List Nat} (h : MarkInv s0 s stack)
    (L : List Nat) : markWeight L s0 s ≤ markWeight L s0 s0 := by
  apply markWeight_le
  intro x hx
  rcases h.cells x with e | ⟨-, -, e⟩ <;> rw [e]
  · exact hx

theorem processStack_no_timeout (s0 : GC) (L : List Nat) (hL : ∀ x, Reach s0 x → x ∈ L) :
    ∀ (fuel : Nat) (s : GC) (stack : List Nat) (m : Nat),
      MarkInv s0 s stack → stack.length + markWeight L s0 s ≤ fuel →
      processStack fuel s stack m ≠ .timeout := by
  intro fuel
  induction fuel with
  | zero =>
    intro s stack m _ hle
    cases stack with
    | nil => simp [processStack]
    | cons obj stack => simp at hle
  | succ fuel ih =>
    intro s stack m hI hle
    cases stack with
    | nil => simp [processStack]
    | cons obj stack =>
      by_cases hm : (s.heap obj).marked = true
      · simp only [processStack, hm, if_true]
        exact ih s stack m (hI.skip hm) (by simp at hle; omega)
      · have hm0 : (s.heap obj).marked = false := by simpa using hm
        simp only [processStack, hm0, Bool.false_eq_true, if_false]
        cases hpp : pushPointers (markAt s obj) stack ((markAt s obj).heap obj) with
        | none => simp
        | some stack1 =>
          simp only
          obtain ⟨hI1, hlen, -, -⟩ := hI.step hm0 hpp
          have hw := markWeight_markAt L s0 s obj
            (hL obj (hI.stack_reach obj (List.mem_cons_self _ _))) hm0
          exact ih _ stack1 (m + 1) hI1 (by simp at hle; omega)

theorem assertObject_congr (s0 s : GC) (h : s = s0.withHeap s.heap) (p : Nat) :
    assertObject s p = assertObject s0 p := by
  obtain ⟨ha, hv, -⟩ := withHeap_fields s0 s h
  simp [assertObject, isObject, ha, hv]

theorem processStack_no_abort (s0 : GC)
    (hT : ∀ x, Reach s0 x → traceable (s0.heap x).type = true ∧ assertObject s0 x = true) :
    ∀ (fuel : Nat) (s : GC) (stack : List Nat) (m : Nat) (s1 : GC),
      MarkInv s0 s stack → processStack fuel s stack m ≠ .abort s1 := by
  intro fuel
  induction fuel with
  | zero =>
    intro s stack m s1 _
    cases stack <;> simp [processStack]
  | succ fuel ih =>
    intro s stack m s1 hI
    cases stack with
    | nil => simp [processStack]
    | cons obj stack =>
      by_cases hm : (s.heap obj).marked = true
      · simp only [processStack, hm, if_true]
        exact ih s stack m s1 (hI.skip hm)
      · have hm0 : (s.heap obj).marked = false := by simpa using hm
        simp only [processStack, hm0, Bool.false_eq_true, if_false]
        have hobj : Reach s0 obj := hI.stack_reach obj (List.mem_cons_self _ _)
        have hcell : s.heap obj = s0.heap obj := by
          rcases hI.cells obj with e | ⟨-, -, e⟩
          · exact e
          · rw [e] at hm0; simp at hm0
        have hok : ∃ st, pushPointers (markAt s obj) stack ((markAt s obj).heap obj) = some st := by
          rw [pushPointers_eq, markAt_heap_same, hcell]
          simp only [(hT obj hobj).1, if_true]
          apply pushEach_ok
          intro p hp hp0
          rw [assertObject_congr s0 _ (markAt_fields s0 s obj hI.fields)]
          exact (hT p (Reach.edge hobj hp hp0)).2
        obtain ⟨st, hst⟩ := hok
        simp only [hst]
        exact ih _ st (m + 1) s1 (hI.step hm0 hst).1

/-! ## The two root loops -/

theorem MarkInv.root {s0 s : GC} {r : Obj} {stack : List Nat} (h : MarkInv s0 s [])
    (hr : r ∈ s0.objRoots) (hp : pushPointers s [] r = some stack) :
    MarkInv s0 s stack ∧ stack.length ≤ (outEdges r).length ∧ traceable r.type = true ∧
      ∀ p ∈ outEdges r, p ≠ 0 → p ∈ stack := by
  rw [pushPointers_eq] at hp
  have htr : traceable r.type = true := by
    by_contra hn
    simp only [hn] at hp
    simp at hp
  simp only [htr, if_true] at hp
  have hst := pushEach_some _ _ _ _ hp
  have hmem : ∀ p, p ∈ stack ↔ (p ∈ outEdges r ∧ p ≠ 0) := by
    intro p
    rw [hst]
    simp [List.mem_filter]
  refine ⟨h.grow (fun p hp => by simp at hp) ?_, ?_, htr, fun p hp hp0 => (hmem p).2 ⟨hp, hp0⟩⟩
  · intro p hp1
    obtain ⟨he, hp0⟩ := (hmem p).1 hp1
    exact Reach.root hr he hp0
  · rw [hst, List.append_nil, List.length_reverse]
    exact List.length_filter_le _ _

theorem markObjRoots_spec (s0 : GC) (fuel : Nat) :
    ∀ (rs : List Obj) (s : GC) (m : Nat), (∀ r ∈ rs, r ∈ s0.objRoots) → MarkInv s0 s [] →
      (∀ s1 m1, markObjRoots fuel s rs m = .done (s1, m1) →
        MarkInv s0 s1 [] ∧ (∀ x, (s.heap x).marked = true → (s1.heap x).marked = true) ∧
        ∀ r ∈ rs, traceable r.type = true ∧
          ∀ p ∈ outEdges r, p ≠ 0 → (s1.heap p).marked = true) ∧
      (∀ s1, markObjRoots fuel s rs m = .abort s1 → OnlyMarks s0 s1) := by
  intro rs
  induction rs with
  | nil =>
    intro s m _ hI
    refine ⟨?_, ?_⟩
    · intro s1 m1 hr
      simp only [markObjRoots, Outcome.done.injEq, Prod.mk.injEq] at hr
      obtain ⟨rfl, -⟩ := hr
      exact ⟨hI, fun x hx => hx, fun r hr => by simp at hr⟩
    · intro s1 hr
      simp [markObjRoots] at hr
  | cons r rs ih =>
    intro s m hsub hI
    have hr0 : r ∈ s0.objRoots := hsub r (List.mem_cons_self _ _)
    have hsub1 : ∀ q ∈ rs, q ∈ s0.objRoots := fun q hq => hsub q (List.mem_cons_of_mem _ hq)
    cases hpp : pushPointers s [] r with
    | none =>
      refine ⟨?_, ?_⟩
      · intro s1 m1 hr
        simp [markObjRoots, hpp] at hr
      · intro s1 hr
        simp only [markObjRoots, hpp, Outcome.abort.injEq] at hr
        rw [← hr]
        exact hI.onlyMarks
    | some stack =>
      obtain ⟨hI1, -, htr, hedges⟩ := hI.root hr0 hpp
      cases hps : processStack fuel s stack m with
      | timeout =>
        refine ⟨?_, ?_⟩ <;> intros <;> simp_all [markObjRoots]
      | abort s2 =>
        refine ⟨?_, ?_⟩
        · intro s1 m1 hr
          simp [markObjRoots, hpp, hps] at hr
        · intro s1 hr
          simp only [markObjRoots, hpp, hps, Outcome.abort.injEq] at hr
          rw [← hr]
          exact processStack_abort s0 fuel s stack m s2 hI1 hps
      | done res =>
        obtain ⟨s2, m2⟩ := res
        obtain ⟨hI2, hmono, hmk⟩ := processStack_done s0 fuel s stack m s2 m2 hI1 hps
        obtain ⟨ihd, iha⟩ := ih s2 m2 hsub1 hI2
        refine ⟨?_, ?_⟩
        · intro s1 m1 hr
          simp only [markObjRoots, hpp, hps] at hr
          obtain ⟨h1, h2, h3⟩ := ihd s1 m1 hr
          refine ⟨h1, fun x hx => h2 x (hmono x hx), ?_⟩
          intro q hq
          rcases List.mem_cons.1 hq with rfl | hq
          · exact ⟨htr, fun p hp hp0 => h2 p (hmk p (hedges p hp hp0))⟩
          · exact h3 q hq
        · intro s1 hr
          simp only [markObjRoots, hpp, hps] at hr
          exact iha s1 hr

theorem markObjRoots_total (s0 : GC) (L : List Nat) (hL : ∀ x, Reach s0 x → x ∈ L)
    (fuel : Nat) :
    ∀ (rs : List Obj) (s : GC) (m : Nat), (∀ r ∈ rs, r ∈ s0.objRoots) → MarkInv s0 s [] →
      ((∀ r ∈ rs, (outEdges r).length + markWeight L s0 s0 ≤ fuel) →
        markObjRoots fuel s rs m ≠ .timeout) ∧
      ((∀ r ∈ rs, traceable r.type = true) →
        (∀ x, Reach s0 x → traceable (s0.heap x).type = true ∧ assertObject s0 x = true) →
        ∀ s1, markObjRoots fuel s rs m ≠ .abort s1) := by
  intro rs
  induction rs with
  | nil => intro s m _ _; simp [markObjRoots]
  | cons r rs ih =>
    intro s m hsub hI
    have hr0 : r ∈ s0.objRoots := hsub r (List.mem_cons_self _ _)
    have hsub1 : ∀ q ∈ rs, q ∈ s0.objRoots := fun q hq => hsub q (List.mem_cons_of_mem _ hq)
    cases hpp : pushPointers s [] r with
    | none =>
      refine ⟨by simp [markObjRoots, hpp], ?_⟩
      intro htr hT s1
      exfalso
      rw [pushPointers_eq] at hpp
      simp only [htr r (List.mem_cons_self _ _), if_true] at hpp
      obtain ⟨st, hst⟩ := pushEach_ok s (outEdges r) [] (fun p hp hp0 => by
        rw [assertObject_congr s0 s hI.fields]
        exact (hT p (Reach.root hr0 hp hp0)).2)
      rw [hst] at hpp
      simp at hpp
    | some stack =>
      obtain ⟨hI1, hlen, -, -⟩ := hI.root hr0 hpp
      cases hps : processStack fuel s stack m with
      | timeout =>
        refine ⟨?_, by simp [markObjRoots, hpp, hps]⟩
        intro hb
        exfalso
        have h1 := hb r (List.mem_cons_self _ _)
        have h2 := hI.weight_le L
        exact processStack_no_timeout s0 L hL fuel s stack m hI1 (by omega) hps
      | abort s2 =>
        refine ⟨by simp [markObjRoots, hpp, hps], ?_⟩
        intro _ hT s1
        exfalso
        exact processStack_no_abort s0 hT fuel s stack m s2 hI1 hps
      | done res =>
        obtain ⟨s2, m2⟩ := res
        obtain ⟨hI2, -, -⟩ := processStack_done s0 fuel s stack m s2 m2 hI1 hps
        obtain ⟨iht, iha⟩ := ih s2 m2 hsub1 hI2
        simp only [markObjRoots, hpp, hps]
        exact ⟨fun hb => iht (fun q hq => hb q (List.mem_cons_of_mem _ hq)),
          fun htr hT => iha (fun q hq => htr q (List.mem_cons_of_mem _ hq)) hT⟩

theorem markPtrRoots_spec (s0 : GC) (fuel : Nat) :
    ∀ (ps : List Nat) (s : GC) (m : Nat), (∀ p ∈ ps, p ∈ s0.ptrRoots) → MarkInv s0 s [] →
      (∀ s1 m1, markPtrRoots fuel s ps m = .done (s1, m1) →
        MarkInv s0 s1 [] ∧ (∀ x, (s.heap x).marked = true → (s1.heap x).marked = true) ∧
        ∀ p ∈ ps, p ≠ 0 → (s1.heap p).marked = true) ∧
      (∀ s1, markPtrRoots fuel s ps m = .abort s1 → OnlyMarks s0 s1) := by
  intro ps
  induction ps with
  | nil =>
    intro s m _ hI
    refine ⟨?_, ?_⟩
    · intro s1 m1 hr
      simp only [markPtrRoots, Outcome.done.injEq, Prod.mk.injEq] at hr
      obtain ⟨rfl, -⟩ := hr
      exact ⟨hI, fun x hx => hx, fun r hr => by simp at hr⟩
    · intro s1 hr
      simp [markPtrRoots] at hr
  | cons p ps ih =>
    intro s m hsub hI
    have hp0 : p ∈ s0.ptrRoots := hsub p (List.mem_cons_self _ _)
    have hsub1 : ∀ q ∈ ps, q ∈ s0.ptrRoots := fun q hq => hsub q (List.mem_cons_of_mem _ hq)
    by_cases hz : p = 0
    · subst hz
      obtain ⟨ihd, iha⟩ := ih s m hsub1 hI
      simp only [markPtrRoots, if_true]
      refine ⟨?_, iha⟩
      intro s1 m1 hr
      obtain ⟨h1, h2, h3⟩ := ihd s1 m1 hr
      refine ⟨h1, h2, ?_⟩
      intro q hq hq0
      rcases List.mem_cons.1 hq with rfl | hq
      · exact absurd rfl hq0
      · exact h3 q hq hq0
    · have hI1 : MarkInv s0 s [p] := hI.grow (fun q hq => by simp at hq) (fun q hq => by
        simp only [List.mem_singleton] at hq
        subst hq
        exact Reach.ptr hp0 hz)
      simp only [markPtrRoots, hz, if_false]
      cases hps : processStack fuel s [p] m with
      | timeout => refine ⟨?_, ?_⟩ <;> intros <;> simp_all
      | abort s2 =>
        refine ⟨by intro s1 m1 hr; simp at hr, ?_⟩
        intro s1 hr
        simp only [Outcome.abort.injEq] at hr
        rw [← hr]
        exact processStack_abort s0 fuel s [p] m s2 hI1 hps
      | done res =>
        obtain ⟨s2, m2⟩ := res
        obtain ⟨hI2, hmono, hmk⟩ := processStack_done s0 fuel s [p] m s2 m2 hI1 hps
        obtain ⟨ihd, iha⟩ := ih s2 m2 hsub1 hI2
        simp only
        refine ⟨?_, iha⟩
        intro s1 m1 hr
        obtain ⟨h1, h2, h3⟩ := ihd s1 m1 hr
        refine ⟨h1, fun x hx => h2 x (hmono x hx), ?_⟩
        intro q hq hq0
        rcases List.mem_cons.1 hq with rfl | hq
        · exact h2 q (hmk q (List.mem_cons_self _ _))
        · exact h3 q hq hq0

theorem markPtrRoots_total (s0 : GC) (L : List Nat) (hL : ∀ x, Reach s0 x → x ∈ L)
    (fuel : Nat) (hfuel : 1 + markWeight L s0 s0 ≤ fuel) :
    ∀ (ps : List Nat) (s : GC) (m : Nat), (∀ p ∈ ps, p ∈ s0.ptrRoots) → MarkInv s0 s [] →
      markPtrRoots fuel s ps m ≠ .timeout ∧
      ((∀ x, Reach s0 x → traceable (s0.heap x).type = true ∧ assertObject s0 x = true) →
        ∀ s1, markPtrRoots fuel s ps m ≠ .abort s1) := by
  intro ps
  induction ps with
  | nil => intro s m _ _; simp [markPtrRoots]
  | cons p ps ih =>
    intro s m hsub hI
    have hp0 : p ∈ s0.ptrRoots := hsub p (List.mem_cons_self _ _)
    have hsub1 : ∀ q ∈ ps, q ∈ s0.ptrRoots := fun q hq => hsub q (List.mem_cons_of_mem _ hq)
    by_cases hz : p = 0
    · subst hz
      simp only [markPtrRoots, if_true]
      exact ih s m hsub1 hI
    · have hI1 : MarkInv s0 s [p] := hI.grow (fun q hq => by simp at hq) (fun q hq => by
        simp only [List.mem_singleton] at hq
        subst hq
        exact Reach.ptr hp0 hz)
      simp only [markPtrRoots, hz, if_false]
      cases hps : processStack fuel s [p] m with
      | timeout =>
        exfalso
        have h2 := hI.weight_le L
        exact processStack_no_timeout s0 L hL fuel s [p] m hI1 (by simp; omega) hps
      | abort s2 =>
        refine ⟨by simp, ?_⟩
        intro hT s1
        exfalso
        exact processStack_no_abort s0 hT fuel s [p] m s2 hI1 hps
      | done res =>
        obtain ⟨s2, m2⟩ := res
        obtain ⟨hI2, -, -⟩ := processStack_done s0 fuel s [p] m s2 m2 hI1 hps
        exact ih s2 m2 hsub1 hI2

/-! ## The mark phase -/

theorem le_sum_map_of_mem {α : Type} (f : α → Nat) :
    ∀ (rs : List α) (r : α), r ∈ rs → f r ≤ (rs.map f).sum := by
  intro rs
  induction rs with
  | nil => intro r hr; simp at hr
  | cons q rs ih =>
    intro r hr
    simp only [List.map_cons, List.sum_cons]
    rcases List.mem_cons.1 hr with rfl | hr
    · omega
    · have := ih r hr
      omega

theorem markPhase_done (s0 : GC) (h0 : ∀ x, Reach s0 x → (s0.heap x).marked = false)
    (fuel : Nat) (s1 : GC) (m : Nat) (hr : markPhase fuel s0 = .done (s1, m)) :
    s1 = s0.withHeap s1.heap ∧
    (∀ x, Reach s0 x →
      s1.heap x = { s0.heap x with marked := true } ∧ traceable (s0.heap x).type = true) ∧
    (∀ x, ¬ Reach s0 x → s1.heap x = s0.heap x) ∧
    (∀ r ∈ s0.objRoots, traceable r.type = true) := by
  unfold markPhase at hr
  cases h1 : markObjRoots fuel s0 s0.objRoots 0 with
  | timeout => simp [h1] at hr
  | abort s2 => simp [h1] at hr
  | done res =>
    obtain ⟨s2, m2⟩ := res
    simp only [h1] at hr
    obtain ⟨hI2, -, hroots⟩ :=
      (markObjRoots_spec s0 fuel s0.objRoots s0 0 (fun r hr => hr) (MarkInv.init s0 h0)).1
        s2 m2 h1
    have hpr : s2.ptrRoots = s0.ptrRoots := (withHeap_fields s0 s2 hI2.fields).2.2.2.1
    obtain ⟨hI1, hmono, hptrs⟩ :=
      (markPtrRoots_spec s0 fuel s2.ptrRoots s2 m2 (fun p hp => by rw [← hpr]; exact hp) hI2).1
        s1 m hr
    have hall : ∀ x, Reach s0 x → (s1.heap x).marked = true := by
      intro x hx
      induction hx with
      | ptr hp hp0 => exact hptrs _ (by rw [hpr]; exact hp) hp0
      | root hr he hp0 => exact hmono _ ((hroots _ hr).2 _ he hp0)
      | edge hx he hp0 ih =>
        rcases hI1.closed _ hx ih _ he hp0 with h | h
        · exact h
        · simp at h
    refine ⟨hI1.fields, ?_, ?_, fun r hr => (hroots r hr).1⟩
    · intro x hx
      rcases hI1.cells x with e | ⟨-, ht, e⟩
      · have := hall x hx
        rw [e, h0 x hx] at this
        simp at this
      · exact ⟨e, ht⟩
    · intro x hx
      rcases hI1.cells x with e | ⟨hre, -, -⟩
      · exact e
      · exact absurd hre hx

theorem markPhase_abort (s0 : GC) (h0 : ∀ x, Reach s0 x → (s0.heap x).marked = false)
    (fuel : Nat) (s1 : GC) (hr : markPhase fuel s0 = .abort s1) : OnlyMarks s0 s1 := by
  unfold markPhase at hr
  have hsp := markObjRoots_spec s0 fuel s0.objRoots s0 0 (fun r hr => hr) (MarkInv.init s0 h0)
  cases h1 : markObjRoots fuel s0 s0.objRoots 0 with
  | timeout => simp [h1] at hr
  | abort s2 =>
    simp only [h1, Outcome.abort.injEq] at hr
    rw [← hr]
    exact hsp.2 s2 h1
  | done res =>
    obtain ⟨s2, m2⟩ := res
    simp only [h1] at hr
    obtain ⟨hI2, -, -⟩ := hsp.1 s2 m2 h1
    have hpr : s2.ptrRoots = s0.ptrRoots := (withHeap_fields s0 s2 hI2.fields).2.2.2.1
    exact (markPtrRoots_spec s0 fuel s2.ptrRoots s2 m2
      (fun p hp => by rw [← hpr]; exact hp) hI2).2 s1 hr

theorem markPhase_total (s0 : GC) (L : List Nat) (hL : ∀ x, Reach s0 x → x ∈ L)
    (h0 : ∀ x, Reach s0 x → (s0.heap x).marked = false)
    (fuel : Nat) (hfuel : markBound L s0 ≤ fuel) :
    markPhase fuel s0 ≠ .timeout ∧
    ((∀ r ∈ s0.objRoots, traceable r.type = true) →
      (∀ x, Reach s0 x → traceable (s0.heap x).type = true ∧ assertObject s0 x = true) →
      ∀ s1, markPhase fuel s0 ≠ .abort s1) := by
  unfold markBound at hfuel
  have hI0 := MarkInv.init s0 h0
  have htot := markObjRoots_total s0 L hL fuel s0.objRoots s0 0 (fun r hr => hr) hI0
  have hnt := htot.1 (fun r hr => by
    have := le_sum_map_of_mem (fun r => (outEdges r).length) s0.objRoots r hr
    simp only at this
    omega)
  unfold markPhase
  cases h1 : markObjRoots fuel s0 s0.objRoots 0 with
  | timeout => exact absurd h1 hnt
  | abort s2 =>
    refine ⟨by simp, ?_⟩
    intro htr hT s1
    exact absurd h1 (htot.2 htr hT s2)
  | done res =>
    obtain ⟨s2, m2⟩ := res
    obtain ⟨hI2, -, -⟩ :=
      (markObjRoots_spec s0 fuel s0.objRoots s0 0 (fun r hr => hr) hI0).1 s2 m2 h1
    have hpr : s2.ptrRoots = s0.ptrRoots := (withHeap_fields s0 s2 hI2.fields).2.2.2.1
    have h2 := markPtrRoots_total s0 L hL fuel (by omega) s2.ptrRoots s2 m2
      (fun p hp => by rw [← hpr]; exact hp) hI2
    simp only
    exact ⟨h2.1, fun _ hT => h2.2 hT⟩

/-! ## More fuel does not change a sweep -/

theorem freeUnmarkedLoop_succ (stop : Nat) :
    ∀ (fuel : Nat) (s : GC) (pos c nf wf : Nat),
      freeUnmarkedLoop stop fuel s pos c nf wf ≠ .timeout →
      freeUnmarkedLoop stop (fuel + 1) s pos c nf wf =
        freeUnmarkedLoop stop fuel s pos c nf wf := by
  intro fuel
  induction fuel with
  | zero =>
    intro s pos c nf wf h
    by_cases hp : pos < stop
    · simp [freeUnmarkedLoop, hp] at h
    · simp only [freeUnmarkedLoop, hp, if_false]
  | succ fuel ih =>
    intro s pos c nf wf h
    rw [freeUnmarkedLoop] at h
    conv_lhs => rw [freeUnmarkedLoop]
    conv_rhs => rw [freeUnmarkedLoop]
    by_cases hp : pos < stop
    · simp only [hp, if_true] at h ⊢
      cases hn : objSize (s.heap pos) with
      | none => rfl
      | some n =>
        simp only [hn] at h ⊢
        by_cases ht : (s.heap pos).type = .tFree
        · simp only [ht, if_true] at h ⊢
          by_cases hc : c ≠ 0
          · simp only [hc, if_true, ne_eq, not_false_eq_true] at h ⊢
            cases hm : mergeFree s c n with
            | none => rfl
            | some s1 =>
              simp only [hm] at h ⊢
              exact ih _ _ _ _ _ h
          · simp only [hc, if_false] at h ⊢
            exact ih _ _ _ _ _ h
        · simp only [ht, if_false] at h ⊢
          by_cases hmk : (s.heap pos).marked = true
          · simp only [hmk, if_true] at h ⊢
            cases hl : linkCurFree s c with
            | timeout => rfl
            | abort s1 => rfl
            | done s1 =>
              simp only [hl] at h ⊢
              exact ih _ _ _ _ _ h
          · simp only [hmk, if_false] at h ⊢
            by_cases hc : c ≠ 0
            · simp only [hc, if_true, ne_eq, not_false_eq_true] at h ⊢
              cases hm : mergeFree s c n with
              | none => rfl
              | some s1 =>
                simp only [hm] at h ⊢
                exact ih _ _ _ _ _ h
            · simp only [hc, if_false] at h ⊢
              exact ih _ _ _ _ _ h
    · simp only [hp, if_false]

theorem linkCurFree_ne_timeout (s : GC) (c : Nat) : linkCurFree s c ≠ .timeout := by
  unfold linkCurFree addToFreeList
  split
  · split <;> simp
  · simp

theorem sweepFrom_mono (stop : Nat) (s : GC) (pos c nf wf : Nat) :
    ∀ (k fuel : Nat), sweepFrom stop fuel s pos c nf wf ≠ .timeout →
      sweepFrom stop (fuel + k) s pos c nf wf = sweepFrom stop fuel s pos c nf wf := by
  intro k
  induction k with
  | zero => intro fuel _; rfl
  | succ k ih =>
    intro fuel h
    have h1 := ih fuel h
    have hl : freeUnmarkedLoop stop (fuel + k) s pos c nf wf ≠ .timeout := by
      intro hl
      rw [← h1] at h
      apply h
      simp [sweepFrom, hl]
    rw [← h1]
    unfold sweepFrom
    rw [show fuel + (k + 1) = fuel + k + 1 by omega, freeUnmarkedLoop_succ stop _ _ _ _ _ _ hl]

/-! ## Headers of an arena -/

theorem Tiles_length (h : Heap) (stop : Nat) :
    ∀ (l : List Nat) (pos : Nat), Tiles h stop pos l → pos + l.length ≤ stop := by
  intro l
  induction l with
  | nil => intro pos hT; have : pos = stop := hT; simp; omega
  | cons a l ih =>
    intro pos hT
    obtain ⟨-, -, h3, h4⟩ := hT
    have := ih _ h4
    simp only [List.length_cons]
    omega

theorem Tiles_words (h : Heap) (stop : Nat) :
    ∀ (l : List Nat) (pos : Nat), Tiles h stop pos l → ∀ a ∈ l, 0 < objWords (h a) := by
  intro l
  induction l with
  | nil => intro pos _ a ha; simp at ha
  | cons b l ih =>
    intro pos hT a ha
    obtain ⟨h1, -, h3, h4⟩ := hT
    rcases List.mem_cons.1 ha with rfl | ha
    · rw [h1]; exact h3
    · exact ih _ h4 a ha

theorem headers_congr (h h1 : Heap) (stop lo : Nat)
    (hc : ∀ a, lo ≤ a → a < stop → objWords (h1 a) = objWords (h a)) :
    ∀ (fuel pos : Nat), lo ≤ pos → headers h1 stop fuel pos = headers h stop fuel pos := by
  intro fuel
  induction fuel with
  | zero => intro pos _; rfl
  | succ fuel ih =>
    intro pos hpos
    simp only [headers]
    by_cases hp : pos < stop
    · simp only [hp, if_true]
      rw [hc pos hpos hp, ih _ (by omega)]
    · simp only [hp, if_false]

theorem Tiles_blocks (h : Heap) (stop : Nat) :
    ∀ (l : List Nat) (pos : Nat), Tiles h stop pos l → Contig stop pos (blocks h l) := by
  intro l
  induction l with
  | nil => intro pos hT; exact hT
  | cons a l ih =>
    intro pos hT
    obtain ⟨h1, h2, h3, h4⟩ := hT
    subst h1
    exact ⟨rfl, h2, h3, ih _ h4⟩

theorem arenaOut_addr (h : Heap) (A : Arena) :
    ∀ b ∈ arenaOut h A, b.addr ∈ arenaHeaders h A := by
  intro b hb
  rcases coalesce_addr_mem _ _ b hb with ⟨c, hc, -⟩ | hm
  · simp at hc
  · simpa [blocks, blkOf, List.mem_map] using hm

theorem arenaOut_range (h : Heap) (A : Arena) (hT : Tiled h A) :
    ∀ b ∈ arenaOut h A, A.start ≤ b.addr ∧ b.addr < A.start + A.size := by
  intro b hb
  exact Tiles_ge _ _ _ _ hT _ (arenaOut_addr h A b hb)

theorem arena_congr (h h1 : Heap) (A : Arena)
    (hc : ∀ a, A.start ≤ a → a < A.start + A.size → h1 a = h a) (hT : Tiled h A) :
    arenaHeaders h1 A = arenaHeaders h A ∧ Tiled h1 A ∧ arenaOut h1 A = arenaOut h A := by
  have e : arenaHeaders h1 A = arenaHeaders h A :=
    headers_congr h h1 _ A.start (fun a h1' h2 => by rw [hc a h1' h2]) _ _ (le_refl _)
  have hr := Tiles_ge _ _ _ _ hT
  refine ⟨e, ?_, ?_⟩
  · unfold Tiled
    rw [e]
    exact Tiles_congr h h1 _ _ _ (fun a ha hlt => by rw [hc a ha hlt]) hT
  · unfold arenaOut
    rw [e]
    congr 1
    exact blocks_congr _ _ _ (fun a ha => hc a (hr a ha).1 (hr a ha).2)

/-! ## The sweep of all arenas -/

theorem freeUnmarked_total (fuel : Nat) (s : GC) (A : Arena) (hT : Tiled s.heap A)
    (hpos : 0 < A.start) (hL : ListsOk s) (hf : A.size ≤ fuel) :
    ∃ nf wf, freeUnmarked fuel s A = .done (applyBlks s (arenaOut s.heap A), nf, wf) := by
  rw [freeUnmarked_eq_sweepFrom]
  have hlen := Tiles_length _ _ _ _ hT
  obtain ⟨nf, wf, e⟩ := sweepFrom_spec (A.start + A.size) (arenaHeaders s.heap A) fuel s
    A.start 0 0 0 hT (by omega) hL hpos (fun h => absurd rfl h)
  refine ⟨nf, wf, ?_⟩
  rw [e]
  simp [curBlk, arenaOut]

theorem freeUnmarked_outcome (fuel : Nat) (s : GC) (A : Arena) (hT : Tiled s.heap A)
    (hpos : 0 < A.start) (hL : ListsOk s) :
    freeUnmarked fuel s A = .timeout ∨
      ∃ nf wf, freeUnmarked fuel s A = .done (applyBlks s (arenaOut s.heap A), nf, wf) := by
  by_cases h : freeUnmarked fuel s A = .timeout
  · exact Or.inl h
  · right
    rw [freeUnmarked_eq_sweepFrom] at h
    have h1 := sweepFrom_mono _ s A.start 0 0 0 A.size fuel h
    obtain ⟨nf1, wf1, e⟩ := freeUnmarked_total (fuel + A.size) s A hT hpos hL (by omega)
    rw [freeUnmarked_eq_sweepFrom, h1] at e
    exact ⟨nf1, wf1, by rw [freeUnmarked_eq_sweepFrom]; exact e⟩

theorem freeUnmarked_done (fuel : Nat) (s : GC) (A : Arena) (hT : Tiled s.heap A)
    (hpos : 0 < A.start) (hL : ListsOk s) (s1 : GC) (nf wf : Nat)
    (h : freeUnmarked fuel s A = .done (s1, nf, wf)) :
    s1 = applyBlks s (arenaOut s.heap A) := by
  rcases freeUnmarked_outcome fuel s A hT hpos hL with e | ⟨nf1, wf1, e⟩
  · rw [e] at h; simp at h
  · rw [e] at h
    simp only [Outcome.done.injEq, Prod.mk.injEq] at h
    exact h.1.symm

theorem allOut_congr (h h1 : Heap) :
    ∀ (arenas : List Arena), (∀ B ∈ arenas, arenaOut h1 B = arenaOut h B) →
      allOut h1 arenas = allOut h arenas := by
  intro arenas
  induction arenas with
  | nil => intro _; rfl
  | cons B rest ih =>
    intro hc
    simp only [allOut, List.flatMap_cons] at ih ⊢
    rw [hc B (List.mem_cons_self _ _), ih (fun C hC => hc C (List.mem_cons_of_mem _ hC))]

theorem applyBlks_append (s : GC) (xs ys : List Blk) :
    applyBlks s (xs ++ ys) = applyBlks (applyBlks s xs) ys := by
  simp [applyBlks, List.foldl_append]

theorem sweep_frame (s : GC) (A : Arena) (hT : Tiled s.heap A) (x : Nat)
    (hx : ¬ (A.start ≤ x ∧ x < A.start + A.size)) :
    (applyBlks s (arenaOut s.heap A)).heap x = s.heap x := by
  apply applyBlks_heap_other
  intro b hb heq
  exact hx (heq ▸ arenaOut_range s.heap A hT b hb)

theorem sweepArenas_spec (fuel : Nat) :
    ∀ (arenas : List Arena) (s : GC) (a b : Nat),
      (∀ A ∈ arenas, 0 < A.start ∧ Tiled s.heap A) → arenas.Pairwise Arena.disjoint →
      ListsOk s →
      (∀ R, sweepArenas fuel s arenas a b = .done R →
        R.1 = applyBlks s (allOut s.heap arenas)) ∧
      ((∀ A ∈ arenas, A.size ≤ fuel) → ∃ R, sweepArenas fuel s arenas a b = .done R) := by
  intro arenas
  induction arenas with
  | nil =>
    intro s a b _ _ _
    refine ⟨?_, fun _ => ⟨_, rfl⟩⟩
    intro R hR
    simp only [sweepArenas, Outcome.done.injEq] at hR
    rw [← hR]
    simp [allOut, applyBlks]
  | cons A rest ih =>
    intro s a b hA hdis hL
    obtain ⟨hpos, hT⟩ := hA A (List.mem_cons_self _ _)
    rw [List.pairwise_cons] at hdis
    obtain ⟨hdA, hdrest⟩ := hdis
    generalize hS1 : applyBlks s (arenaOut s.heap A) = S1
    have hframe : ∀ B ∈ rest, ∀ x, B.start ≤ x → x < B.start + B.size →
        S1.heap x = s.heap x := by
      intro B hB x h1 h2
      rw [← hS1]
      apply sweep_frame s A hT
      intro hx
      rcases hdA B hB with h | h <;> omega
    have hrest : ∀ B ∈ rest, 0 < B.start ∧ Tiled S1.heap B := by
      intro B hB
      obtain ⟨hp, hTB⟩ := hA B (List.mem_cons_of_mem _ hB)
      exact ⟨hp, (arena_congr s.heap S1.heap B (hframe B hB) hTB).2.1⟩
    have hout : allOut S1.heap rest = allOut s.heap rest :=
      allOut_congr _ _ _ (fun B hB =>
        (arena_congr s.heap S1.heap B (hframe B hB) (hA B (List.mem_cons_of_mem _ hB)).2).2.2)
    have hL1 : ListsOk S1 := by rw [← hS1]; exact applyBlks_listsOk _ s hL
    have hall : applyBlks s (allOut s.heap (A :: rest)) =
        applyBlks S1 (allOut S1.heap rest) := by
      rw [hout, ← hS1, ← applyBlks_append]
      simp [allOut]
    refine ⟨?_, ?_⟩
    · intro R hR
      simp only [sweepArenas] at hR
      cases hfu : freeUnmarked fuel s A with
      | timeout => simp [hfu] at hR
      | abort s2 => simp [hfu] at hR
      | done res =>
        obtain ⟨s1, nf, wf⟩ := res
        simp only [hfu] at hR
        have e := freeUnmarked_done fuel s A hT hpos hL s1 nf wf hfu
        rw [hS1] at e
        subst e
        rw [hall]
        exact (ih s1 _ _ hrest hdrest hL1).1 R hR
    · intro hfuel
      obtain ⟨nf, wf, e⟩ := freeUnmarked_total fuel s A hT hpos hL
        (hfuel A (List.mem_cons_self _ _))
      rw [hS1] at e
      simp only [sweepArenas, e]
      exact (ih S1 _ _ hrest hdrest hL1).2 (fun B hB => hfuel B (List.mem_cons_of_mem _ hB))

/-! ## A whole collection -/

theorem mem_allHeaders (s : GC) (a : Nat) :
    a ∈ allHeaders s ↔ ∃ A ∈ s.arenas, a ∈ arenaHeaders s.heap A := by
  simp [allHeaders, List.mem_flatMap]

theorem WellFormed.header {s : GC} (hW : WellFormed s) {a : Nat} (ha : a ∈ allHeaders s) :
    0 < objWords (s.heap a) ∧ a ≠ 0 ∧ isObject s a = true := by
  obtain ⟨A, hA, haA⟩ := (mem_allHeaders s a).1 ha
  have hT := hW.tiled A hA
  have hr := Tiles_ge _ _ _ _ hT a haA
  have hp := hW.arenas_pos A hA
  refine ⟨Tiles_words _ _ _ _ hT a haA, by omega, ?_⟩
  simp only [isObject, List.any_eq_true, Bool.and_eq_true, decide_eq_true_eq]
  exact ⟨A, hA, hr.1, hr.2⟩

theorem traceable_of_words {o : Obj} (hw : 0 < objWords o) (hf : o.type ≠ .tFree) :
    traceable o.type = true := by
  unfold objWords objSize at hw
  cases h : o.type <;> simp_all [traceable, isValueTag]

theorem objWords_mark (o : Obj) (b : Bool) : objWords { o with marked := b } = objWords o := by
  rfl

/-- The heap after the mark phase has the same tiling as before. -/
theorem marked_heap_arena (s : GC) (hm : Heap)
    (h1 : ∀ x, Reach s x → hm x = { s.heap x with marked := true })
    (h2 : ∀ x, ¬ Reach s x → hm x = s.heap x) (A : Arena) (hT : Tiled s.heap A) :
    arenaHeaders hm A = arenaHeaders s.heap A ∧ Tiled hm A := by
  have hw : ∀ a, objWords (hm a) = objWords (s.heap a) := by
    intro a
    by_cases hr : Reach s a
    · rw [h1 a hr]; rfl
    · rw [h2 a hr]
  have e : arenaHeaders hm A = arenaHeaders s.heap A :=
    headers_congr s.heap hm _ A.start (fun a _ _ => hw a) _ _ (le_refl _)
  refine ⟨e, ?_⟩
  unfold Tiled
  rw [e]
  exact Tiles_congr s.heap hm _ _ _ (fun a _ _ => hw a) hT

theorem WellFormed.reach_unmarked {s : GC} (hW : WellFormed s) :
    ∀ x, Reach s x → (s.heap x).marked = false :=
  fun x hx => hW.unmarked x (hW.reach_valid x hx)

theorem resetFreeLists_listsOk (s : GC) (hL : ListsOk s) : ListsOk (resetFreeLists s) := by
  apply listsOk_of_minSize s
  · simp [resetFreeLists, Function.comp_def]
  · exact hL

theorem gc_done (s : GC) (hW : WellFormed s) (fuel : Nat) (s1 : GC)
    (h : gc fuel s = .done s1) : GcPost s s1 ∧ Traceable s := by
  unfold gc at h
  cases hmp : markPhase fuel s with
  | timeout => simp [hmp] at h
  | abort s2 => simp [hmp] at h
  | done res =>
    obtain ⟨sm, m⟩ := res
    simp only [hmp] at h
    obtain ⟨hf, hre, hnre, hroots⟩ := markPhase_done s hW.reach_unmarked fuel sm m hmp
    have hre1 : ∀ x, Reach s x → sm.heap x = { s.heap x with marked := true } :=
      fun x hx => (hre x hx).1
    have htrace : Traceable s := by
      refine ⟨hroots, ?_⟩
      intro x hx hfree
      have := (hre x hx).2
      rw [hfree] at this
      simp [traceable] at this
    refine ⟨?_, htrace⟩
    have harenas : (resetFreeLists sm).arenas = s.arenas := by
      rw [hf]; rfl
    have hheap : (resetFreeLists sm).heap = sm.heap := rfl
    cases hsw : sweepArenas fuel (resetFreeLists sm) (resetFreeLists sm).arenas 0 0 with
    | timeout => simp [hsw] at h
    | abort s3 => simp [hsw] at h
    | done res =>
      obtain ⟨s3, nf, wf⟩ := res
      simp only [hsw, Outcome.done.injEq] at h
      have hL : ListsOk (resetFreeLists sm) := by
        apply resetFreeLists_listsOk
        rw [hf]
        exact hW.lists
      have hsp := (sweepArenas_spec fuel (resetFreeLists sm).arenas (resetFreeLists sm) 0 0
        (by
          rw [harenas]
          intro A hA
          exact ⟨hW.arenas_pos A hA,
            (marked_heap_arena s sm.heap hre1 hnre A (hW.tiled A hA)).2⟩)
        (by rw [harenas]; exact hW.arenas_disjoint) hL).1 _ hsw
      simp only at hsp
      refine ⟨sm.heap, wf, ⟨hre1, hnre⟩, ?_⟩
      rw [← h, hsp, harenas, hheap]
      have e : resetFreeLists sm = resetFreeLists (s.withHeap sm.heap) := by
        conv_lhs => rw [hf]
      rw [e]
      have hall := (applyBlks_fields (allOut sm.heap s.arenas)
        (resetFreeLists (s.withHeap sm.heap))).2.2.2.2.2.2.1
      unfold sweepResult
      rw [hall]
      rfl

theorem gc_total (s : GC) (hW : WellFormed s) (hT : Traceable s) :
    ∃ N, ∀ fuel, N ≤ fuel → ∃ s1, gc fuel s = .done s1 := by
  refine ⟨markBound (allHeaders s) s + (s.arenas.map Arena.size).sum, ?_⟩
  intro fuel hfuel
  have hmt := markPhase_total s (allHeaders s) hW.reach_valid hW.reach_unmarked fuel (by omega)
  have hna := hmt.2 hT.1 (fun x hx => by
    have hh := hW.header (hW.reach_valid x hx)
    exact ⟨traceable_of_words hh.1 (hT.2 x hx), by simp [assertObject, hh.2.2]⟩)
  unfold gc
  cases hmp : markPhase fuel s with
  | timeout => exact absurd hmp hmt.1
  | abort s2 => exact absurd hmp (hna s2)
  | done res =>
    obtain ⟨sm, m⟩ := res
    obtain ⟨hf, hre, hnre, -⟩ := markPhase_done s hW.reach_unmarked fuel sm m hmp
    have hre1 : ∀ x, Reach s x → sm.heap x = { s.heap x with marked := true } :=
      fun x hx => (hre x hx).1
    have harenas : (resetFreeLists sm).arenas = s.arenas := by
      rw [hf]; rfl
    have hL : ListsOk (resetFreeLists sm) := by
      apply resetFreeLists_listsOk
      rw [hf]
      exact hW.lists
    obtain ⟨R, hR⟩ := (sweepArenas_spec fuel (resetFreeLists sm).arenas (resetFreeLists sm) 0 0
      (by
        rw [harenas]
        intro A hA
        exact ⟨hW.arenas_pos A hA,
          (marked_heap_arena s sm.heap hre1 hnre A (hW.tiled A hA)).2⟩)
      (by rw [harenas]; exact hW.arenas_disjoint) hL).2 (by
        rw [harenas]
        intro A hA
        have := le_sum_map_of_mem Arena.size s.arenas A hA
        omega)
    obtain ⟨s3, nf, wf⟩ := R
    simp only [hR]
    exact ⟨_, rfl⟩

/-! ## Size classes -/

theorem pickMin_some (n : Nat) :
    ∀ (L : List FreeList) (t : Nat), pickMin n L = some t →
      t ≤ n ∧ ∃ fl ∈ L, fl.minSize = t := by
  intro L
  induction L with
  | nil => intro t h; simp [pickMin] at h
  | cons fl L ih =>
    intro t h
    by_cases hs : n ≥ fl.minSize
    · simp only [pickMin, hs, if_true, Option.some.injEq] at h
      subst h
      exact ⟨hs, fl, List.mem_cons_self _ _, rfl⟩
    · simp only [pickMin, hs, if_false] at h
      obtain ⟨h1, g, hg, h2⟩ := ih t h
      exact ⟨h1, g, List.mem_cons_of_mem _ hg, h2⟩

theorem pickMin_none (n : Nat) :
    ∀ (L : List FreeList), pickMin n L = none → ∀ fl ∈ L, n < fl.minSize := by
  intro L
  induction L with
  | nil => intro _ fl hfl; simp at hfl
  | cons g L ih =>
    intro h fl hfl
    by_cases hs : n ≥ g.minSize
    · simp [pickMin, hs] at h
    · simp only [pickMin, hs, if_false] at h
      rcases List.mem_cons.1 hfl with rfl | hfl
      · omega
      · exact ih h fl hfl

theorem sizeClass_some (s : GC) (hL : ListsOk s) (n : Nat) (hn : 2 ≤ n) :
    ∃ fl ∈ s.freeLists, sizeClass s n = some fl.minSize := by
  unfold sizeClass
  cases h : pickMin n s.freeLists.reverse with
  | none =>
    obtain ⟨fl, hfl, hle⟩ := hL.2
    have := pickMin_none n _ h fl (by simpa using hfl)
    omega
  | some t =>
    obtain ⟨-, fl, hfl, e⟩ := pickMin_some n _ t h
    exact ⟨fl, by simpa using hfl, by rw [e]⟩

theorem sizeClass_le (s : GC) (n t : Nat) (h : sizeClass s n = some t) : t ≤ n :=
  (pickMin_some n _ t h).1

/-! ## Runs of reclaimable blocks -/

theorem coalesce_run :
    ∀ (run : List Blk) (c : Blk), (∀ b ∈ run, b.free = true) →
      coalesce (some c) run = [⟨c.addr, c.size + (run.map Blk.size).sum, c.free⟩] := by
  intro run
  induction run with
  | nil => intro c _; simp [coalesce]
  | cons b run ih =>
    intro c h
    have hb := h b (List.mem_cons_self _ _)
    simp only [coalesce, hb, if_true]
    rw [ih _ (fun d hd => h d (List.mem_cons_of_mem _ hd))]
    simp [Nat.add_assoc]

theorem coalesce_append_tail :
    ∀ (xs : List Blk) (cur : Option Blk) (ys : List Blk),
      (∀ y, ys.head? = some y → y.free = false) →
      coalesce cur (xs ++ ys) = coalesce cur xs ++ coalesce none ys := by
  intro xs
  induction xs with
  | nil =>
    intro cur ys hy
    cases cur with
    | none => simp [coalesce]
    | some c =>
      cases ys with
      | nil => simp [coalesce]
      | cons y ys =>
        have := hy y rfl
        simp [coalesce, this]
  | cons x xs ih =>
    intro cur ys hy
    cases cur with
    | none =>
      by_cases hx : x.free = true
      · simp only [List.cons_append, coalesce, hx, if_true]
        exact ih _ ys hy
      · simp only [List.cons_append, coalesce, hx, Bool.false_eq_true, if_false]
        rw [List.append_eq, ih none ys hy]
    | some c =>
      by_cases hx : x.free = true
      · simp only [List.cons_append, coalesce, hx, if_true]
        exact ih _ ys hy
      · simp only [List.cons_append, coalesce, hx, Bool.false_eq_true, if_false]
        rw [List.append_eq, ih none ys hy]

theorem coalesce_append_head :
    ∀ (xs : List Blk) (cur : Option Blk) (ys : List Blk),
      (∀ x, xs.getLast? = some x → x.free = false) → (xs = [] → cur = none) →
      coalesce cur (xs ++ ys) = coalesce cur xs ++ coalesce none ys := by
  intro xs
  induction xs with
  | nil =>
    intro cur ys _ hc
    rw [hc rfl]
    simp [coalesce]
  | cons x xs ih =>
    intro cur ys hlast _
    have hlast1 : xs ≠ [] → ∀ y, xs.getLast? = some y → y.free = false := by
      intro hne y hy
      apply hlast y
      cases xs with
      | nil => exact absurd rfl hne
      | cons z zs => rw [List.getLast?_cons_cons]; exact hy
    by_cases hx : x.free = true
    · have hne : xs ≠ [] := by
        intro e
        subst e
        have := hlast x rfl
        rw [hx] at this
        simp at this
      cases cur with
      | none =>
        simp only [List.cons_append, coalesce, hx, if_true]
        exact ih _ ys (hlast1 hne) (fun e => absurd e hne)
      | some c =>
        simp only [List.cons_append, coalesce, hx, if_true]
        exact ih _ ys (hlast1 hne) (fun e => absurd e hne)
    · have hl : ∀ y, xs.getLast? = some y → y.free = false := by
        intro y hy
        by_cases hne : xs = []
        · subst hne; simp at hy
        · exact hlast1 hne y hy
      cases cur with
      | none =>
        simp only [List.cons_append, coalesce, hx, Bool.false_eq_true, if_false]
        rw [List.append_eq, ih none ys hl (fun _ => rfl)]
      | some c =>
        simp only [List.cons_append, coalesce, hx, Bool.false_eq_true, if_false]
        rw [List.append_eq, ih none ys hl (fun _ => rfl)]

theorem NoAdjFree_split :
    ∀ (o1 : List Blk) (x y : Blk) (o2 : List Blk), NoAdjFree (o1 ++ x :: y :: o2) →
      ¬ (x.free = true ∧ y.free = true) := by
  intro o1
  induction o1 with
  | nil => intro x y o2 h; exact h.1
  | cons z o1 ih =>
    intro x y o2 h
    cases o1 with
    | nil => exact ih x y o2 h.2
    | cons w o1 => exact ih x y o2 h.2

/-! ## An arena after its sweep -/

theorem Contig_tiles (H : Heap) (stop : Nat) :
    ∀ (bs : List Blk) (pos : Nat), Contig stop pos bs →
      (∀ b ∈ bs, objWords (H b.addr) = b.size) → Tiles H stop pos (bs.map Blk.addr) := by
  intro bs
  induction bs with
  | nil => intro pos hC _; exact hC
  | cons b bs ih =>
    intro pos hC hw
    obtain ⟨h1, h2, h3, h4⟩ := hC
    have e := hw b (List.mem_cons_self _ _)
    simp only [List.map_cons]
    refine ⟨h1, h2, ?_, ?_⟩
    · rw [← h1, e]; exact h3
    · rw [← h1, e, h1]
      exact ih _ h4 (fun c hc => hw c (List.mem_cons_of_mem _ hc))

theorem headers_of_tiles (h : Heap) (stop : Nat) :
    ∀ (l : List Nat) (pos fuel : Nat), Tiles h stop pos l → l.length ≤ fuel →
      headers h stop fuel pos = l := by
  intro l
  induction l with
  | nil =>
    intro pos fuel hT _
    have : pos = stop := hT
    cases fuel with
    | zero => rfl
    | succ f => simp [headers, this]
  | cons a l ih =>
    intro pos fuel hT hf
    obtain ⟨h1, h2, h3, h4⟩ := hT
    cases fuel with
    | zero => simp at hf
    | succ f =>
      simp only [headers, h2, if_true]
      rw [ih _ f h4 (by simpa using hf), h1]

theorem arenaOut_contig (h : Heap) (A : Arena) (hT : Tiled h A) :
    Contig (A.start + A.size) A.start (arenaOut h A) :=
  (Contig_coalesce _ _ _ (Tiles_blocks _ _ _ _ hT)).1

theorem arenaOut_live (h : Heap) (A : Arena) (b : Blk) (hb : b ∈ arenaOut h A)
    (hf : b.free = false) :
    b.addr ∈ arenaHeaders h A ∧ b = blkOf h b.addr ∧ (h b.addr).type ≠ .tFree ∧
      (h b.addr).marked = true := by
  have hm := coalesce_mem_live _ _ b hb hf (fun c hc => by simp at hc)
  simp only [blocks, List.mem_map] at hm
  obtain ⟨a, ha, e⟩ := hm
  have hba : b.addr = a := by rw [← e]; rfl
  rw [hba]
  refine ⟨ha, e.symm, ?_, ?_⟩
  · intro ht
    rw [← e] at hf
    simp [blkOf, ht] at hf
  · rw [← e] at hf
    simp only [blkOf, Bool.or_eq_false_iff, Bool.not_eq_false'] at hf
    exact hf.2

/-- The cells of the output blocks of one arena, in any heap `H` obtained by
    writing those blocks back over the heap `h`. -/
theorem out_cells (h H : Heap) (A : Arena) (out : List Blk) (hsub : ∀ b ∈ out, b ∈ arenaOut h A)
    (hlive : ∀ b ∈ out, b.free = false → H b.addr = { h b.addr with marked := false })
    (hfree : ∀ b ∈ out, b.free = true →
      ∃ nxt, H b.addr = { h b.addr with type := .tFree, misc := b.size, next := nxt }) :
    ∀ b ∈ out, objWords (H b.addr) = b.size ∧ ((H b.addr).type = .tFree ↔ b.free = true) ∧
      (b.free = true → freeWords (H b.addr) = b.size) := by
  intro b hb
  by_cases hf : b.free = true
  · obtain ⟨nxt, e⟩ := hfree b hb hf
    rw [e]
    refine ⟨by simp [objWords, objSize, isValueTag, freeWords], by simp [hf], fun _ => rfl⟩
  · have hf0 : b.free = false := by simpa using hf
    obtain ⟨-, e, ht, -⟩ := arenaOut_live h A b (hsub b hb) hf0
    rw [hlive b hb hf0]
    have hsz : b.size = objWords (h b.addr) := by
      conv_lhs => rw [e]
      rfl
    refine ⟨?_, by simpa [hf0] using ht, fun h => absurd h hf⟩
    rw [hsz]
    rfl

theorem arena_post (s S : GC) (A : Arena) (hT : Tiled s.heap A)
    (hlive : ∀ b ∈ arenaOut s.heap A, b.free = false →
      S.heap b.addr = { s.heap b.addr with marked := false })
    (hfree : ∀ b ∈ arenaOut s.heap A, b.free = true →
      ∃ nxt, S.heap b.addr = { s.heap b.addr with type := .tFree, misc := b.size, next := nxt }) :
    Tiled S.heap A ∧ arenaHeaders S.heap A = (arenaOut s.heap A).map Blk.addr := by
  have hC := arenaOut_contig s.heap A hT
  have hcells := out_cells s.heap S.heap A _ (fun b hb => hb) hlive hfree
  have hT1 := Contig_tiles S.heap _ _ _ hC (fun b hb => (hcells b hb).1)
  have hlen := Tiles_length _ _ _ _ hT1
  have e : arenaHeaders S.heap A = (arenaOut s.heap A).map Blk.addr :=
    headers_of_tiles _ _ _ _ _ hT1 (by omega)
  refine ⟨?_, e⟩
  unfold Tiled
  rw [e]
  exact hT1

theorem freeUnmarked_post (s : GC) (A : Arena) (hT : Tiled s.heap A) :
    (∀ b ∈ arenaOut s.heap A, b.free = false →
      (applyBlks s (arenaOut s.heap A)).heap b.addr = { s.heap b.addr with marked := false }) ∧
    (∀ b ∈ arenaOut s.heap A, b.free = true →
      ∃ nxt, (applyBlks s (arenaOut s.heap A)).heap b.addr =
        { s.heap b.addr with type := .tFree, misc := b.size, next := nxt }) := by
  have hnd := Contig_nodup _ _ _ (arenaOut_contig s.heap A hT)
  exact ⟨applyBlks_heap_live _ s hnd, applyBlks_heap_free _ s hnd⟩

/-! ## Facts used by the statements about one arena -/

theorem Tiles_sum (h : Heap) (stop : Nat) :
    ∀ (l : List Nat) (pos : Nat), Tiles h stop pos l →
      pos + (l.map fun a => objWords (h a)).sum = stop := by
  intro l
  induction l with
  | nil => intro pos hT; have : pos = stop := hT; simp [this]
  | cons a l ih =>
    intro pos hT
    obtain ⟨h1, -, -, h4⟩ := hT
    have := ih _ h4
    simp only [List.map_cons, List.sum_cons]
    rw [h1]
    omega

theorem blocks_addr (h : Heap) (l : List Nat) : (blocks h l).map Blk.addr = l := by
  induction l with
  | nil => rfl
  | cons a l ih =>
    simp only [blocks, List.map_cons] at ih ⊢
    rw [ih]
    rfl

theorem Tiles_nodup (h : Heap) (stop pos : Nat) (l : List Nat) (hT : Tiles h stop pos l) :
    l.Nodup := by
  have := Contig_nodup _ _ _ (Tiles_blocks _ _ _ _ hT)
  rwa [blocks_addr] at this

theorem blkOf_free_iff (h : Heap) (a : Nat) :
    (blkOf h a).free = true ↔ ((h a).type = .tFree ∨ (h a).marked = false) := by
  simp [blkOf]

theorem blkOf_live_iff (h : Heap) (a : Nat) :
    (blkOf h a).free = false ↔ ((h a).type ≠ .tFree ∧ (h a).marked = true) := by
  simp [blkOf]

theorem coalesce_none_addr (bs : List Blk) (d : Blk) (hd : d ∈ coalesce none bs) :
    d.addr ∈ bs.map Blk.addr := by
  rcases coalesce_addr_mem bs none d hd with ⟨c, hc, -⟩ | h
  · simp at hc
  · exact h

/-- The output of the sweep around a maximal run of reclaimable objects. -/
theorem dead_run_out (h : Heap) (pre rest post : List Nat) (r : Nat)
    (hrun : ∀ a ∈ r :: rest, (h a).type = .tFree ∨ (h a).marked = false)
    (hpre : ∀ a, pre.getLast? = some a → (h a).type ≠ .tFree ∧ (h a).marked = true)
    (hpost : ∀ a, post.head? = some a → (h a).type ≠ .tFree ∧ (h a).marked = true) :
    coalesce none (blocks h (pre ++ (r :: rest) ++ post)) =
      coalesce none (blocks h pre) ++
        ⟨r, ((r :: rest).map fun a => objWords (h a)).sum, true⟩ ::
          coalesce none (blocks h post) := by
  have e1 : blocks h (pre ++ (r :: rest) ++ post) =
      blocks h pre ++ (blocks h (r :: rest) ++ blocks h post) := by
    simp [blocks]
  have hlast : ∀ x, (blocks h pre).getLast? = some x → x.free = false := by
    intro x hx
    simp only [blocks, List.getLast?_map, Option.map_eq_some'] at hx
    obtain ⟨a, ha, rfl⟩ := hx
    exact (blkOf_live_iff h a).2 (hpre a ha)
  have hhead : ∀ y, (blocks h post).head? = some y → y.free = false := by
    intro y hy
    simp only [blocks, List.head?_map, Option.map_eq_some'] at hy
    obtain ⟨a, ha, rfl⟩ := hy
    exact (blkOf_live_iff h a).2 (hpost a ha)
  rw [e1, coalesce_append_head _ none _ hlast (fun _ => rfl),
    coalesce_append_tail _ none _ hhead]
  congr 1
  have hr : (blkOf h r).free = true := (blkOf_free_iff h r).2 (hrun r (List.mem_cons_self _ _))
  have hrest : ∀ b ∈ blocks h rest, b.free = true := by
    intro b hb
    simp only [blocks, List.mem_map] at hb
    obtain ⟨a, ha, rfl⟩ := hb
    exact (blkOf_free_iff h a).2 (hrun a (List.mem_cons_of_mem _ ha))
  have e2 : coalesce none (blocks h (r :: rest)) = coalesce (some (blkOf h r)) (blocks h rest) := by
    simp [blocks, coalesce, hr]
  rw [e2, coalesce_run _ _ hrest, hr]
  simp [blkOf, blocks, Function.comp_def]

theorem map_addr_split (out : List Blk) (l1 l2 : List Nat) (a b : Nat)
    (h : out.map Blk.addr = l1 ++ a :: b :: l2) :
    ∃ o1 x y o2, out = o1 ++ x :: y :: o2 ∧ x.addr = a ∧ y.addr = b := by
  obtain ⟨o1, o2, rfl, -, h2⟩ := List.map_eq_append_iff.1 h
  obtain ⟨x, o3, rfl, hx, h3⟩ := List.map_eq_cons_iff.1 h2
  obtain ⟨y, o4, rfl, hy, -⟩ := List.map_eq_cons_iff.1 h3
  exact ⟨o1, x, y, o4, rfl, hx, hy⟩

theorem chainOf_mem_of (s : GC) (t : Nat) (bs : List Blk) (b : Blk) (hb : b ∈ bs)
    (hf : b.free = true) (h1 : 1 < b.size) (hc : sizeClass s b.size = some t) :
    b.addr ∈ chainOf s t bs := by
  unfold chainOf
  simp only [List.mem_reverse, List.mem_map, List.mem_filter, Bool.and_eq_true,
    decide_eq_true_eq]
  exact ⟨b, ⟨hb, ⟨hf, h1⟩, hc⟩, rfl⟩

theorem chainOf_nodup (s : GC) (t : Nat) (bs : List Blk) (hnd : (bs.map Blk.addr).Nodup) :
    (chainOf s t bs).Nodup := by
  unfold chainOf
  rw [List.nodup_reverse]
  exact List.Nodup.sublist (List.Sublist.map _ (List.filter_sublist _)) hnd

theorem minSize_mem (s s1 : GC)
    (h : s1.freeLists.map FreeList.minSize = s.freeLists.map FreeList.minSize)
    (fl : FreeList) (hfl : fl ∈ s.freeLists) :
    ∃ g ∈ s1.freeLists, g.minSize = fl.minSize := by
  have : fl.minSize ∈ s1.freeLists.map FreeList.minSize := by
    rw [h]; exact List.mem_map_of_mem _ hfl
  obtain ⟨g, hg, e⟩ := List.mem_map.1 this
  exact ⟨g, hg, e⟩

/-! ## More on coalescing -/

theorem coalesce_free_head :
    ∀ (bs : List Blk) (cur : Option Blk) (d : Blk), d ∈ coalesce cur bs → d.free = true →
      (∃ c, cur = some c ∧ c.addr = d.addr) ∨ ∃ b ∈ bs, b.addr = d.addr ∧ b.free = true := by
  intro bs
  induction bs with
  | nil =>
    intro cur d hd _
    cases cur with
    | none => simp [coalesce] at hd
    | some c =>
      simp only [coalesce, List.mem_singleton] at hd
      exact Or.inl ⟨c, rfl, by rw [hd]⟩
  | cons b bs ih =>
    intro cur d hd hf
    cases cur with
    | none =>
      by_cases hb : b.free = true
      · simp only [coalesce, hb, if_true] at hd
        rcases ih _ d hd hf with ⟨c, hc, hdc⟩ | ⟨e, he, h1, h2⟩
        · simp only [Option.some.injEq] at hc
          subst hc
          exact Or.inr ⟨b, List.mem_cons_self _ _, hdc, hb⟩
        · exact Or.inr ⟨e, List.mem_cons_of_mem _ he, h1, h2⟩
      · simp only [coalesce, hb, Bool.false_eq_true, if_false, List.mem_cons] at hd
        rcases hd with rfl | hd
        · exact absurd hf hb
        · rcases ih _ d hd hf with ⟨c, hc, -⟩ | ⟨e, he, h1, h2⟩
          · simp at hc
          · exact Or.inr ⟨e, List.mem_cons_of_mem _ he, h1, h2⟩
    | some c =>
      by_cases hb : b.free = true
      · simp only [coalesce, hb, if_true] at hd
        rcases ih _ d hd hf with ⟨c1, hc, hdc⟩ | ⟨e, he, h1, h2⟩
        · simp only [Option.some.injEq] at hc
          subst hc
          exact Or.inl ⟨c, rfl, hdc⟩
        · exact Or.inr ⟨e, List.mem_cons_of_mem _ he, h1, h2⟩
      · simp only [coalesce, hb, Bool.false_eq_true, if_false, List.mem_cons] at hd
        rcases hd with rfl | rfl | hd
        · exact Or.inl ⟨d, rfl, rfl⟩
        · exact absurd hf hb
        · rcases ih _ d hd hf with ⟨c1, hc, -⟩ | ⟨e, he, h1, h2⟩
          · simp at hc
          · exact Or.inr ⟨e, List.mem_cons_of_mem _ he, h1, h2⟩

theorem NoAdjFree_tail (b : Blk) (bs : List Blk) (h : NoAdjFree (b :: bs)) : NoAdjFree bs := by
  cases bs with
  | nil => trivial
  | cons c cs => exact h.2

/-- Coalescing changes nothing when no two neighbours are reclaimable. -/
theorem coalesce_id :
    ∀ (bs : List Blk), NoAdjFree bs →
      coalesce none bs = bs ∧
      ∀ c : Blk, (∀ b, bs.head? = some b → b.free = false) → coalesce (some c) bs = c :: bs := by
  intro bs
  induction bs with
  | nil => intro _; exact ⟨rfl, fun c _ => rfl⟩
  | cons b bs ih =>
    intro h
    obtain ⟨ihn, ihs⟩ := ih (NoAdjFree_tail b bs h)
    constructor
    · by_cases hb : b.free = true
      · simp only [coalesce, hb, if_true]
        apply ihs
        intro c hc
        cases bs with
        | nil => simp at hc
        | cons d ds =>
          simp only [List.head?_cons, Option.some.injEq] at hc
          subst hc
          have := h.1
          simp only [hb, true_and] at this
          simpa using this
      · simp only [coalesce, hb, Bool.false_eq_true, if_false, ihn]
    · intro c hc
      have hb : b.free = false := hc b rfl
      simp only [coalesce, hb, Bool.false_eq_true, if_false, ihn]

/-! ## The `next` fields along a free-list -/

theorem Chain_next_eq (h h1 : Heap) :
    ∀ (l : List Nat) (p p1 : Nat), Chain h p l → Chain h1 p1 l →
      p = p1 ∧ ∀ a ∈ l, (h a).next = (h1 a).next := by
  intro l
  induction l with
  | nil =>
    intro p p1 hc hc1
    have e : p = 0 := hc
    have e1 : p1 = 0 := hc1
    exact ⟨by rw [e, e1], fun a ha => by simp at ha⟩
  | cons b l ih =>
    intro p p1 hc hc1
    obtain ⟨e, -, hc'⟩ := hc
    obtain ⟨e1, -, hc1'⟩ := hc1
    obtain ⟨hn, hrest⟩ := ih _ _ hc' hc1'
    refine ⟨by rw [e, e1], ?_⟩
    intro a ha
    rcases List.mem_cons.1 ha with rfl | ha
    · exact hn
    · exact hrest a ha

theorem applyBlk_heap_small (s : GC) (b : Blk) (hb : b.free = true) (h1 : ¬ 1 < b.size) :
    (applyBlk s b).heap b.addr = { s.heap b.addr with type := .tFree, misc := b.size } := by
  simp [applyBlk, hb, h1, convertToFree, GC.withHeap, setObj, setSize]

theorem applyBlks_heap_small :
    ∀ (bs : List Blk) (s : GC), (bs.map Blk.addr).Nodup → ∀ b ∈ bs, b.free = true →
      ¬ 1 < b.size →
      (applyBlks s bs).heap b.addr = { s.heap b.addr with type := .tFree, misc := b.size } := by
  intro bs
  induction bs with
  | nil => intro s _ b hb; simp at hb
  | cons c bs ih =>
    intro s hnd b hb hf h1
    simp only [List.map_cons, List.nodup_cons] at hnd
    simp only [applyBlks, List.foldl_cons]
    rcases List.mem_cons.1 hb with rfl | hb
    · have := applyBlks_heap_other b.addr bs (applyBlk s b) (fun c hc heq =>
        hnd.1 (by rw [heq]; exact List.mem_map_of_mem _ hc))
      simp only [applyBlks] at this
      rw [this]
      exact applyBlk_heap_small s b hf h1
    · have := ih (applyBlk s c) hnd.2 b hb hf h1
      simp only [applyBlks] at this
      rw [applyBlk_heap_other s c b.addr (fun heq =>
        hnd.1 (by rw [← heq]; exact List.mem_map_of_mem _ hb))] at this
      exact this

/-! ## The state after a collection -/

theorem MarkedHeap.same {s : GC} {hm : Heap} (hM : MarkedHeap s hm) (a : Nat) :
    objWords (hm a) = objWords (s.heap a) ∧ (hm a).type = (s.heap a).type ∧
      outEdges (hm a) = outEdges (s.heap a) := by
  by_cases hr : Reach s a
  · rw [hM.1 a hr]; exact ⟨rfl, rfl, rfl⟩
  · rw [hM.2 a hr]; exact ⟨rfl, rfl, rfl⟩

theorem MarkedHeap.blk {s : GC} {hm : Heap} (hW : WellFormed s) (hTr : Traceable s)
    (hM : MarkedHeap s hm) {a : Nat} (ha : a ∈ allHeaders s) :
    (blkOf hm a).free = false ↔ Reach s a := by
  rw [blkOf_live_iff]
  constructor
  · intro h
    by_contra hr
    rw [hM.2 a hr, hW.unmarked a ha] at h
    simp at h
  · intro hr
    rw [hM.1 a hr]
    exact ⟨hTr.2 a hr, rfl⟩

theorem MarkedHeap.headers {s : GC} {hm : Heap} (hW : WellFormed s) (hM : MarkedHeap s hm)
    {A : Arena} (hA : A ∈ s.arenas) :
    arenaHeaders hm A = arenaHeaders s.heap A ∧ Tiled hm A :=
  marked_heap_arena s hm hM.1 hM.2 A (hW.tiled A hA)

theorem allOut_mem (h : Heap) (arenas : List Arena) (b : Blk) :
    b ∈ allOut h arenas ↔ ∃ A ∈ arenas, b ∈ arenaOut h A := by
  simp [allOut, List.mem_flatMap]

theorem allOut_nodup {s : GC} {hm : Heap} (hW : WellFormed s) (hM : MarkedHeap s hm) :
    ((allOut hm s.arenas).map Blk.addr).Nodup ∧ ∀ b ∈ allOut hm s.arenas, b.addr ≠ 0 := by
  constructor
  · unfold allOut
    rw [List.map_flatMap, List.nodup_flatMap]
    constructor
    · intro A hA
      exact Contig_nodup _ _ _ (arenaOut_contig hm A (hM.headers hW hA).2)
    · refine List.Pairwise.imp_of_mem ?_ hW.arenas_disjoint
      intro A B hA hB hd
      show List.Disjoint _ _
      intro x hxA hxB
      obtain ⟨b, hb, rfl⟩ := List.mem_map.1 hxA
      obtain ⟨c, hc, hcb⟩ := List.mem_map.1 hxB
      have h1 := arenaOut_range hm A (hM.headers hW hA).2 b hb
      have h2 := arenaOut_range hm B (hM.headers hW hB).2 c hc
      rw [hcb] at h2
      rcases hd with h | h <;> omega
  · intro b hb
    obtain ⟨A, hA, hbA⟩ := (allOut_mem _ _ _).1 hb
    have h1 := arenaOut_range hm A (hM.headers hW hA).2 b hbA
    have := hW.arenas_pos A hA
    omega

theorem sweepResult_fields (s : GC) (hm : Heap) :
    (sweepResult s hm).arenas = s.arenas ∧ (sweepResult s hm).ptrRoots = s.ptrRoots ∧
    (sweepResult s hm).objRoots = s.objRoots ∧ (sweepResult s hm).validate = s.validate ∧
    (sweepResult s hm).totalSize = s.totalSize ∧ (sweepResult s hm).nextSize = s.nextSize ∧
    (sweepResult s hm).allTimeWordsFreed = s.allTimeWordsFreed ∧
    (sweepResult s hm).freeLists.map FreeList.minSize = s.freeLists.map FreeList.minSize := by
  obtain ⟨a1, a2, a3, a4, a5, a6, a7, a8⟩ :=
    applyBlks_fields (allOut hm s.arenas) (resetFreeLists (s.withHeap hm))
  unfold sweepResult
  refine ⟨a1, a2, a3, a4, a5, a6, a7, ?_⟩
  rw [a8]
  simp [resetFreeLists, GC.withHeap, Function.comp_def]

theorem sweepResult_cells {s : GC} {hm : Heap} (hW : WellFormed s) (hM : MarkedHeap s hm) :
    (∀ x, (∀ b ∈ allOut hm s.arenas, x ≠ b.addr) → (sweepResult s hm).heap x = hm x) ∧
    (∀ b ∈ allOut hm s.arenas, b.free = false →
      (sweepResult s hm).heap b.addr = { hm b.addr with marked := false }) ∧
    (∀ b ∈ allOut hm s.arenas, b.free = true →
      ∃ nxt, (sweepResult s hm).heap b.addr =
        { hm b.addr with type := .tFree, misc := b.size, next := nxt }) ∧
    (∀ b ∈ allOut hm s.arenas, b.free = true → ¬ 1 < b.size →
      (sweepResult s hm).heap b.addr = { hm b.addr with type := .tFree, misc := b.size }) := by
  have hnd := (allOut_nodup hW hM).1
  exact ⟨fun x hx => applyBlks_heap_other x _ _ hx,
    applyBlks_heap_live _ _ hnd, applyBlks_heap_free _ _ hnd, applyBlks_heap_small _ _ hnd⟩

theorem sweepResult_arena {s : GC} {hm : Heap} (hW : WellFormed s) (hM : MarkedHeap s hm)
    {A : Arena} (hA : A ∈ s.arenas) :
    Tiled (sweepResult s hm).heap A ∧
      arenaHeaders (sweepResult s hm).heap A = (arenaOut hm A).map Blk.addr := by
  obtain ⟨-, hlive, hfree, -⟩ := sweepResult_cells hW hM
  have hin : ∀ b ∈ arenaOut hm A, b ∈ allOut hm s.arenas :=
    fun b hb => (allOut_mem _ _ _).2 ⟨A, hA, hb⟩
  exact arena_post (s.withHeap hm) (sweepResult s hm) A (hM.headers hW hA).2
    (fun b hb hf => hlive b (hin b hb) hf) (fun b hb hf => hfree b (hin b hb) hf)

theorem sweepResult_allHeaders {s : GC} {hm : Heap} (hW : WellFormed s)
    (hM : MarkedHeap s hm) :
    allHeaders (sweepResult s hm) = (allOut hm s.arenas).map Blk.addr := by
  unfold allHeaders allOut
  rw [(sweepResult_fields s hm).1, List.map_flatMap]
  have key : ∀ (L : List Arena), (∀ A ∈ L, A ∈ s.arenas) →
      L.flatMap (arenaHeaders (sweepResult s hm).heap) =
        L.flatMap fun A => (arenaOut hm A).map Blk.addr := by
    intro L
    induction L with
    | nil => intro _; rfl
    | cons A L ih =>
      intro hL
      simp only [List.flatMap_cons]
      rw [(sweepResult_arena hW hM (hL A (List.mem_cons_self _ _))).2,
        ih (fun B hB => hL B (List.mem_cons_of_mem _ hB))]
  exact key _ (fun A hA => hA)

theorem sweepResult_chains {s : GC} {hm : Heap} (hW : WellFormed s) (hM : MarkedHeap s hm) :
    ∀ fl ∈ (sweepResult s hm).freeLists,
      Chain (sweepResult s hm).heap fl.front (chainOf s fl.minSize (allOut hm s.arenas)) := by
  intro fl hfl
  have hmin : (resetFreeLists (s.withHeap hm)).freeLists.map FreeList.minSize =
      s.freeLists.map FreeList.minSize := by
    simp [resetFreeLists, GC.withHeap, Function.comp_def]
  have hL : ListsOk (resetFreeLists (s.withHeap hm)) :=
    listsOk_of_minSize s _ hmin hW.lists
  obtain ⟨hnd, hnz⟩ := allOut_nodup hW hM
  have := applyBlks_chains (resetFreeLists (s.withHeap hm)) hL (fun _ => [])
    (by
      intro g hg
      simp only [resetFreeLists, List.mem_map] at hg
      obtain ⟨g0, -, rfl⟩ := hg
      rfl)
    (allOut hm s.arenas) hnd hnz (fun t a ha => by simp at ha) fl hfl
  rw [List.append_nil, chainOf_congr s _ hmin] at this
  exact this

theorem sweepResult_free_head {s : GC} {hm : Heap} (hW : WellFormed s) (hTr : Traceable s)
    (hM : MarkedHeap s hm) {b : Blk} (hb : b ∈ allOut hm s.arenas) (hf : b.free = true) :
    b.addr ∈ allHeaders s ∧ ¬ Reach s b.addr ∧ hm b.addr = s.heap b.addr := by
  obtain ⟨A, hA, hbA⟩ := (allOut_mem _ _ _).1 hb
  rcases coalesce_free_head _ _ b hbA hf with ⟨c, hc, -⟩ | ⟨e, he, h1, h2⟩
  · simp at hc
  · simp only [blocks, List.mem_map] at he
    obtain ⟨a, ha, rfl⟩ := he
    have hba : a = b.addr := h1
    subst hba
    rw [(hM.headers hW hA).1] at ha
    have hall : b.addr ∈ allHeaders s := (mem_allHeaders s _).2 ⟨A, hA, ha⟩
    have hnr : ¬ Reach s b.addr := by
      intro hr
      have := (hM.blk hW hTr hall).2 hr
      rw [h2] at this
      simp at this
    exact ⟨hall, hnr, hM.2 _ hnr⟩

theorem sweepResult_reach {s : GC} {hm : Heap} (hW : WellFormed s) (hTr : Traceable s)
    (hM : MarkedHeap s hm) {x : Nat} (hx : Reach s x) :
    (sweepResult s hm).heap x = s.heap x ∧ x ∈ allHeaders (sweepResult s hm) ∧
      blkOf hm x ∈ allOut hm s.arenas ∧ (blkOf hm x).free = false := by
  have hall := hW.reach_valid x hx
  obtain ⟨A, hA, hxA⟩ := (mem_allHeaders s x).1 hall
  have hlive := (hM.blk hW hTr hall).2 hx
  have hmem : blkOf hm x ∈ arenaOut hm A := by
    apply coalesce_live_mem _ _ _ _ hlive
    rw [(hM.headers hW hA).1]
    exact List.mem_map_of_mem _ hxA
  have hmem1 : blkOf hm x ∈ allOut hm s.arenas := (allOut_mem _ _ _).2 ⟨A, hA, hmem⟩
  have hcell := (sweepResult_cells hW hM).2.1 _ hmem1 hlive
  have haddr : (blkOf hm x).addr = x := rfl
  rw [haddr] at hcell
  refine ⟨?_, ?_, hmem1, hlive⟩
  · rw [hcell, hM.1 x hx]
    have := hW.unmarked x hall
    revert this
    cases s.heap x
    intro h
    simp only at h
    simp [h]
  · rw [sweepResult_allHeaders hW hM]
    exact List.mem_map.2 ⟨_, hmem1, rfl⟩

theorem sweepResult_unmarked {s : GC} {hm : Heap} (hW : WellFormed s) (hTr : Traceable s)
    (hM : MarkedHeap s hm) :
    ∀ a ∈ allHeaders (sweepResult s hm), ((sweepResult s hm).heap a).marked = false := by
  intro a ha
  rw [sweepResult_allHeaders hW hM] at ha
  obtain ⟨b, hb, rfl⟩ := List.mem_map.1 ha
  obtain ⟨-, hlive, hfree, -⟩ := sweepResult_cells hW hM
  by_cases hf : b.free = true
  · obtain ⟨nxt, e⟩ := hfree b hb hf
    obtain ⟨hall, -, hcell⟩ := sweepResult_free_head hW hTr hM hb hf
    rw [e, hcell]
    exact hW.unmarked _ hall
  · rw [hlive b hb (by simpa using hf)]

/-! ## Reachability is unchanged by a collection -/

theorem Reach_transfer (s t : GC) (hp : s.ptrRoots = t.ptrRoots) (ho : s.objRoots = t.objRoots)
    (he : ∀ x, Reach s x → Reach t x → outEdges (s.heap x) = outEdges (t.heap x)) :
    ∀ x, Reach s x → Reach t x := by
  intro x hx
  induction hx with
  | ptr h h0 => exact Reach.ptr (hp ▸ h) h0
  | root hr hpe h0 => exact Reach.root (ho ▸ hr) hpe h0
  | edge hx' hpe h0 ih => exact Reach.edge ih (he _ hx' ih ▸ hpe) h0

theorem gcPost_state {s s1 : GC} (hP : GcPost s s1) :
    ∃ hm, MarkedHeap s hm ∧ s1.heap = (sweepResult s hm).heap ∧
      s1.freeLists = (sweepResult s hm).freeLists ∧ s1.arenas = s.arenas ∧
      s1.ptrRoots = s.ptrRoots ∧ s1.objRoots = s.objRoots ∧ s1.validate = s.validate ∧
      s1.totalSize = s.totalSize ∧ s1.nextSize = s.nextSize := by
  obtain ⟨hm, wf, hM, e⟩ := hP
  obtain ⟨a1, a2, a3, a4, a5, a6, -, -⟩ := sweepResult_fields s hm
  refine ⟨hm, hM, ?_, ?_, ?_, ?_, ?_, ?_, ?_, ?_⟩ <;> rw [e] <;> simp [*]

theorem gcPost_allHeaders {s s1 : GC} {hm : Heap} (h1 : s1.heap = (sweepResult s hm).heap)
    (h2 : s1.arenas = s.arenas) : allHeaders s1 = allHeaders (sweepResult s hm) := by
  unfold allHeaders
  rw [h1, h2, (sweepResult_fields s hm).1]

theorem gcPost_reach {s s1 : GC} (hW : WellFormed s) (hTr : Traceable s) (hP : GcPost s s1) :
    ∀ x, Reach s1 x ↔ Reach s x := by
  obtain ⟨hm, hM, e1, -, -, e4, e5, -⟩ := gcPost_state hP
  have hcell : ∀ x, Reach s x → s1.heap x = s.heap x := by
    intro x hx
    rw [e1]
    exact (sweepResult_reach hW hTr hM hx).1
  intro x
  constructor
  · exact Reach_transfer s1 s e4 e5 (fun y _ hy => by rw [hcell y hy]) x
  · exact Reach_transfer s s1 e4.symm e5.symm (fun y hy _ => by rw [hcell y hy]) x

theorem gcPost_wellFormed {s s1 : GC} (hW : WellFormed s) (hTr : Traceable s)
    (hP : GcPost s s1) : WellFormed s1 ∧ Traceable s1 := by
  obtain ⟨hm, hM, e1, e2, e3, e4, e5, -⟩ := gcPost_state hP
  have hreach := gcPost_reach hW hTr hP
  have hhd := gcPost_allHeaders e1 e3
  refine ⟨⟨?_, ?_, ?_, ?_, ?_, ?_⟩, ?_, ?_⟩
  · apply listsOk_of_minSize s
    · rw [e2]; exact (sweepResult_fields s hm).2.2.2.2.2.2.2
    · exact hW.lists
  · rw [e3]; exact hW.arenas_pos
  · rw [e3]; exact hW.arenas_disjoint
  · intro A hA
    rw [e3] at hA
    rw [e1]
    exact (sweepResult_arena hW hM hA).1
  · intro a ha
    rw [hhd] at ha
    rw [e1]
    exact sweepResult_unmarked hW hTr hM a ha
  · intro x hx
    rw [hhd]
    exact (sweepResult_reach hW hTr hM ((hreach x).1 hx)).2.1
  · rw [e5]; exact hTr.1
  · intro x hx
    have hx' := (hreach x).1 hx
    rw [e1, (sweepResult_reach hW hTr hM hx').1]
    exact hTr.2 x hx'

/-! ## A second collection changes nothing -/

theorem Chain_front (h : Heap) (p : Nat) (l : List Nat) (hc : Chain h p l) :
    p = l.head?.getD 0 := by
  cases l with
  | nil => exact hc
  | cons a l => exact hc.1

theorem lists_eq_of_fronts (f : Nat → Nat) :
    ∀ (L1 L2 : List FreeList), L1.map FreeList.minSize = L2.map FreeList.minSize →
      (∀ fl ∈ L1, fl.front = f fl.minSize) → (∀ fl ∈ L2, fl.front = f fl.minSize) →
      L1 = L2 := by
  intro L1
  induction L1 with
  | nil =>
    intro L2 h _ _
    cases L2 with
    | nil => rfl
    | cons _ _ => simp at h
  | cons a L1 ih =>
    intro L2 h h1 h2
    cases L2 with
    | nil => simp at h
    | cons b L2 =>
      simp only [List.map_cons, List.cons.injEq] at h
      have ha := h1 a (List.mem_cons_self _ _)
      have hb := h2 b (List.mem_cons_self _ _)
      have hab : a = b := by
        cases a; cases b
        simp only at h ha hb
        simp only [FreeList.mk.injEq]
        exact ⟨h.1, by rw [ha, hb, h.1]⟩
      rw [hab, ih L2 h.2 (fun fl hfl => h1 fl (List.mem_cons_of_mem _ hfl))
        (fun fl hfl => h2 fl (List.mem_cons_of_mem _ hfl))]

theorem unmark_mark (o : Obj) (h : o.marked = false) :
    ({ ({ o with marked := true } : Obj) with marked := false } : Obj) = o := by
  cases o
  simp only at h
  simp [h]

theorem second_sweep {s s1 : GC} (hW : WellFormed s) (hTr : Traceable s) (hP : GcPost s s1)
    (hm1 : Heap) (hM1 : MarkedHeap s1 hm1) :
    (sweepResult s1 hm1).heap = s1.heap ∧ (sweepResult s1 hm1).freeLists = s1.freeLists := by
  obtain ⟨hW1, hTr1⟩ := gcPost_wellFormed hW hTr hP
  have hreach := gcPost_reach hW hTr hP
  obtain ⟨hm, hM, e1, e2, e3, e4, e5, -⟩ := gcPost_state hP
  have hhd : allHeaders s1 = (allOut hm s.arenas).map Blk.addr := by
    rw [gcPost_allHeaders e1 e3, sweepResult_allHeaders hW hM]
  obtain ⟨hother, hlive, hfree, hsmall⟩ := sweepResult_cells hW hM
  have hmin1 : s1.freeLists.map FreeList.minSize = s.freeLists.map FreeList.minSize := by
    rw [e2]; exact (sweepResult_fields s hm).2.2.2.2.2.2.2
  -- the blocks of the second sweep are those of the first
  have hflag : ∀ b ∈ allOut hm s.arenas, (blkOf hm1 b.addr).free = b.free := by
    intro b hb
    have hbh : b.addr ∈ allHeaders s1 := by rw [hhd]; exact List.mem_map_of_mem _ hb
    by_cases hf : b.free = true
    · obtain ⟨-, hnr, -⟩ := sweepResult_free_head hW hTr hM hb hf
      rw [hf]
      by_contra hne
      have hl : (blkOf hm1 b.addr).free = false := by simpa using hne
      exact hnr ((hreach _).1 ((hM1.blk hW1 hTr1 hbh).1 hl))
    · have hf0 : b.free = false := by simpa using hf
      obtain ⟨A, hA, hbA⟩ := (allOut_mem _ _ _).1 hb
      obtain ⟨hah, hbe, -, -⟩ := arenaOut_live hm A b hbA hf0
      rw [(hM.headers hW hA).1] at hah
      have hr : Reach s b.addr := by
        apply (hM.blk hW hTr ((mem_allHeaders s _).2 ⟨A, hA, hah⟩)).1
        rw [← hbe]; exact hf0
      rw [hf0]
      exact (hM1.blk hW1 hTr1 hbh).2 ((hreach _).2 hr)
  have hblk : ∀ A ∈ s.arenas, ∀ b ∈ arenaOut hm A, blkOf hm1 b.addr = b := by
    intro A hA b hb
    have hb1 : b ∈ allOut hm s.arenas := (allOut_mem _ _ _).2 ⟨A, hA, hb⟩
    have hcells := out_cells hm (sweepResult s hm).heap A (arenaOut hm A) (fun c hc => hc)
      (fun c hc hf => hlive c ((allOut_mem _ _ _).2 ⟨A, hA, hc⟩) hf)
      (fun c hc hf => hfree c ((allOut_mem _ _ _).2 ⟨A, hA, hc⟩) hf) b hb
    have hsz : objWords (hm1 b.addr) = b.size := by
      rw [(hM1.same b.addr).1, e1]
      exact hcells.1
    have hfl := hflag b hb1
    cases b
    simp only [blkOf] at hsz hfl ⊢
    simp only [Blk.mk.injEq, true_and]
    exact ⟨hsz, hfl⟩
  have hout : allOut hm1 s1.arenas = allOut hm s.arenas := by
    rw [e3]
    apply allOut_congr
    intro A hA
    have hA1 : A ∈ s1.arenas := by rw [e3]; exact hA
    show coalesce none (blocks hm1 (arenaHeaders hm1 A)) = arenaOut hm A
    rw [(hM1.headers hW1 hA1).1, e1, (sweepResult_arena hW hM hA).2]
    have hb : blocks hm1 ((arenaOut hm A).map Blk.addr) = arenaOut hm A := by
      unfold blocks
      rw [List.map_map]
      conv_rhs => rw [← List.map_id (arenaOut hm A)]
      apply List.map_congr_left
      intro b hb
      exact hblk A hA b hb
    rw [hb]
    have hna : NoAdjFree (arenaOut hm A) := (NoAdjFree_coalesce _).1
    exact (coalesce_id _ hna).1
  have hchain1 := sweepResult_chains hW1 hM1
  rw [hout] at hchain1
  have hchain := sweepResult_chains hW hM
  have hco : ∀ t, chainOf s1 t (allOut hm s.arenas) = chainOf s t (allOut hm s.arenas) :=
    fun t => chainOf_congr s s1 hmin1 t _
  obtain ⟨hother1, hlive1, hfree1, hsmall1⟩ := sweepResult_cells hW1 hM1
  rw [hout] at hother1 hlive1 hfree1 hsmall1
  constructor
  · -- the heap
    funext x
    rw [e1]
    by_cases hx : ∃ b ∈ allOut hm s.arenas, b.addr = x
    · obtain ⟨b, hb, rfl⟩ := hx
      have hbh : b.addr ∈ allHeaders s1 := by rw [hhd]; exact List.mem_map_of_mem _ hb
      by_cases hf : b.free = true
      · obtain ⟨-, hnr, -⟩ := sweepResult_free_head hW hTr hM hb hf
        have hnr1 : ¬ Reach s1 b.addr := fun h => hnr ((hreach _).1 h)
        have hc1 : hm1 b.addr = (sweepResult s hm).heap b.addr := by
          rw [hM1.2 _ hnr1, e1]
        by_cases hbig : 1 < b.size
        · obtain ⟨n1, en1⟩ := hfree b hb hf
          obtain ⟨n2, en2⟩ := hfree1 b hb hf
          obtain ⟨fl, hfl, hcls⟩ := sizeClass_some s hW.lists b.size (by omega)
          obtain ⟨g, hg, hgm⟩ := minSize_mem s (sweepResult s hm)
            (sweepResult_fields s hm).2.2.2.2.2.2.2 fl hfl
          obtain ⟨g1, hg1, hgm1⟩ := minSize_mem s (sweepResult s1 hm1)
            ((sweepResult_fields s1 hm1).2.2.2.2.2.2.2.trans hmin1) fl hfl
          have hcg := hchain g hg
          have hcg1 := hchain1 g1 hg1
          rw [hco, hgm1] at hcg1
          rw [hgm] at hcg
          have hmem := chainOf_mem_of s fl.minSize _ b hb hf hbig hcls
          have hnext := (Chain_next_eq _ _ _ _ _ hcg1 hcg).2 b.addr hmem
          rw [en1, en2] at hnext
          simp only at hnext
          rw [en2, hc1, en1, hnext]
        · rw [hsmall1 b hb hf hbig, hc1, hsmall b hb hf hbig]
      · have hf0 : b.free = false := by simpa using hf
        have hr1 : Reach s1 b.addr := by
          apply (hM1.blk hW1 hTr1 hbh).1
          rw [hflag b hb]; exact hf0
        rw [hlive1 b hb hf0, hM1.1 _ hr1, e1]
        exact unmark_mark _ (by
          have := hW1.unmarked _ hbh
          rw [e1] at this
          exact this)
    · have hx' : ∀ b ∈ allOut hm s.arenas, x ≠ b.addr := by
        intro b hb heq
        exact hx ⟨b, hb, heq.symm⟩
      have hnr1 : ¬ Reach s1 x := by
        intro hr
        have := hW1.reach_valid x hr
        rw [hhd] at this
        obtain ⟨b, hb, hbx⟩ := List.mem_map.1 this
        exact hx ⟨b, hb, hbx⟩
      rw [hother1 x hx', hM1.2 x hnr1, e1]
  · -- the free-lists
    rw [e2]
    apply lists_eq_of_fronts
      (fun t => (chainOf s t (allOut hm s.arenas)).head?.getD 0)
    · rw [(sweepResult_fields s1 hm1).2.2.2.2.2.2.2, hmin1,
        (sweepResult_fields s hm).2.2.2.2.2.2.2]
    · intro fl hfl
      have := Chain_front _ _ _ (hchain1 fl hfl)
      rw [hco] at this
      exact this
    · intro fl hfl
      exact Chain_front _ _ _ (hchain fl hfl)

/-! ## Placement on the segregated lists -/

theorem linkFirst_eq_none (obj size : Nat) :
    ∀ (L : List FreeList), (∀ fl ∈ L, size < fl.minSize) → linkFirst obj size L = none := by
  intro L
  induction L with
  | nil => intro _; rfl
  | cons g L ih =>
    intro h
    have hg := h g (List.mem_cons_self _ _)
    have : ¬ size ≥ g.minSize := by omega
    simp only [linkFirst, this, if_false]
    rw [ih (fun fl hfl => h fl (List.mem_cons_of_mem _ hfl))]

theorem getElem?_mid (l1 l2 : List FreeList) (a : FreeList) :
    (l1 ++ a :: l2)[l1.length]? = some a := by
  rw [List.getElem?_append_right (le_refl _)]
  simp

theorem getElem?_mid_other (l1 l2 : List FreeList) (a b : FreeList) (j : Nat)
    (hj : j ≠ l1.length) : (l1 ++ a :: l2)[j]? = (l1 ++ b :: l2)[j]? := by
  rcases Nat.lt_or_gt_of_ne hj with h | h
  · rw [List.getElem?_append_left h, List.getElem?_append_left h]
  · rw [List.getElem?_append_right (by omega), List.getElem?_append_right (by omega)]
    obtain ⟨k, hk⟩ : ∃ k, j - l1.length = k + 1 := ⟨j - l1.length - 1, by omega⟩
    rw [hk]
    simp

/-- What `addToFreeList` does when the thresholds increase along the array. -/
theorem addToFreeList_sorted (s : GC) (obj : Nat)
    (hs : (s.freeLists.map FreeList.minSize).Pairwise (· < ·)) :
    (∀ fl ∈ s.freeLists, freeWords (s.heap obj) < fl.minSize) ∧ addToFreeList s obj = .abort s ∨
    ∃ (i : Nat) (fl : FreeList), s.freeLists[i]? = some fl ∧
      fl.minSize ≤ freeWords (s.heap obj) ∧
      (∀ g ∈ s.freeLists, g.minSize ≤ freeWords (s.heap obj) → g.minSize ≤ fl.minSize) ∧
      ∃ s1, addToFreeList s obj = .done s1 ∧
        s1.freeLists[i]? = some { fl with front := obj } ∧
        (∀ j, j ≠ i → s1.freeLists[j]? = s.freeLists[j]?) ∧
        s1.heap obj = { s.heap obj with next := fl.front } ∧
        (∀ x, x ≠ obj → s1.heap x = s.heap x) ∧
        s1.arenas = s.arenas ∧ s1.ptrRoots = s.ptrRoots ∧ s1.objRoots = s.objRoots := by
  unfold addToFreeList
  cases hr : linkFirst obj (freeWords (s.heap obj)) s.freeLists.reverse with
  | none =>
    left
    exact ⟨fun fl hfl => linkFirst_none _ _ _ hr fl (by simpa using hfl), rfl⟩
  | some r =>
    right
    obtain ⟨nxt, L1⟩ := r
    obtain ⟨pre, fl, post, e1, e2, e3, e4, e5, -⟩ := linkFirst_some _ _ _ _ _ hr
    have hl : s.freeLists = post.reverse ++ fl :: pre.reverse := by
      have := congrArg List.reverse e1
      simpa using this
    have hl1 : L1.reverse = post.reverse ++ { fl with front := obj } :: pre.reverse := by
      rw [e2]; simp
    refine ⟨post.reverse.length, fl, ?_, e4, ?_, _, rfl, ?_, ?_, ?_, ?_, rfl, rfl, rfl⟩
    · rw [hl]; exact getElem?_mid _ _ _
    · intro g hg hle
      rw [hl, List.mem_append, List.mem_cons] at hg
      rcases hg with hg | rfl | hg
      · rw [hl, List.map_append, List.pairwise_append] at hs
        have := hs.2.2 g.minSize (List.mem_map_of_mem _ hg) fl.minSize (by simp)
        omega
      · exact le_refl _
      · have := e5 g (by simpa using hg)
        omega
    · simp only
      rw [hl1]; exact getElem?_mid _ _ _
    · intro j hj
      simp only
      rw [hl1, hl]
      exact getElem?_mid_other _ _ _ _ j hj
    · simp [setObj, e3]
    · intro x hx
      simp [setObj, hx]

/-! ## The example heap is well formed -/

theorem exGC_arena_one : arenaHeaders exHeap ⟨8, 64⟩ = [8, 16, 24, 32, 40, 48, 56, 64] := by
  decide

theorem exGC_arena_two : arenaHeaders exHeap ⟨100, 4⟩ = [100] := by
  decide

theorem exGC_allHeaders : allHeaders exGC = [8, 16, 24, 32, 40, 48, 56, 64, 100] := by
  decide

theorem exGC_reach : ∀ x, Reach exGC x → x = 8 ∨ x = 56 := by
  intro x hx
  induction hx with
  | ptr h h0 =>
    simp only [exGC, List.mem_cons, List.mem_singleton, List.not_mem_nil, or_false] at h
    rcases h with rfl | rfl
    · exact absurd rfl h0
    · exact Or.inl rfl
  | root hr hp h0 =>
    simp only [exGC, List.mem_singleton] at hr
    subst hr
    simp only [outEdges, exObj, List.mem_singleton] at hp
    exact Or.inr hp
  | edge _ hp h0 ih =>
    rcases ih with rfl | rfl
    · simp only [exGC, exHeap, outEdges, exObj, List.mem_cons, List.mem_singleton,
        List.not_mem_nil, or_false, if_true] at hp
      rcases hp with rfl | rfl
      · exact absurd rfl h0
      · exact Or.inr rfl
    · simp [exGC, exHeap, outEdges, exObj] at hp

theorem exGC_lists : ListsOk exGC := by
  refine ⟨by decide, ⟨2, 0⟩, by simp [exGC, exLists], by decide⟩

theorem exGC_wellFormed : WellFormed exGC := by
  refine ⟨exGC_lists, ?_, ?_, ?_, ?_, ?_⟩
  · intro A hA
    simp only [exGC, List.mem_cons, List.mem_singleton, List.not_mem_nil, or_false] at hA
    rcases hA with rfl | rfl <;> decide
  · simp [exGC, Arena.disjoint]
  · intro A hA
    simp only [exGC, List.mem_cons, List.mem_singleton, List.not_mem_nil, or_false] at hA
    rcases hA with rfl | rfl
    · unfold Tiled
      rw [show (exGC.heap) = exHeap from rfl, exGC_arena_one]
      simp [Tiles, objWords, objSize, isValueTag, exHeap, exObj, freeWords]
    · unfold Tiled
      rw [show (exGC.heap) = exHeap from rfl, exGC_arena_two]
      simp [Tiles, objWords, objSize, isValueTag, exHeap, exObj, freeWords]
  · intro a ha
    rw [exGC_allHeaders] at ha
    simp only [List.mem_cons, List.mem_singleton, List.not_mem_nil, or_false] at ha
    rcases ha with rfl | rfl | rfl | rfl | rfl | rfl | rfl | rfl | rfl <;> rfl
  · intro x hx
    rw [exGC_allHeaders]
    rcases exGC_reach x hx with rfl | rfl <;> simp

theorem exGC_traceable : Traceable exGC := by
  refine ⟨?_, ?_⟩
  · intro r hr
    simp only [exGC, List.mem_singleton] at hr
    subst hr
    rfl
  · intro x hx
    rcases exGC_reach x hx with rfl | rfl <;> simp [exGC, exHeap, exObj]

theorem exGC_sizes :
    ∀ a ∈ allHeaders exGC, (exGC.heap a).type ≠ .tFree → 2 ≤ objWords (exGC.heap a) := by
  intro a ha _
  rw [exGC_allHeaders] at ha
  simp only [List.mem_cons, List.mem_singleton, List.not_mem_nil, or_false] at ha
  rcases ha with rfl | rfl | rfl | rfl | rfl | rfl | rfl | rfl | rfl <;> decide

theorem exMarked_arena_one :
    arenaHeaders exMarked.heap ⟨8, 64⟩ = [8, 16, 24, 32, 40, 48, 56, 64] := by
  decide

theorem exMarked_tiled : Tiled exMarked.heap ⟨8, 64⟩ := by
  unfold Tiled
  rw [exMarked_arena_one]
  simp [Tiles, objWords, objSize, isValueTag, exMarked, exHeap, exObj, freeWords]

theorem exMarked_lists : ListsOk exMarked := by
  refine ⟨by decide, ⟨2, 0⟩, by simp [exMarked, exLists], by decide⟩

theorem exStale_reach : ∀ x, Reach exStale x → x = 64 ∨ x = 56 := by
  intro x hx
  induction hx with
  | ptr h h0 =>
    simp only [exStale, exGC, List.mem_singleton] at h
    exact Or.inl h
  | root hr hp h0 =>
    simp only [exStale, exGC, List.mem_singleton] at hr
    subst hr
    simp only [outEdges, exObj, List.mem_singleton] at hp
    exact Or.inr hp
  | edge _ hp h0 ih =>
    rcases ih with rfl | rfl <;> simp [exStale, exGC, exHeap, outEdges, exObj] at hp

/-! ## The claims -/

/-- C1. Reachability preservation.  Take a well-formed heap: segregated
    free-lists, arenas that are non-null, disjoint and tiled by objects, no
    object marked, every pointer reachable from the roots referring to the
    header of an object.  If no embedded root and no reachable object is a
    `Free` block, `gc` completes for every large enough fuel; and whenever `gc`
    completes, every object reachable from a pointer-slot root or an
    embedded-object root is still at its address with the same tag and the same
    contents (the cell is unchanged), its mark bit is clear, it is not `Free`,
    and it is still met by the walk of its arena. -/
theorem reachability_preservation (s : GC) (hW : WellFormed s) :
    (Traceable s → ∃ N, ∀ fuel, N ≤ fuel → ∃ s1, gc fuel s = .done s1) ∧
    ∀ fuel s1, gc fuel s = .done s1 → ∀ x, Reach s x →
      s1.heap x = s.heap x ∧ (s1.heap x).marked = false ∧ (s1.heap x).type ≠ .tFree ∧
        x ∈ allHeaders s1 := by
  refine ⟨gc_total s hW, ?_⟩
  intro fuel s1 hgc x hx
  obtain ⟨hP, hTr⟩ := gc_done s hW fuel s1 hgc
  obtain ⟨hm, hM, e1, -, e3, -⟩ := gcPost_state hP
  obtain ⟨hcell, hhd, -, -⟩ := sweepResult_reach hW hTr hM hx
  have hc : s1.heap x = s.heap x := by rw [e1]; exact hcell
  refine ⟨hc, ?_, ?_, ?_⟩
  · rw [hc]; exact hW.unmarked x (hW.reach_valid x hx)
  · rw [hc]; exact hTr.2 x hx
  · rw [gcPost_allHeaders e1 e3]; exact hhd

/-- The theorem of C1 on the example heap: the collection with fuel 100
    completes, and the two reachable objects (the `List2` cell at 8 and the
    `Int` at 56) are preserved. -/
theorem reachability_preservation_witness :
    WellFormed exGC ∧
    (∃ N, ∀ fuel, N ≤ fuel → ∃ s1, gc fuel exGC = .done s1) ∧
    ∃ s1, gc 100 exGC = .done s1 ∧ ∀ x, Reach exGC x →
      s1.heap x = exGC.heap x ∧ (s1.heap x).marked = false ∧ (s1.heap x).type ≠ .tFree ∧
        x ∈ allHeaders s1 :=
  ⟨exGC_wellFormed, (reachability_preservation exGC exGC_wellFormed).1 exGC_traceable,
    _, rfl, (reachability_preservation exGC exGC_wellFormed).2 100 _ rfl⟩

/-- C2. Dead reclamation.  On a well-formed heap in which every allocated
    object has at least two words, whenever `gc` completes, every allocated
    (non-`Free`) object that is not reachable from the roots lies inside a block
    `b` that is a header of the arena walk, has tag `Free`, and is linked on one
    of the segregated free-lists (`gc` completes when nothing reachable is
    `Free`). -/
theorem dead_reclamation (s : GC) (hW : WellFormed s)
    (hsize : ∀ a ∈ allHeaders s, (s.heap a).type ≠ .tFree → 2 ≤ objWords (s.heap a)) :
    (Traceable s → ∃ N, ∀ fuel, N ≤ fuel → ∃ s1, gc fuel s = .done s1) ∧
    ∀ fuel s1, gc fuel s = .done s1 →
      ∀ a ∈ allHeaders s, (s.heap a).type ≠ .tFree → ¬ Reach s a →
        ∃ fl ∈ s1.freeLists, ∃ chain b, Chain s1.heap fl.front chain ∧ b ∈ chain ∧
          b ∈ allHeaders s1 ∧ (s1.heap b).type = .tFree ∧
          b ≤ a ∧ a + objWords (s.heap a) ≤ b + freeWords (s1.heap b) := by
  refine ⟨gc_total s hW, ?_⟩
  intro fuel s1 hgc a ha hnf hnr
  obtain ⟨hP, hTr⟩ := gc_done s hW fuel s1 hgc
  obtain ⟨hm, hM, e1, e2, e3, -⟩ := gcPost_state hP
  obtain ⟨A, hA, haA⟩ := (mem_allHeaders s a).1 ha
  obtain ⟨hhdr, hT⟩ := hM.headers hW hA
  have hfree0 : (blkOf hm a).free = true := by
    by_contra hne
    exact hnr ((hM.blk hW hTr ha).1 (by simpa using hne))
  have hmem0 : blkOf hm a ∈ blocks hm (arenaHeaders hm A) := by
    rw [hhdr]; exact List.mem_map_of_mem _ haA
  obtain ⟨d, hd, hdf, hd1, hd2⟩ := coalesce_cover _ _ _ none (Tiles_blocks _ _ _ _ hT)
    (fun c hc => by simp at hc) _ hmem0 hfree0
  have hsz : (blkOf hm a).size = objWords (s.heap a) := (hM.same a).1
  have haddr : (blkOf hm a).addr = a := rfl
  rw [hsz, haddr] at hd2
  rw [haddr] at hd1
  have h2 := hsize a ha hnf
  have hdall : d ∈ allOut hm s.arenas := (allOut_mem _ _ _).2 ⟨A, hA, hd⟩
  obtain ⟨fl0, hfl0, hcls⟩ := sizeClass_some s hW.lists d.size (by omega)
  obtain ⟨g, hg, hgm⟩ := minSize_mem s (sweepResult s hm)
    (sweepResult_fields s hm).2.2.2.2.2.2.2 fl0 hfl0
  obtain ⟨nxt, hcell⟩ := (sweepResult_cells hW hM).2.2.1 d hdall hdf
  refine ⟨g, by rw [e2]; exact hg, chainOf s g.minSize (allOut hm s.arenas), d.addr, ?_, ?_, ?_,
    ?_, hd1, ?_⟩
  · rw [e1]; exact sweepResult_chains hW hM g hg
  · rw [hgm]; exact chainOf_mem_of s _ _ d hdall hdf (by omega) hcls
  · rw [gcPost_allHeaders e1 e3, sweepResult_allHeaders hW hM]
    exact List.mem_map_of_mem _ hdall
  · rw [e1, hcell]
  · rw [e1, hcell]
    simp only [freeWords]
    omega

/-- The theorem of C2 on the example heap: the collection with fuel 100
    completes, and each of the five dead objects lies in a linked free block. -/
theorem dead_reclamation_witness :
    WellFormed exGC ∧
    (∀ a ∈ allHeaders exGC, (exGC.heap a).type ≠ .tFree → 2 ≤ objWords (exGC.heap a)) ∧
    (∃ N, ∀ fuel, N ≤ fuel → ∃ s1, gc fuel exGC = .done s1) ∧
    ∃ s1, gc 100 exGC = .done s1 ∧
      ∀ a ∈ allHeaders exGC, (exGC.heap a).type ≠ .tFree → ¬ Reach exGC a →
        ∃ fl ∈ s1.freeLists, ∃ chain b, Chain s1.heap fl.front chain ∧ b ∈ chain ∧
          b ∈ allHeaders s1 ∧ (s1.heap b).type = .tFree ∧
          b ≤ a ∧ a + objWords (exGC.heap a) ≤ b + freeWords (s1.heap b) :=
  ⟨exGC_wellFormed, exGC_sizes,
    (dead_reclamation exGC exGC_wellFormed exGC_sizes).1 exGC_traceable,
    _, rfl, (dead_reclamation exGC exGC_wellFormed exGC_sizes).2 100 _ rfl⟩

/-- C3. No adjacent free blocks.  For an arena that is tiled by objects before
    the sweep (free-lists that can take every block of two words or more),
    `freeUnmarked` returns when the fuel covers the arena, and whenever it
    returns, the walk of the arena from its start in steps of the size of each
    header never meets two consecutive headers that both have tag `Free`. -/
theorem no_adjacent_free_after_sweep (fuel : Nat) (s : GC) (A : Arena)
    (hT : Tiled s.heap A) (hpos : 0 < A.start) (hL : ListsOk s) :
    (A.size ≤ fuel → ∃ res, freeUnmarked fuel s A = .done res) ∧
    ∀ s1 nf wf, freeUnmarked fuel s A = .done (s1, nf, wf) →
      ∀ l1 a b l2, arenaHeaders s1.heap A = l1 ++ a :: b :: l2 →
        ¬ ((s1.heap a).type = .tFree ∧ (s1.heap b).type = .tFree) := by
  constructor
  · intro hf
    obtain ⟨nf, wf, e⟩ := freeUnmarked_total fuel s A hT hpos hL hf
    exact ⟨_, e⟩
  · intro s1 nf wf hdone l1 a b l2 hwalk
    have e := freeUnmarked_done fuel s A hT hpos hL s1 nf wf hdone
    subst e
    obtain ⟨hlive, hfree⟩ := freeUnmarked_post s A hT
    rw [(arena_post s _ A hT hlive hfree).2] at hwalk
    obtain ⟨o1, x, y, o2, hout, rfl, rfl⟩ := map_addr_split _ _ _ _ _ hwalk
    have hcells := out_cells s.heap (applyBlks s (arenaOut s.heap A)).heap A _
      (fun c hc => hc) hlive hfree
    have hx : x ∈ arenaOut s.heap A := by rw [hout]; simp
    have hy : y ∈ arenaOut s.heap A := by rw [hout]; simp
    have hna : NoAdjFree (arenaOut s.heap A) := (NoAdjFree_coalesce _).1
    rw [hout] at hna
    intro hboth
    exact NoAdjFree_split o1 x y o2 hna
      ⟨(hcells x hx).2.1.1 hboth.1, (hcells y hy).2.1.1 hboth.2⟩

/-- The theorem of C3 on the first arena of the example heap, after marking:
    the sweep with fuel 64 returns, and the walk has no two `Free` neighbours. -/
theorem no_adjacent_free_after_sweep_witness :
    Tiled exMarked.heap ⟨8, 64⟩ ∧ ListsOk exMarked ∧
    ∃ s1 nf wf, freeUnmarked 64 exMarked ⟨8, 64⟩ = .done (s1, nf, wf) ∧
      ∀ l1 a b l2, arenaHeaders s1.heap ⟨8, 64⟩ = l1 ++ a :: b :: l2 →
        ¬ ((s1.heap a).type = .tFree ∧ (s1.heap b).type = .tFree) :=
  ⟨exMarked_tiled, exMarked_lists, _, _, _, rfl,
    (no_adjacent_free_after_sweep 64 exMarked ⟨8, 64⟩ exMarked_tiled (by decide)
      exMarked_lists).2 _ _ _ rfl⟩

/-- C4. Tiling is preserved by the sweep.  For an arena whose headers, stepped
    by size from the arena start, land exactly on its end, `freeUnmarked`
    returns when the fuel covers the arena and never aborts (so the assertion
    `pos == end` holds); whenever it returns, the headers stepped by size from
    the arena start again land exactly on the arena end, and their sizes sum to
    the size of the arena. -/
theorem tiling_preserved_by_sweep (fuel : Nat) (s : GC) (A : Arena)
    (hT : Tiled s.heap A) (hpos : 0 < A.start) (hL : ListsOk s) :
    (A.size ≤ fuel → ∃ res, freeUnmarked fuel s A = .done res) ∧
    (∀ s1, freeUnmarked fuel s A ≠ .abort s1) ∧
    ∀ s1 nf wf, freeUnmarked fuel s A = .done (s1, nf, wf) →
      Tiled s1.heap A ∧
      ((arenaHeaders s1.heap A).map fun a => objWords (s1.heap a)).sum = A.size := by
  refine ⟨?_, ?_, ?_⟩
  · intro hf
    obtain ⟨nf, wf, e⟩ := freeUnmarked_total fuel s A hT hpos hL hf
    exact ⟨_, e⟩
  · intro s1 h
    rcases freeUnmarked_outcome fuel s A hT hpos hL with e | ⟨nf, wf, e⟩ <;>
      rw [e] at h <;> simp at h
  · intro s1 nf wf hdone
    have e := freeUnmarked_done fuel s A hT hpos hL s1 nf wf hdone
    subst e
    obtain ⟨hlive, hfree⟩ := freeUnmarked_post s A hT
    have hT1 := (arena_post s _ A hT hlive hfree).1
    refine ⟨hT1, ?_⟩
    have := Tiles_sum _ _ _ _ hT1
    omega

/-- The theorem of C4 on the first arena of the example heap, after marking:
    the sweep with fuel 64 returns and the arena is tiled again. -/
theorem tiling_preserved_by_sweep_witness :
    Tiled exMarked.heap ⟨8, 64⟩ ∧ ListsOk exMarked ∧
    (∀ s1, freeUnmarked 64 exMarked ⟨8, 64⟩ ≠ .abort s1) ∧
    ∃ s1 nf wf, freeUnmarked 64 exMarked ⟨8, 64⟩ = .done (s1, nf, wf) ∧
      Tiled s1.heap ⟨8, 64⟩ ∧
      ((arenaHeaders s1.heap ⟨8, 64⟩).map fun a => objWords (s1.heap a)).sum = 64 :=
  ⟨exMarked_tiled, exMarked_lists,
    (tiling_preserved_by_sweep 64 exMarked ⟨8, 64⟩ exMarked_tiled (by decide)
      exMarked_lists).2.1,
    _, _, _, rfl,
    (tiling_preserved_by_sweep 64 exMarked ⟨8, 64⟩ exMarked_tiled (by decide)
      exMarked_lists).2.2 _ _ _ rfl⟩

/-- C5. Free-list soundness after a collection.  On a well-formed heap,
    whenever `gc` completes there is for each threshold `t` a list `chains t`
    without repetition such that: the blocks linked from the front of every
    segregated list through the `next` fields are exactly `chains` of its
    threshold; every block on the list with threshold `t` is a `Free` header of
    the arena walk with size at least `t` (and at least 2); and every `Free`
    header of size at least 2 met by walking any arena is on exactly one
    list. -/
theorem free_list_soundness (s : GC) (hW : WellFormed s) :
    (Traceable s → ∃ N, ∀ fuel, N ≤ fuel → ∃ s1, gc fuel s = .done s1) ∧
    ∀ fuel s1, gc fuel s = .done s1 →
      ∃ chains : Nat → List Nat,
        (∀ fl ∈ s1.freeLists, Chain s1.heap fl.front (chains fl.minSize)) ∧
        (∀ t, (chains t).Nodup) ∧
        (∀ t, ∀ a ∈ chains t, t ≤ freeWords (s1.heap a) ∧ 2 ≤ freeWords (s1.heap a) ∧
          (s1.heap a).type = .tFree ∧ a ∈ allHeaders s1) ∧
        (∀ a ∈ allHeaders s1, (s1.heap a).type = .tFree → 2 ≤ freeWords (s1.heap a) →
          ∃ fl ∈ s1.freeLists, a ∈ chains fl.minSize ∧
            ∀ g ∈ s1.freeLists, a ∈ chains g.minSize → g = fl) := by
  refine ⟨gc_total s hW, ?_⟩
  intro fuel s1 hgc
  obtain ⟨hP, hTr⟩ := gc_done s hW fuel s1 hgc
  obtain ⟨hm, hM, e1, e2, e3, -⟩ := gcPost_state hP
  obtain ⟨hnd, -⟩ := allOut_nodup hW hM
  obtain ⟨-, hlive, hfree, -⟩ := sweepResult_cells hW hM
  have hhd : allHeaders s1 = (allOut hm s.arenas).map Blk.addr := by
    rw [gcPost_allHeaders e1 e3, sweepResult_allHeaders hW hM]
  have hmin := (sweepResult_fields s hm).2.2.2.2.2.2.2
  refine ⟨fun t => chainOf s t (allOut hm s.arenas), ?_, ?_, ?_, ?_⟩
  · intro fl hfl
    rw [e1]
    exact sweepResult_chains hW hM fl (by rw [← e2]; exact hfl)
  · intro t
    exact chainOf_nodup s t _ hnd
  · intro t a ha
    obtain ⟨b, hb, rfl, hf, h1, hc⟩ := chainOf_mem s t _ a ha
    obtain ⟨nxt, hcell⟩ := hfree b hb hf
    have hle := sizeClass_le s _ _ hc
    rw [e1, hcell, hhd]
    exact ⟨hle, h1, rfl, List.mem_map_of_mem _ hb⟩
  · intro a ha hty h2
    rw [hhd] at ha
    obtain ⟨b, hb, rfl⟩ := List.mem_map.1 ha
    have hf : b.free = true := by
      by_contra hne
      have hf0 : b.free = false := by simpa using hne
      obtain ⟨A, hA, hbA⟩ := (allOut_mem _ _ _).1 hb
      obtain ⟨-, -, hnf, -⟩ := arenaOut_live hm A b hbA hf0
      rw [e1, hlive b hb hf0] at hty
      exact hnf hty
    obtain ⟨nxt, hcell⟩ := hfree b hb hf
    rw [e1, hcell] at h2
    simp only [freeWords] at h2
    obtain ⟨fl0, hfl0, hcls⟩ := sizeClass_some s hW.lists b.size h2
    obtain ⟨g, hg, hgm⟩ := minSize_mem s (sweepResult s hm) hmin fl0 hfl0
    have hndm : (s1.freeLists.map FreeList.minSize).Nodup := by
      rw [e2, hmin]; exact hW.lists.1
    refine ⟨g, by rw [e2]; exact hg, ?_, ?_⟩
    · rw [hgm]
      exact chainOf_mem_of s _ _ b hb hf (by omega) hcls
    · intro g1 hg1 hmem
      obtain ⟨b1, hb1, hba, -, -, hc1⟩ := chainOf_mem s _ _ _ hmem
      have hbb : b1 = b := List.inj_on_of_nodup_map hnd hb1 hb hba
      rw [hbb, hcls] at hc1
      have : g1.minSize = g.minSize := by
        rw [hgm]; exact (Option.some.inj hc1).symm
      exact List.inj_on_of_nodup_map hndm hg1 (by rw [e2]; exact hg) this

/-- The theorem of C5 on the example heap: the collection with fuel 100
    completes and leaves sound free-lists. -/
theorem free_list_soundness_witness :
    WellFormed exGC ∧
    (∃ N, ∀ fuel, N ≤ fuel → ∃ s1, gc fuel exGC = .done s1) ∧
    ∃ s1, gc 100 exGC = .done s1 ∧
      ∃ chains : Nat → List Nat,
        (∀ fl ∈ s1.freeLists, Chain s1.heap fl.front (chains fl.minSize)) ∧
        (∀ t, (chains t).Nodup) ∧
        (∀ t, ∀ a ∈ chains t, t ≤ freeWords (s1.heap a) ∧ 2 ≤ freeWords (s1.heap a) ∧
          (s1.heap a).type = .tFree ∧ a ∈ allHeaders s1) ∧
        (∀ a ∈ allHeaders s1, (s1.heap a).type = .tFree → 2 ≤ freeWords (s1.heap a) →
          ∃ fl ∈ s1.freeLists, a ∈ chains fl.minSize ∧
            ∀ g ∈ s1.freeLists, a ∈ chains g.minSize → g = fl) :=
  ⟨exGC_wellFormed, (free_list_soundness exGC exGC_wellFormed).1 exGC_traceable,
    _, rfl, (free_list_soundness exGC exGC_wellFormed).2 100 _ rfl⟩

/-- C6. Mark discipline.  On a well-formed heap, whenever `gc` completes no
    object has its mark bit set: neither a header met by the walk of an arena
    after the collection, nor a header that was met by the walk before it; the
    embedded root objects, which the mark phase traces without marking, are
    untouched. -/
theorem mark_discipline (s : GC) (hW : WellFormed s) :
    (Traceable s → ∃ N, ∀ fuel, N ≤ fuel → ∃ s1, gc fuel s = .done s1) ∧
    ∀ fuel s1, gc fuel s = .done s1 →
      (∀ a ∈ allHeaders s1, (s1.heap a).marked = false) ∧
      (∀ a ∈ allHeaders s, (s1.heap a).marked = false) ∧
      s1.objRoots = s.objRoots := by
  refine ⟨gc_total s hW, ?_⟩
  intro fuel s1 hgc
  obtain ⟨hP, hTr⟩ := gc_done s hW fuel s1 hgc
  obtain ⟨hm, hM, e1, -, e3, -, e5, -⟩ := gcPost_state hP
  have hfirst : ∀ a ∈ allHeaders s1, (s1.heap a).marked = false := by
    intro a ha
    rw [gcPost_allHeaders e1 e3] at ha
    rw [e1]
    exact sweepResult_unmarked hW hTr hM a ha
  refine ⟨hfirst, ?_, e5⟩
  intro a ha
  by_cases hx : ∃ b ∈ allOut hm s.arenas, b.addr = a
  · apply hfirst
    rw [gcPost_allHeaders e1 e3, sweepResult_allHeaders hW hM]
    obtain ⟨b, hb, rfl⟩ := hx
    exact List.mem_map_of_mem _ hb
  · have hnr : ¬ Reach s a := by
      intro hr
      obtain ⟨-, -, hmem, -⟩ := sweepResult_reach hW hTr hM hr
      exact hx ⟨_, hmem, rfl⟩
    rw [e1, (sweepResult_cells hW hM).1 a (fun b hb heq => hx ⟨b, hb, heq.symm⟩), hM.2 a hnr]
    exact hW.unmarked a ha

/-- The theorem of C6 on the example heap: the collection with fuel 100
    completes and leaves no header marked. -/
theorem mark_discipline_witness :
    WellFormed exGC ∧
    (∃ N, ∀ fuel, N ≤ fuel → ∃ s1, gc fuel exGC = .done s1) ∧
    ∃ s1, gc 100 exGC = .done s1 ∧
      (∀ a ∈ allHeaders s1, (s1.heap a).marked = false) ∧
      (∀ a ∈ allHeaders exGC, (s1.heap a).marked = false) ∧
      s1.objRoots = exGC.objRoots :=
  ⟨exGC_wellFormed, (mark_discipline exGC exGC_wellFormed).1 exGC_traceable,
    _, rfl, (mark_discipline exGC exGC_wellFormed).2 100 _ rfl⟩

/-- C7. Collection is idempotent.  On a well-formed heap on which nothing
    reachable is `Free`, a first and then a second run of `gc` complete for all
    large enough fuels; and whenever two runs in succession complete, the state
    after the second run equals the state after the first in the whole heap
    (headers, contents, free blocks and their `next` links), in the free-lists
    (contents and order), and in every other field except the counter
    `allTimeWordsFreed`. -/
theorem collection_idempotent (s : GC) (hW : WellFormed s) :
    (Traceable s → ∃ N, ∀ fuel, N ≤ fuel → ∃ s1, gc fuel s = .done s1 ∧
      ∃ N2, ∀ fuel2, N2 ≤ fuel2 → ∃ s2, gc fuel2 s1 = .done s2) ∧
    ∀ fuel s1 fuel2 s2, gc fuel s = .done s1 → gc fuel2 s1 = .done s2 →
      s2.heap = s1.heap ∧ s2.freeLists = s1.freeLists ∧ s2.arenas = s1.arenas ∧
      s2.ptrRoots = s1.ptrRoots ∧ s2.objRoots = s1.objRoots ∧
      s2.totalSize = s1.totalSize ∧ s2.nextSize = s1.nextSize ∧
      s2.validate = s1.validate := by
  constructor
  · intro hTr
    obtain ⟨N, hN⟩ := gc_total s hW hTr
    refine ⟨N, fun fuel hf => ?_⟩
    obtain ⟨s1, h1⟩ := hN fuel hf
    obtain ⟨hP, -⟩ := gc_done s hW fuel s1 h1
    obtain ⟨hW1, hTr1⟩ := gcPost_wellFormed hW hTr hP
    exact ⟨s1, h1, gc_total s1 hW1 hTr1⟩
  · intro fuel s1 fuel2 s2 h1 h2
    obtain ⟨hP, hTr⟩ := gc_done s hW fuel s1 h1
    obtain ⟨hW1, hTr1⟩ := gcPost_wellFormed hW hTr hP
    obtain ⟨hP2, -⟩ := gc_done s1 hW1 fuel2 s2 h2
    obtain ⟨hm1, hM1, e1, e2, e3, e4, e5, e6, e7, e8⟩ := gcPost_state hP2
    obtain ⟨hheap, hlists⟩ := second_sweep hW hTr hP hm1 hM1
    exact ⟨e1.trans hheap, e2.trans hlists, e3, e4, e5, e7, e8, e6⟩

/-- The theorem of C7 on the example heap: two collections in succession with
    fuel 100 complete, and the second changes nothing but the counter. -/
theorem collection_idempotent_witness :
    WellFormed exGC ∧
    (∃ N, ∀ fuel, N ≤ fuel → ∃ s1, gc fuel exGC = .done s1 ∧
      ∃ N2, ∀ fuel2, N2 ≤ fuel2 → ∃ s2, gc fuel2 s1 = .done s2) ∧
    ∃ s1 s2, gc 100 exGC = .done s1 ∧ gc 100 s1 = .done s2 ∧
      s2.heap = s1.heap ∧ s2.freeLists = s1.freeLists ∧ s2.arenas = s1.arenas ∧
      s2.ptrRoots = s1.ptrRoots ∧ s2.objRoots = s1.objRoots ∧
      s2.totalSize = s1.totalSize ∧ s2.nextSize = s1.nextSize ∧
      s2.validate = s1.validate :=
  ⟨exGC_wellFormed, (collection_idempotent exGC exGC_wellFormed).1 exGC_traceable,
    _, _, rfl, rfl, (collection_idempotent exGC exGC_wellFormed).2 100 _ 100 _ rfl rfl⟩

/-- C8. Free-list placement.  With the thresholds 2, 3, 4, 8, 16, 32, 64, 128,
    `addToFreeList` aborts on a block of fewer than 2 words; on a block of
    `n >= 2` words it returns, the block becomes the front of the list whose
    threshold is the largest one not above `n`, its `next` field is the previous
    front of that list, and the seven other lists, every other cell of the heap
    and the other fields of the block are unchanged. -/
theorem free_list_placement (s : GC) (obj : Nat)
    (hth : s.freeLists.map FreeList.minSize = [2, 3, 4, 8, 16, 32, 64, 128]) :
    (freeWords (s.heap obj) < 2 → addToFreeList s obj = .abort s) ∧
    (2 ≤ freeWords (s.heap obj) →
      ∃ (i : Nat) (fl : FreeList), s.freeLists[i]? = some fl ∧
        fl.minSize ≤ freeWords (s.heap obj) ∧
        (∀ g ∈ s.freeLists, g.minSize ≤ freeWords (s.heap obj) → g.minSize ≤ fl.minSize) ∧
        ∃ s1, addToFreeList s obj = .done s1 ∧
          s1.freeLists[i]? = some { fl with front := obj } ∧
          (∀ j, j ≠ i → s1.freeLists[j]? = s.freeLists[j]?) ∧
          s1.heap obj = { s.heap obj with next := fl.front } ∧
          (∀ x, x ≠ obj → s1.heap x = s.heap x)) := by
  have hs : (s.freeLists.map FreeList.minSize).Pairwise (· < ·) := by
    rw [hth]; decide
  have hge : ∀ fl ∈ s.freeLists, 2 ≤ fl.minSize := by
    intro fl hfl
    have := List.mem_map_of_mem FreeList.minSize hfl
    rw [hth] at this
    simp only [List.mem_cons, List.mem_singleton, List.not_mem_nil, or_false] at this
    omega
  have htwo : ∃ fl ∈ s.freeLists, fl.minSize = 2 := by
    have : 2 ∈ s.freeLists.map FreeList.minSize := by rw [hth]; simp
    obtain ⟨fl, hfl, e⟩ := List.mem_map.1 this
    exact ⟨fl, hfl, e⟩
  rcases addToFreeList_sorted s obj hs with ⟨hall, hab⟩ |
    ⟨i, fl, h1, h2, h3, s1, h4, h5, h6, h7, h8, -⟩
  · refine ⟨fun _ => hab, fun h2 => ?_⟩
    obtain ⟨fl, hfl, e⟩ := htwo
    have := hall fl hfl
    omega
  · refine ⟨fun hlt => ?_, fun _ => ⟨i, fl, h1, h2, h3, s1, h4, h5, h6, h7, h8⟩⟩
    have hmem : fl ∈ s.freeLists := List.getElem?_mem h1
    have := hge fl hmem
    omega

/-- The theorem of C8 on the example state and its free block of 8 words at
    64: the block goes to the list with threshold 8 (index 3). -/
theorem free_list_placement_witness :
    exGC.freeLists.map FreeList.minSize = [2, 3, 4, 8, 16, 32, 64, 128] ∧
    freeWords (exGC.heap 64) = 8 ∧
    ∃ (i : Nat) (fl : FreeList), exGC.freeLists[i]? = some fl ∧
      fl.minSize ≤ freeWords (exGC.heap 64) ∧
      (∀ g ∈ exGC.freeLists, g.minSize ≤ freeWords (exGC.heap 64) →
        g.minSize ≤ fl.minSize) ∧
      ∃ s1, addToFreeList exGC 64 = .done s1 ∧
        s1.freeLists[i]? = some { fl with front := 64 } ∧
        (∀ j, j ≠ i → s1.freeLists[j]? = exGC.freeLists[j]?) ∧
        s1.heap 64 = { exGC.heap 64 with next := fl.front } ∧
        (∀ x, x ≠ 64 → s1.heap x = exGC.heap x) :=
  ⟨by decide, by decide, (free_list_placement exGC 64 (by decide)).2 (by decide)⟩

/-- C9. Coalescing of dead runs.  Let the arena be tiled, the free-lists be
    chains of blocks outside the arena, and let the headers of the arena split
    as `pre ++ (r :: rest) ++ post` where every object of `r :: rest` is `Free`
    or unmarked, `pre` is empty or ends in a marked allocated object and `post`
    is empty or starts with one (a maximal run).  Then `freeUnmarked` returns
    when the fuel covers the arena, and whenever it returns the run has become
    exactly one block: `r` is a `Free` header of the walk whose size is the sum
    of the sizes of the objects of the run, no other header of the run is met
    by the walk any more, and when that sum is at least 2 the block is on the
    free-list that `addToFreeList` picks for the summed size. -/
theorem coalescing_of_dead_runs (fuel : Nat) (s : GC) (A : Arena)
    (hT : Tiled s.heap A) (hpos : 0 < A.start) (hL : ListsOk s)
    (init : Nat → List Nat)
    (hinit : ∀ fl ∈ s.freeLists, Chain s.heap fl.front (init fl.minSize))
    (hout : ∀ t, ∀ a ∈ init t, ¬ (A.start ≤ a ∧ a < A.start + A.size))
    (pre rest post : List Nat) (r : Nat)
    (hdec : arenaHeaders s.heap A = pre ++ (r :: rest) ++ post)
    (hrun : ∀ a ∈ r :: rest, (s.heap a).type = .tFree ∨ (s.heap a).marked = false)
    (hpre : ∀ a, pre.getLast? = some a → (s.heap a).type ≠ .tFree ∧ (s.heap a).marked = true)
    (hpost : ∀ a, post.head? = some a → (s.heap a).type ≠ .tFree ∧ (s.heap a).marked = true) :
    (A.size ≤ fuel → ∃ res, freeUnmarked fuel s A = .done res) ∧
    ∀ s1 nf wf, freeUnmarked fuel s A = .done (s1, nf, wf) →
      (s1.heap r).type = .tFree ∧
      freeWords (s1.heap r) = ((r :: rest).map fun a => objWords (s.heap a)).sum ∧
      r ∈ arenaHeaders s1.heap A ∧ (∀ a ∈ rest, a ∉ arenaHeaders s1.heap A) ∧
      (2 ≤ ((r :: rest).map fun a => objWords (s.heap a)).sum →
        ∃ fl ∈ s1.freeLists,
          sizeClass s ((r :: rest).map fun a => objWords (s.heap a)).sum = some fl.minSize ∧
          ∃ chain, Chain s1.heap fl.front chain ∧ r ∈ chain) := by
  constructor
  · intro hf
    obtain ⟨nf, wf, e⟩ := freeUnmarked_total fuel s A hT hpos hL hf
    exact ⟨_, e⟩
  · intro s1 nf wf hdone
    have e := freeUnmarked_done fuel s A hT hpos hL s1 nf wf hdone
    subst e
    obtain ⟨hlive, hfree⟩ := freeUnmarked_post s A hT
    have hhd := (arena_post s _ A hT hlive hfree).2
    generalize hn : ((r :: rest).map fun a => objWords (s.heap a)).sum = n
    have hsplit : arenaOut s.heap A =
        coalesce none (blocks s.heap pre) ++ ⟨r, n, true⟩ :: coalesce none (blocks s.heap post) := by
      unfold arenaOut
      rw [hdec, dead_run_out s.heap pre rest post r hrun hpre hpost, hn]
    have hd : (⟨r, n, true⟩ : Blk) ∈ arenaOut s.heap A := by rw [hsplit]; simp
    obtain ⟨nxt, hcell⟩ := hfree _ hd rfl
    simp only at hcell
    have hnd : (pre ++ (r :: rest) ++ post).Nodup := by
      rw [← hdec]; exact Tiles_nodup _ _ _ _ hT
    refine ⟨by rw [hcell], by rw [hcell]; rfl, ?_, ?_, ?_⟩
    · rw [hhd]
      exact List.mem_map.2 ⟨_, hd, rfl⟩
    · intro a ha hmem
      rw [hhd, hsplit, List.map_append, List.map_cons, List.mem_append, List.mem_cons] at hmem
      rw [List.append_assoc, List.nodup_append] at hnd
      obtain ⟨-, hnd2, hdis1⟩ := hnd
      rw [List.cons_append, List.nodup_cons, List.nodup_append] at hnd2
      obtain ⟨hr1, -, -, hdis2⟩ := hnd2
      rcases hmem with h | h | h
      · obtain ⟨b, hb, rfl⟩ := List.mem_map.1 h
        have := coalesce_none_addr _ b hb
        rw [blocks_addr] at this
        exact hdis1 this (by simp [ha])
      · simp only at h
        subst h
        exact hr1 (by simp [ha])
      · obtain ⟨b, hb, rfl⟩ := List.mem_map.1 h
        have := coalesce_none_addr _ b hb
        rw [blocks_addr] at this
        exact hdis2 ha this
    · intro h2
      obtain ⟨fl0, hfl0, hcls⟩ := sizeClass_some s hL n h2
      obtain ⟨g, hg, hgm⟩ := minSize_mem s (applyBlks s (arenaOut s.heap A))
        (applyBlks_fields _ s).2.2.2.2.2.2.2 fl0 hfl0
      have hC := arenaOut_contig s.heap A hT
      have hchain := applyBlks_chains s hL init hinit (arenaOut s.heap A)
        (Contig_nodup _ _ _ hC)
        (fun b hb => by have := arenaOut_range s.heap A hT b hb; omega)
        (fun t a ha b hb heq => hout t a ha (heq ▸ arenaOut_range s.heap A hT b hb)) g hg
      refine ⟨g, hg, by rw [hgm]; exact hcls, _, hchain, ?_⟩
      rw [hgm]
      exact List.mem_append_left _
        (chainOf_mem_of s _ _ ⟨r, n, true⟩ hd rfl (show 1 < n by omega) hcls)

/-- The theorem of C9 on the first arena of the example heap, after marking:
    the sweep with fuel 64 returns, and the five dead objects of 8 words at 16,
    24, 32, 40 and 48 have become one free block of 40 words at 16, on the list
    with threshold 32. -/
theorem coalescing_of_dead_runs_witness :
    sizeClass exMarked 40 = some 32 ∧
    ∃ s1 nf wf, freeUnmarked 64 exMarked ⟨8, 64⟩ = .done (s1, nf, wf) ∧
      (s1.heap 16).type = .tFree ∧ freeWords (s1.heap 16) = 40 ∧
      16 ∈ arenaHeaders s1.heap ⟨8, 64⟩ ∧
      (∀ a ∈ [24, 32, 40, 48], a ∉ arenaHeaders s1.heap ⟨8, 64⟩) ∧
      (2 ≤ 40 →
        ∃ fl ∈ s1.freeLists, sizeClass exMarked 40 = some fl.minSize ∧
          ∃ chain, Chain s1.heap fl.front chain ∧ 16 ∈ chain) :=
  ⟨by decide, _, _, _, rfl,
    (coalescing_of_dead_runs 64 exMarked ⟨8, 64⟩ exMarked_tiled (by decide) exMarked_lists
      (fun _ => [])
      (by
        intro fl hfl
        simp only [exMarked, exLists, List.map_cons, List.map_nil, List.mem_cons,
          List.mem_singleton, List.not_mem_nil, or_false] at hfl
        rcases hfl with rfl | rfl | rfl | rfl | rfl | rfl | rfl | rfl <;> rfl)
      (fun t a ha => by simp at ha)
      [8] [24, 32, 40, 48] [56, 64] 16 exMarked_arena_one
      (by
        intro a ha
        simp only [List.mem_cons, List.mem_singleton, List.not_mem_nil, or_false] at ha
        rcases ha with rfl | rfl | rfl | rfl | rfl <;> exact Or.inr rfl)
      (by
        intro a ha
        simp only [List.getLast?_singleton, Option.some.injEq] at ha
        subst ha
        exact ⟨by decide, rfl⟩)
      (by
        intro a ha
        simp only [List.head?_cons, Option.some.injEq] at ha
        subst ha
        exact ⟨by decide, rfl⟩)).2 _ _ _ rfl⟩

/-- C10. Reaching a `Free` object during marking is fatal.  Let no reachable
    object be marked and let the reachable addresses be bounded.  If an
    embedded root is itself a `Free` header, or a `Free` header is reachable
    (it is the referent of a non-null pointer slot, or an out-edge of an
    embedded root or of a traced object), then `gc` never completes, and for
    every large enough fuel it aborts in a state whose free-lists and arenas
    are those of the start and whose heap differs from the start only in mark
    bits: the abort comes before any free-list is reset and before any arena is
    swept. -/
theorem free_reached_is_fatal (s : GC) (bound : Nat)
    (hfin : ∀ x, Reach s x → x < bound)
    (h0 : ∀ x, Reach s x → (s.heap x).marked = false)
    (hfree : (∃ r ∈ s.objRoots, r.type = .tFree) ∨
      ∃ x, Reach s x ∧ (s.heap x).type = .tFree) :
    (∃ N, ∀ fuel, N ≤ fuel → ∃ s1, gc fuel s = .abort s1 ∧
      s1.freeLists = s.freeLists ∧ s1.arenas = s.arenas ∧
      ∀ x, s1.heap x = s.heap x ∨ s1.heap x = { s.heap x with marked := true }) ∧
    ∀ fuel s1, gc fuel s ≠ .done s1 := by
  have hnd : ∀ fuel sm m, markPhase fuel s ≠ .done (sm, m) := by
    intro fuel sm m h
    obtain ⟨-, hre, -, hroots⟩ := markPhase_done s h0 fuel sm m h
    rcases hfree with ⟨r, hr, ht⟩ | ⟨x, hx, ht⟩
    · have := hroots r hr
      rw [ht] at this
      simp [traceable] at this
    · have := (hre x hx).2
      rw [ht] at this
      simp [traceable] at this
  constructor
  · refine ⟨markBound (List.range bound) s, ?_⟩
    intro fuel hf
    have hnt := (markPhase_total s (List.range bound)
      (fun x hx => List.mem_range.2 (hfin x hx)) h0 fuel hf).1
    cases hmp : markPhase fuel s with
    | timeout => exact absurd hmp hnt
    | done res => exact absurd hmp (hnd fuel res.1 res.2)
    | abort s1 =>
      obtain ⟨hfields, hcells⟩ := markPhase_abort s h0 fuel s1 hmp
      obtain ⟨ha, -, hl, -⟩ := withHeap_fields s s1 hfields
      exact ⟨s1, by simp [gc, hmp], hl, ha, hcells⟩
  · intro fuel s1 h
    unfold gc at h
    cases hmp : markPhase fuel s with
    | timeout => simp [hmp] at h
    | done res => exact absurd hmp (hnd fuel res.1 res.2)
    | abort s2 => simp [hmp] at h

/-- The theorem of C10 on the example state whose only slot holds a stale
    pointer to the free block at 64: the collection with fuel 100 aborts. -/
theorem free_reached_is_fatal_witness :
    (∀ x, Reach exStale x → x < 100) ∧
    (∀ x, Reach exStale x → (exStale.heap x).marked = false) ∧
    (∃ x, Reach exStale x ∧ (exStale.heap x).type = .tFree) ∧
    (∃ s1, gc 100 exStale = .abort s1) ∧
    ((∃ N, ∀ fuel, N ≤ fuel → ∃ s1, gc fuel exStale = .abort s1 ∧
      s1.freeLists = exStale.freeLists ∧ s1.arenas = exStale.arenas ∧
      ∀ x, s1.heap x = exStale.heap x ∨
        s1.heap x = { exStale.heap x with marked := true }) ∧
    ∀ fuel s1, gc fuel exStale ≠ .done s1) :=
  ⟨fun x hx => by rcases exStale_reach x hx with rfl | rfl <;> decide,
    fun x hx => by rcases exStale_reach x hx with rfl | rfl <;> rfl,
    ⟨64, Reach.ptr (by simp [exStale]) (by decide), rfl⟩,
    ⟨_, rfl⟩,
    free_reached_is_fatal exStale 100
      (fun x hx => by rcases exStale_reach x hx with rfl | rfl <;> decide)
      (fun x hx => by rcases exStale_reach x hx with rfl | rfl <;> rfl)
      (Or.inr ⟨64, Reach.ptr (by simp [exStale]) (by decide), rfl⟩)⟩

/-! ## The trace step and its calls -/

theorem forEachWith_push (s : GC) :
    ∀ (ps stack : List Nat), forEachWith (push s) stack ps = pushEach s stack ps := by
  intro ps
  induction ps with
  | nil => intro stack; rfl
  | cons p ps ih =>
    intro stack
    simp only [forEachWith, pushEach]
    cases push s stack p with
    | none => rfl
    | some st => exact ih st

theorem pushPointersWith_push (s : GC) (stack : List Nat) (obj : Obj) :
    pushPointersWith (push s) stack obj = pushPointers s stack obj := by
  unfold pushPointersWith pushPointers
  cases obj.type <;> (try simp only [forEachWith_push])
  all_goals first
    | (cases push s stack obj.up <;> rfl)
    | (cases push s stack obj.string_s <;> rfl)
    | (cases push s stack obj.smallList0 <;> rfl)
    | (cases push s stack obj.app_left <;> rfl)

theorem forEachWith_logged (s : GC) :
    ∀ (ps stack log : List Nat),
      forEachWith (pushLogged s) (stack, log) ps =
        (pushEach s stack ps).map fun st => (st, log ++ ps) := by
  intro ps
  induction ps with
  | nil => intro stack log; simp [forEachWith, pushEach]
  | cons p ps ih =>
    intro stack log
    simp only [forEachWith, pushEach, pushLogged]
    cases push s stack p with
    | none => rfl
    | some st =>
      simp only [ih]
      simp

theorem pushLogged_eq (s : GC) (stack log : List Nat) (p : Nat) :
    pushLogged s (stack, log) p = (push s stack p).map fun st => (st, log ++ [p]) := by
  unfold pushLogged
  cases push s stack p <;> rfl

theorem pushPointersWith_logged (s : GC) (stack log : List Nat) (obj : Obj) :
    pushPointersWith (pushLogged s) (stack, log) obj =
      (pushPointers s stack obj).map fun st => (st, log ++ outEdges obj) := by
  unfold pushPointersWith pushPointers outEdges
  cases obj.type <;> (try simp only [forEachWith_logged, pushLogged_eq, Option.map_none',
    Option.map_some', List.append_nil])
  all_goals first
    | (cases push s stack obj.up <;> simp [forEachWith_logged, pushLogged_eq])
    | (cases push s stack obj.string_s <;> simp [pushLogged_eq] <;> split <;> simp)
    | (cases push s stack obj.smallList0 <;> simp [pushLogged_eq])
    | (cases push s stack obj.app_left <;> simp [pushLogged_eq])

/-! ## The record of traced objects -/

theorem markAt_marked_iff (s : GC) (obj x : Nat) :
    ((markAt s obj).heap x).marked = true ↔ (x = obj ∨ (s.heap x).marked = true) := by
  by_cases hx : x = obj
  · subst hx
    rw [markAt_heap_same]
    simp
  · rw [markAt_heap_other s obj x hx]
    simp [hx]

theorem OnlyMarks.same_edges {s0 s : GC} (h : OnlyMarks s0 s) (x : Nat) :
    outEdges (s.heap x) = outEdges (s0.heap x) ∧ (s.heap x).type = (s0.heap x).type := by
  rcases h.2 x with e | e <;> rw [e]
  · exact ⟨rfl, rfl⟩
  · exact ⟨outEdges_marked _ _, rfl⟩

theorem OnlyMarks.mono {s0 s : GC} (h : OnlyMarks s0 s) (x : Nat)
    (hx : (s0.heap x).marked = true) : (s.heap x).marked = true := by
  rcases h.2 x with e | e <;> rw [e]
  exact hx

theorem OnlyMarks.refl (s : GC) : OnlyMarks s s :=
  ⟨rfl, fun _ => Or.inl rfl⟩

/-- One traced object: the state after marking differs from the start state in
    mark bits only, and what is pushed is reachable. -/
theorem trace_step {s0 s : GC} {stack stack1 : List Nat} {obj : Nat}
    (hO : OnlyMarks s0 s) (hobj : Reach s0 obj) (hst : ∀ p ∈ stack, Reach s0 p)
    (hp : pushPointers (markAt s obj) stack ((markAt s obj).heap obj) = some stack1) :
    OnlyMarks s0 (markAt s obj) ∧ (∀ p ∈ stack1, Reach s0 p) ∧
      stack1.length ≤ stack.length + (outEdges (s0.heap obj)).length := by
  rw [pushPointers_eq, markAt_heap_same] at hp
  by_cases htr : traceable ({ s.heap obj with marked := true } : Obj).type = true
  · simp only [htr, if_true] at hp
    have hst1 := pushEach_some _ _ _ _ hp
    rw [outEdges_marked, (hO.same_edges obj).1] at hst1
    refine ⟨onlyMarks_markAt hO obj, ?_, ?_⟩
    · intro p hp1
      rw [hst1] at hp1
      simp only [List.mem_append, List.mem_reverse, List.mem_filter, decide_eq_true_eq] at hp1
      rcases hp1 with ⟨he, hp0⟩ | hs
      · exact Reach.edge hobj he hp0
      · exact hst p hs
    · rw [hst1, List.length_append, List.length_reverse]
      have := List.length_filter_le (fun p => decide (p ≠ 0)) (outEdges (s0.heap obj))
      omega
  · simp only [htr] at hp
    simp at hp

theorem processStackLog_spec (s0 : GC) :
    ∀ (fuel : Nat) (s : GC) (stack : List Nat) (m : Nat) (log : List Nat),
      OnlyMarks s0 s → (∀ p ∈ stack, Reach s0 p) → log.Nodup →
      (∀ x ∈ log, (s.heap x).marked = true) →
      (processStackLog fuel s stack m log).1 = processStack fuel s stack m ∧
      (processStackLog fuel s stack m log).2.Nodup ∧
      (∀ x ∈ log, x ∈ (processStackLog fuel s stack m log).2) ∧
      (∀ x ∈ (processStackLog fuel s stack m log).2,
        x ∈ log ∨ ((s.heap x).marked = false ∧ Reach s0 x)) ∧
      ∀ s1 m1, processStack fuel s stack m = .done (s1, m1) →
        OnlyMarks s0 s1 ∧
        (∀ x, (s1.heap x).marked = true ↔
          ((s.heap x).marked = true ∨ x ∈ (processStackLog fuel s stack m log).2)) ∧
        m1 + log.length = m + (processStackLog fuel s stack m log).2.length := by
  have base : ∀ (fuel : Nat) (s : GC) (m : Nat) (log : List Nat),
      OnlyMarks s0 s → log.Nodup → (∀ x ∈ log, (s.heap x).marked = true) →
      (processStackLog fuel s [] m log).1 = processStack fuel s [] m ∧
      (processStackLog fuel s [] m log).2.Nodup ∧
      (∀ x ∈ log, x ∈ (processStackLog fuel s [] m log).2) ∧
      (∀ x ∈ (processStackLog fuel s [] m log).2,
        x ∈ log ∨ ((s.heap x).marked = false ∧ Reach s0 x)) ∧
      ∀ s1 m1, processStack fuel s [] m = .done (s1, m1) →
        OnlyMarks s0 s1 ∧
        (∀ x, (s1.heap x).marked = true ↔
          ((s.heap x).marked = true ∨ x ∈ (processStackLog fuel s [] m log).2)) ∧
        m1 + log.length = m + (processStackLog fuel s [] m log).2.length := by
    intro fuel s m log hO hnd hlm
    have e1 : processStackLog fuel s [] m log = (.done (s, m), log) := by
      cases fuel <;> rfl
    have e2 : processStack fuel s [] m = .done (s, m) := by
      cases fuel <;> rfl
    rw [e1, e2]
    refine ⟨rfl, hnd, fun x hx => hx, fun x hx => Or.inl hx, ?_⟩
    intro s1 m1 h
    simp only [Outcome.done.injEq, Prod.mk.injEq] at h
    obtain ⟨rfl, rfl⟩ := h
    refine ⟨hO, fun x => ⟨fun hx => Or.inl hx, fun hx => ?_⟩, rfl⟩
    rcases hx with hx | hx
    · exact hx
    · exact hlm x hx
  intro fuel
  induction fuel with
  | zero =>
    intro s stack m log hO hst hnd hlm
    cases stack with
    | nil => exact base 0 s m log hO hnd hlm
    | cons obj stack =>
      have e1 : processStackLog 0 s (obj :: stack) m log = (.timeout, log) := rfl
      have e2 : processStack 0 s (obj :: stack) m = .timeout := rfl
      rw [e1, e2]
      refine ⟨rfl, hnd, fun x hx => hx, fun x hx => Or.inl hx, ?_⟩
      intro s1 m1 h
      simp at h
  | succ fuel ih =>
    intro s stack m log hO hst hnd hlm
    cases stack with
    | nil => exact base (fuel + 1) s m log hO hnd hlm
    | cons obj stack =>
      have hobj : Reach s0 obj := hst obj (List.mem_cons_self _ _)
      have hst0 : ∀ p ∈ stack, Reach s0 p := fun p hp => hst p (List.mem_cons_of_mem _ hp)
      by_cases hm : (s.heap obj).marked = true
      · have e1 : processStackLog (fuel + 1) s (obj :: stack) m log =
            processStackLog fuel s stack m log := by
          simp only [processStackLog, hm, if_true]
        have e2 : processStack (fuel + 1) s (obj :: stack) m = processStack fuel s stack m := by
          simp only [processStack, hm, if_true]
        rw [e1, e2]
        exact ih s stack m log hO hst0 hnd hlm
      · have hm0 : (s.heap obj).marked = false := by simpa using hm
        have hnotin : obj ∉ log := fun hin => hm (hlm obj hin)
        have hnd1 : (obj :: log).Nodup := List.nodup_cons.2 ⟨hnotin, hnd⟩
        cases hpp : pushPointers (markAt s obj) stack ((markAt s obj).heap obj) with
        | none =>
          have e1 : processStackLog (fuel + 1) s (obj :: stack) m log =
              (.abort (markAt s obj), obj :: log) := by
            simp only [processStackLog, hm0, Bool.false_eq_true, if_false, hpp]
          have e2 : processStack (fuel + 1) s (obj :: stack) m = .abort (markAt s obj) := by
            simp only [processStack, hm0, Bool.false_eq_true, if_false, hpp]
          rw [e1, e2]
          refine ⟨rfl, hnd1, fun x hx => List.mem_cons_of_mem _ hx, ?_, ?_⟩
          · intro x hx
            rcases List.mem_cons.1 hx with rfl | hx
            · exact Or.inr ⟨hm0, hobj⟩
            · exact Or.inl hx
          · intro s1 m1 h
            simp at h
        | some stack1 =>
          have e1 : processStackLog (fuel + 1) s (obj :: stack) m log =
              processStackLog fuel (markAt s obj) stack1 (m + 1) (obj :: log) := by
            simp only [processStackLog, hm0, Bool.false_eq_true, if_false, hpp]
          have e2 : processStack (fuel + 1) s (obj :: stack) m =
              processStack fuel (markAt s obj) stack1 (m + 1) := by
            simp only [processStack, hm0, Bool.false_eq_true, if_false, hpp]
          rw [e1, e2]
          obtain ⟨hO1, hst1, -⟩ := trace_step hO hobj hst0 hpp
          have hlm1 : ∀ x ∈ obj :: log, ((markAt s obj).heap x).marked = true := by
            intro x hx
            rw [markAt_marked_iff]
            rcases List.mem_cons.1 hx with rfl | hx
            · exact Or.inl rfl
            · exact Or.inr (hlm x hx)
          obtain ⟨h1, h2, h3, h4, h5⟩ :=
            ih (markAt s obj) stack1 (m + 1) (obj :: log) hO1 hst1 hnd1 hlm1
          refine ⟨h1, h2, fun x hx => h3 x (List.mem_cons_of_mem _ hx), ?_, ?_⟩
          · intro x hx
            rcases h4 x hx with hin | ⟨hu, hr⟩
            · rcases List.mem_cons.1 hin with rfl | hin
              · exact Or.inr ⟨hm0, hobj⟩
              · exact Or.inl hin
            · right
              refine ⟨?_, hr⟩
              by_cases hxo : x = obj
              · subst hxo
                rw [markAt_heap_same] at hu
                simp at hu
              · rw [markAt_heap_other s obj x hxo] at hu
                exact hu
          · intro s1 m1 hd
            obtain ⟨g1, g2, g3⟩ := h5 s1 m1 hd
            refine ⟨g1, fun x => ?_, ?_⟩
            · rw [g2 x, markAt_marked_iff]
              constructor
              · rintro ((rfl | h) | h)
                · exact Or.inr (h3 _ (List.mem_cons_self _ _))
                · exact Or.inl h
                · exact Or.inr h
              · rintro (h | h)
                · exact Or.inl (Or.inr h)
                · exact Or.inr h
            · simp only [List.length_cons] at g3
              omega

theorem processStack_terminates (s0 : GC) (L : List Nat) (hL : ∀ x, Reach s0 x → x ∈ L) :
    ∀ (fuel : Nat) (s : GC) (stack : List Nat) (m : Nat),
      OnlyMarks s0 s → (∀ p ∈ stack, Reach s0 p) → stack.length + markWeight L s0 s ≤ fuel →
      processStack fuel s stack m ≠ .timeout := by
  intro fuel
  induction fuel with
  | zero =>
    intro s stack m _ _ hle
    cases stack with
    | nil => simp [processStack]
    | cons obj stack => simp at hle
  | succ fuel ih =>
    intro s stack m hO hst hle
    cases stack with
    | nil => simp [processStack]
    | cons obj stack =>
      have hobj : Reach s0 obj := hst obj (List.mem_cons_self _ _)
      have hst0 : ∀ p ∈ stack, Reach s0 p := fun p hp => hst p (List.mem_cons_of_mem _ hp)
      by_cases hm : (s.heap obj).marked = true
      · simp only [processStack, hm, if_true]
        exact ih s stack m hO hst0 (by simp at hle; omega)
      · have hm0 : (s.heap obj).marked = false := by simpa using hm
        simp only [processStack, hm0, Bool.false_eq_true, if_false]
        cases hpp : pushPointers (markAt s obj) stack ((markAt s obj).heap obj) with
        | none => simp
        | some stack1 =>
          simp only
          obtain ⟨hO1, hst1, hlen⟩ := trace_step hO hobj hst0 hpp
          have hw := markWeight_markAt L s0 s obj (hL obj hobj) hm0
          exact ih _ stack1 (m + 1) hO1 hst1 (by simp at hle; omega)

theorem OnlyMarks.weight_bound {s0 s : GC} (h : OnlyMarks s0 s) (L : List Nat) :
    markWeight L s0 s ≤ markWeight L s0 s0 :=
  markWeight_le L s0 s0 s (fun x hx => h.mono x hx)

theorem root_trace {s0 s : GC} {r : Obj} {stack : List Nat} (hr : r ∈ s0.objRoots)
    (hp : pushPointers s [] r = some stack) :
    (∀ p ∈ stack, Reach s0 p) ∧ stack.length ≤ (outEdges r).length := by
  rw [pushPointers_eq] at hp
  by_cases htr : traceable r.type = true
  · simp only [htr, if_true] at hp
    have hst := pushEach_some _ _ _ _ hp
    refine ⟨?_, ?_⟩
    · intro p hp1
      rw [hst] at hp1
      simp only [List.append_nil, List.mem_reverse, List.mem_filter, decide_eq_true_eq] at hp1
      exact Reach.root hr hp1.1 hp1.2
    · rw [hst, List.append_nil, List.length_reverse]
      exact List.length_filter_le _ _
  · simp only [htr] at hp
    simp at hp

theorem log_chain {s0 s s2 : GC} {m m2 : Nat} {log log1 log2 : List Nat}
    (h3 : ∀ x ∈ log, x ∈ log1)
    (h4 : ∀ x ∈ log1, x ∈ log ∨ ((s.heap x).marked = false ∧ Reach s0 x))
    (g2 : ∀ x, (s2.heap x).marked = true ↔ ((s.heap x).marked = true ∨ x ∈ log1))
    (g3 : m2 + log.length = m + log1.length)
    (k3 : ∀ x ∈ log1, x ∈ log2)
    (k4 : ∀ x ∈ log2, x ∈ log1 ∨ ((s2.heap x).marked = false ∧ Reach s0 x)) :
    (∀ x ∈ log, x ∈ log2) ∧
    (∀ x ∈ log2, x ∈ log ∨ ((s.heap x).marked = false ∧ Reach s0 x)) ∧
    ∀ (s1 : GC) (m1 : Nat),
      ((∀ x, (s1.heap x).marked = true ↔ ((s2.heap x).marked = true ∨ x ∈ log2)) ∧
        m1 + log1.length = m2 + log2.length) →
      (∀ x, (s1.heap x).marked = true ↔ ((s.heap x).marked = true ∨ x ∈ log2)) ∧
        m1 + log.length = m + log2.length := by
  refine ⟨fun x hx => k3 x (h3 x hx), ?_, ?_⟩
  · intro x hx
    rcases k4 x hx with h | ⟨hu, hr⟩
    · exact h4 x h
    · right
      refine ⟨?_, hr⟩
      by_contra hne
      have : (s2.heap x).marked = true := (g2 x).2 (Or.inl (by simpa using hne))
      rw [hu] at this
      simp at this
  · rintro s1 m1 ⟨j2, j3⟩
    refine ⟨fun x => ?_, by omega⟩
    rw [j2 x, g2 x]
    constructor
    · rintro ((h | h) | h)
      · exact Or.inl h
      · exact Or.inr (k3 x h)
      · exact Or.inr h
    · rintro (h | h)
      · exact Or.inl (Or.inl h)
      · exact Or.inr h

theorem markObjRootsLog_spec (s0 : GC) (fuel : Nat) :
    ∀ (rs : List Obj) (s : GC) (m : Nat) (log : List Nat),
      (∀ r ∈ rs, r ∈ s0.objRoots) → OnlyMarks s0 s → log.Nodup →
      (∀ x ∈ log, (s.heap x).marked = true) →
      (markObjRootsLog fuel s rs m log).1 = markObjRoots fuel s rs m ∧
      (markObjRootsLog fuel s rs m log).2.Nodup ∧
      (∀ x ∈ log, x ∈ (markObjRootsLog fuel s rs m log).2) ∧
      (∀ x ∈ (markObjRootsLog fuel s rs m log).2,
        x ∈ log ∨ ((s.heap x).marked = false ∧ Reach s0 x)) ∧
      ∀ s1 m1, markObjRoots fuel s rs m = .done (s1, m1) →
        OnlyMarks s0 s1 ∧
        (∀ x, (s1.heap x).marked = true ↔
          ((s.heap x).marked = true ∨ x ∈ (markObjRootsLog fuel s rs m log).2)) ∧
        m1 + log.length = m + (markObjRootsLog fuel s rs m log).2.length := by
  intro rs
  induction rs with
  | nil =>
    intro s m log _ hO hnd hlm
    have e1 : markObjRootsLog fuel s [] m log = (.done (s, m), log) := rfl
    have e2 : markObjRoots fuel s [] m = .done (s, m) := rfl
    rw [e1, e2]
    refine ⟨rfl, hnd, fun x hx => hx, fun x hx => Or.inl hx, ?_⟩
    intro s1 m1 h
    simp only [Outcome.done.injEq, Prod.mk.injEq] at h
    obtain ⟨rfl, rfl⟩ := h
    refine ⟨hO, fun x => ⟨fun hx => Or.inl hx, fun hx => ?_⟩, rfl⟩
    rcases hx with hx | hx
    · exact hx
    · exact hlm x hx
  | cons r rs ih =>
    intro s m log hsub hO hnd hlm
    have hr0 : r ∈ s0.objRoots := hsub r (List.mem_cons_self _ _)
    have hsub1 : ∀ q ∈ rs, q ∈ s0.objRoots := fun q hq => hsub q (List.mem_cons_of_mem _ hq)
    cases hpp : pushPointers s [] r with
    | none =>
      have e1 : markObjRootsLog fuel s (r :: rs) m log = (.abort s, log) := by
        simp only [markObjRootsLog, hpp]
      have e2 : markObjRoots fuel s (r :: rs) m = .abort s := by
        simp only [markObjRoots, hpp]
      rw [e1, e2]
      refine ⟨rfl, hnd, fun x hx => hx, fun x hx => Or.inl hx, ?_⟩
      intro s1 m1 h
      simp at h
    | some stack =>
      obtain ⟨hst, -⟩ := root_trace hr0 hpp
      obtain ⟨h1, h2, h3, h4, h5⟩ := processStackLog_spec s0 fuel s stack m log hO hst hnd hlm
      cases hps : processStackLog fuel s stack m log with
      | mk o log1 =>
        rw [hps] at h1 h2 h3 h4 h5
        simp only at h1 h2 h3 h4 h5
        cases o with
        | timeout =>
          have e1 : markObjRootsLog fuel s (r :: rs) m log = (.timeout, log1) := by
            simp only [markObjRootsLog, hpp, hps]
          have e2 : markObjRoots fuel s (r :: rs) m = .timeout := by
            simp only [markObjRoots, hpp, ← h1]
          rw [e1, e2]
          refine ⟨rfl, h2, h3, h4, ?_⟩
          intro s1 m1 h
          simp at h
        | abort s2 =>
          have e1 : markObjRootsLog fuel s (r :: rs) m log = (.abort s2, log1) := by
            simp only [markObjRootsLog, hpp, hps]
          have e2 : markObjRoots fuel s (r :: rs) m = .abort s2 := by
            simp only [markObjRoots, hpp, ← h1]
          rw [e1, e2]
          refine ⟨rfl, h2, h3, h4, ?_⟩
          intro s1 m1 h
          simp at h
        | done res =>
          obtain ⟨s2, m2⟩ := res
          have e1 : markObjRootsLog fuel s (r :: rs) m log =
              markObjRootsLog fuel s2 rs m2 log1 := by
            simp only [markObjRootsLog, hpp, hps]
          have e2 : markObjRoots fuel s (r :: rs) m = markObjRoots fuel s2 rs m2 := by
            simp only [markObjRoots, hpp, ← h1]
          rw [e1, e2]
          obtain ⟨g1, g2, g3⟩ := h5 s2 m2 h1.symm
          obtain ⟨k1, k2, k3, k4, k5⟩ := ih s2 m2 log1 hsub1 g1 h2
            (fun x hx => (g2 x).2 (Or.inr hx))
          obtain ⟨c1, c2, c3⟩ := log_chain h3 h4 g2 g3 k3 k4
          refine ⟨k1, k2, c1, c2, ?_⟩
          intro s1 m1 hd
          obtain ⟨j1, j2, j3⟩ := k5 s1 m1 hd
          exact ⟨j1, c3 s1 m1 ⟨j2, j3⟩⟩

theorem markPtrRootsLog_spec (s0 : GC) (fuel : Nat) :
    ∀ (ps : List Nat) (s : GC) (m : Nat) (log : List Nat),
      (∀ p ∈ ps, p ∈ s0.ptrRoots) → OnlyMarks s0 s → log.Nodup →
      (∀ x ∈ log, (s.heap x).marked = true) →
      (markPtrRootsLog fuel s ps m log).1 = markPtrRoots fuel s ps m ∧
      (markPtrRootsLog fuel s ps m log).2.Nodup ∧
      (∀ x ∈ log, x ∈ (markPtrRootsLog fuel s ps m log).2) ∧
      (∀ x ∈ (markPtrRootsLog fuel s ps m log).2,
        x ∈ log ∨ ((s.heap x).marked = false ∧ Reach s0 x)) ∧
      ∀ s1 m1, markPtrRoots fuel s ps m = .done (s1, m1) →
        OnlyMarks s0 s1 ∧
        (∀ x, (s1.heap x).marked = true ↔
          ((s.heap x).marked = true ∨ x ∈ (markPtrRootsLog fuel s ps m log).2)) ∧
        m1 + log.length = m + (markPtrRootsLog fuel s ps m log).2.length := by
  intro ps
  induction ps with
  | nil =>
    intro s m log _ hO hnd hlm
    have e1 : markPtrRootsLog fuel s [] m log = (.done (s, m), log) := rfl
    have e2 : markPtrRoots fuel s [] m = .done (s, m) := rfl
    rw [e1, e2]
    refine ⟨rfl, hnd, fun x hx => hx, fun x hx => Or.inl hx, ?_⟩
    intro s1 m1 h
    simp only [Outcome.done.injEq, Prod.mk.injEq] at h
    obtain ⟨rfl, rfl⟩ := h
    refine ⟨hO, fun x => ⟨fun hx => Or.inl hx, fun hx => ?_⟩, rfl⟩
    rcases hx with hx | hx
    · exact hx
    · exact hlm x hx
  | cons p ps ih =>
    intro s m log hsub hO hnd hlm
    have hp0 : p ∈ s0.ptrRoots := hsub p (List.mem_cons_self _ _)
    have hsub1 : ∀ q ∈ ps, q ∈ s0.ptrRoots := fun q hq => hsub q (List.mem_cons_of_mem _ hq)
    by_cases hz : p = 0
    · have e1 : markPtrRootsLog fuel s (p :: ps) m log = markPtrRootsLog fuel s ps m log := by
        simp only [markPtrRootsLog, hz, if_true]
      have e2 : markPtrRoots fuel s (p :: ps) m = markPtrRoots fuel s ps m := by
        simp only [markPtrRoots, hz, if_true]
      rw [e1, e2]
      exact ih s m log hsub1 hO hnd hlm
    · have hst : ∀ q ∈ [p], Reach s0 q := by
        intro q hq
        simp only [List.mem_singleton] at hq
        subst hq
        exact Reach.ptr hp0 hz
      obtain ⟨h1, h2, h3, h4, h5⟩ := processStackLog_spec s0 fuel s [p] m log hO hst hnd hlm
      cases hps : processStackLog fuel s [p] m log with
      | mk o log1 =>
        rw [hps] at h1 h2 h3 h4 h5
        simp only at h1 h2 h3 h4 h5
        cases o with
        | timeout =>
          have e1 : markPtrRootsLog fuel s (p :: ps) m log = (.timeout, log1) := by
            simp only [markPtrRootsLog, hz, if_false, hps]
          have e2 : markPtrRoots fuel s (p :: ps) m = .timeout := by
            simp only [markPtrRoots, hz, if_false, ← h1]
          rw [e1, e2]
          refine ⟨rfl, h2, h3, h4, ?_⟩
          intro s1 m1 h
          simp at h
        | abort s2 =>
          have e1 : markPtrRootsLog fuel s (p :: ps) m log = (.abort s2, log1) := by
            simp only [markPtrRootsLog, hz, if_false, hps]
          have e2 : markPtrRoots fuel s (p :: ps) m = .abort s2 := by
            simp only [markPtrRoots, hz, if_false, ← h1]
          rw [e1, e2]
          refine ⟨rfl, h2, h3, h4, ?_⟩
          intro s1 m1 h
          simp at h
        | done res =>
          obtain ⟨s2, m2⟩ := res
          have e1 : markPtrRootsLog fuel s (p :: ps) m log =
              markPtrRootsLog fuel s2 ps m2 log1 := by
            simp only [markPtrRootsLog, hz, if_false, hps]
          have e2 : markPtrRoots fuel s (p :: ps) m = markPtrRoots fuel s2 ps m2 := by
            simp only [markPtrRoots, hz, if_false, ← h1]
          rw [e1, e2]
          obtain ⟨g1, g2, g3⟩ := h5 s2 m2 h1.symm
          obtain ⟨k1, k2, k3, k4, k5⟩ := ih s2 m2 log1 hsub1 g1 h2
            (fun x hx => (g2 x).2 (Or.inr hx))
          obtain ⟨c1, c2, c3⟩ := log_chain h3 h4 g2 g3 k3 k4
          refine ⟨k1, k2, c1, c2, ?_⟩
          intro s1 m1 hd
          obtain ⟨j1, j2, j3⟩ := k5 s1 m1 hd
          exact ⟨j1, c3 s1 m1 ⟨j2, j3⟩⟩

theorem markPhaseLog_spec (s : GC) (fuel : Nat) :
    (markPhaseLog fuel s).1 = markPhase fuel s ∧
    (markPhaseLog fuel s).2.Nodup ∧
    (∀ x ∈ (markPhaseLog fuel s).2, (s.heap x).marked = false ∧ Reach s x) ∧
    ∀ s1 m, markPhase fuel s = .done (s1, m) →
      OnlyMarks s s1 ∧
      (∀ x, (s1.heap x).marked = true ↔
        ((s.heap x).marked = true ∨ x ∈ (markPhaseLog fuel s).2)) ∧
      m = (markPhaseLog fuel s).2.length := by
  obtain ⟨h1, h2, h3, h4, h5⟩ := markObjRootsLog_spec s fuel s.objRoots s 0 []
    (fun r hr => hr) (OnlyMarks.refl s) List.nodup_nil (fun x hx => by simp at hx)
  cases hps : markObjRootsLog fuel s s.objRoots 0 [] with
  | mk o log1 =>
    rw [hps] at h1 h2 h3 h4 h5
    simp only at h1 h2 h3 h4 h5
    have h4a : ∀ x ∈ log1, (s.heap x).marked = false ∧ Reach s x := by
      intro x hx
      rcases h4 x hx with h | h
      · simp at h
      · exact h
    cases o with
    | timeout =>
      have e1 : markPhaseLog fuel s = (.timeout, log1) := by
        simp only [markPhaseLog, hps]
      have e2 : markPhase fuel s = .timeout := by
        simp only [markPhase, ← h1]
      rw [e1, e2]
      refine ⟨rfl, h2, h4a, ?_⟩
      intro s1 m h
      simp at h
    | abort s2 =>
      have e1 : markPhaseLog fuel s = (.abort s2, log1) := by
        simp only [markPhaseLog, hps]
      have e2 : markPhase fuel s = .abort s2 := by
        simp only [markPhase, ← h1]
      rw [e1, e2]
      refine ⟨rfl, h2, h4a, ?_⟩
      intro s1 m h
      simp at h
    | done res =>
      obtain ⟨s2, m2⟩ := res
      have e1 : markPhaseLog fuel s = markPtrRootsLog fuel s2 s2.ptrRoots m2 log1 := by
        simp only [markPhaseLog, hps]
      have e2 : markPhase fuel s = markPtrRoots fuel s2 s2.ptrRoots m2 := by
        simp only [markPhase, ← h1]
      rw [e1, e2]
      obtain ⟨g1, g2, g3⟩ := h5 s2 m2 h1.symm
      have hpr : s2.ptrRoots = s.ptrRoots := (withHeap_fields s s2 g1.1).2.2.2.1
      obtain ⟨k1, k2, k3, k4, k5⟩ := markPtrRootsLog_spec s fuel s2.ptrRoots s2 m2 log1
        (fun p hp => by rw [← hpr]; exact hp) g1 h2 (fun x hx => (g2 x).2 (Or.inr hx))
      obtain ⟨-, c2, c3⟩ := log_chain h3 h4 g2 g3 k3 k4
      refine ⟨k1, k2, ?_, ?_⟩
      · intro x hx
        rcases c2 x hx with h | h
        · simp at h
        · exact h
      · intro s1 m hd
        obtain ⟨j1, j2, j3⟩ := k5 s1 m hd
        obtain ⟨d1, d2⟩ := c3 s1 m ⟨j2, j3⟩
        refine ⟨j1, d1, ?_⟩
        simp only [List.length_nil] at d2
        omega

theorem processStack_onlyMarks (s0 : GC) (fuel : Nat) (s : GC) (stack : List Nat) (m : Nat)
    (hO : OnlyMarks s0 s) (hst : ∀ p ∈ stack, Reach s0 p) (s1 : GC) (m1 : Nat)
    (h : processStack fuel s stack m = .done (s1, m1)) : OnlyMarks s0 s1 :=
  ((processStackLog_spec s0 fuel s stack m [] hO hst List.nodup_nil
    (fun x hx => by simp at hx)).2.2.2.2 s1 m1 h).1

theorem markObjRoots_terminates (s0 : GC) (L : List Nat) (hL : ∀ x, Reach s0 x → x ∈ L)
    (fuel : Nat) :
    ∀ (rs : List Obj) (s : GC) (m : Nat), (∀ r ∈ rs, r ∈ s0.objRoots) → OnlyMarks s0 s →
      (∀ r ∈ rs, (outEdges r).length + markWeight L s0 s0 ≤ fuel) →
      markObjRoots fuel s rs m ≠ .timeout := by
  intro rs
  induction rs with
  | nil => intro s m _ _ _; simp [markObjRoots]
  | cons r rs ih =>
    intro s m hsub hO hb
    have hr0 : r ∈ s0.objRoots := hsub r (List.mem_cons_self _ _)
    have hsub1 : ∀ q ∈ rs, q ∈ s0.objRoots := fun q hq => hsub q (List.mem_cons_of_mem _ hq)
    cases hpp : pushPointers s [] r with
    | none => simp [markObjRoots, hpp]
    | some stack =>
      obtain ⟨hst, hlen⟩ := root_trace hr0 hpp
      cases hps : processStack fuel s stack m with
      | timeout =>
        exfalso
        have h1 := hb r (List.mem_cons_self _ _)
        have h2 := hO.weight_bound L
        exact processStack_terminates s0 L hL fuel s stack m hO hst (by omega) hps
      | abort s2 => simp [markObjRoots, hpp, hps]
      | done res =>
        obtain ⟨s2, m2⟩ := res
        simp only [markObjRoots, hpp, hps]
        exact ih s2 m2 hsub1 (processStack_onlyMarks s0 fuel s stack m hO hst s2 m2 hps)
          (fun q hq => hb q (List.mem_cons_of_mem _ hq))

theorem markPtrRoots_terminates (s0 : GC) (L : List Nat) (hL : ∀ x, Reach s0 x → x ∈ L)
    (fuel : Nat) (hfuel : 1 + markWeight L s0 s0 ≤ fuel) :
    ∀ (ps : List Nat) (s : GC) (m : Nat), (∀ p ∈ ps, p ∈ s0.ptrRoots) → OnlyMarks s0 s →
      markPtrRoots fuel s ps m ≠ .timeout := by
  intro ps
  induction ps with
  | nil => intro s m _ _; simp [markPtrRoots]
  | cons p ps ih =>
    intro s m hsub hO
    have hp0 : p ∈ s0.ptrRoots := hsub p (List.mem_cons_self _ _)
    have hsub1 : ∀ q ∈ ps, q ∈ s0.ptrRoots := fun q hq => hsub q (List.mem_cons_of_mem _ hq)
    by_cases hz : p = 0
    · subst hz
      simp only [markPtrRoots, if_true]
      exact ih s m hsub1 hO
    · have hst : ∀ q ∈ [p], Reach s0 q := by
        intro q hq
        simp only [List.mem_singleton] at hq
        subst hq
        exact Reach.ptr hp0 hz
      simp only [markPtrRoots, hz, if_false]
      cases hps : processStack fuel s [p] m with
      | timeout =>
        exfalso
        have h2 := hO.weight_bound L
        exact processStack_terminates s0 L hL fuel s [p] m hO hst (by simp; omega) hps
      | abort s2 => simp
      | done res =>
        obtain ⟨s2, m2⟩ := res
        exact ih s2 m2 hsub1 (processStack_onlyMarks s0 fuel s [p] m hO hst s2 m2 hps)

theorem markObjRoots_onlyMarks (s0 : GC) (fuel : Nat) (s1 : GC) (m1 : Nat)
    (h : markObjRoots fuel s0 s0.objRoots 0 = .done (s1, m1)) : OnlyMarks s0 s1 :=
  ((markObjRootsLog_spec s0 fuel s0.objRoots s0 0 [] (fun r hr => hr) (OnlyMarks.refl s0)
    List.nodup_nil (fun x hx => by simp at hx)).2.2.2.2 s1 m1 h).1

theorem markPhase_terminates (s0 : GC) (L : List Nat) (hL : ∀ x, Reach s0 x → x ∈ L)
    (fuel : Nat) (hfuel : markBound L s0 ≤ fuel) : markPhase fuel s0 ≠ .timeout := by
  unfold markBound at hfuel
  have hnt := markObjRoots_terminates s0 L hL fuel s0.objRoots s0 0 (fun r hr => hr)
    (OnlyMarks.refl s0) (fun r hr => by
      have := le_sum_map_of_mem (fun r => (outEdges r).length) s0.objRoots r hr
      simp only at this
      omega)
  unfold markPhase
  cases h1 : markObjRoots fuel s0 s0.objRoots 0 with
  | timeout => exact absurd h1 hnt
  | abort s2 => simp
  | done res =>
    obtain ⟨s2, m2⟩ := res
    have hO2 := markObjRoots_onlyMarks s0 fuel s2 m2 h1
    have hpr : s2.ptrRoots = s0.ptrRoots := (withHeap_fields s0 s2 hO2.1).2.2.2.1
    simp only
    exact markPtrRoots_terminates s0 L hL fuel (by omega) s2.ptrRoots s2 m2
      (fun p hp => by rw [← hpr]; exact hp) hO2

/-! ## A new arena -/

theorem single_free_block (h : Heap) (start n : Nat) (ht : (h start).type = .tFree)
    (hw : freeWords (h start) = n) (hn : 0 < n) :
    arenaHeaders h ⟨start, n⟩ = [start] ∧ Tiled h ⟨start, n⟩ := by
  have hT : Tiles h (start + n) start [start] := by
    refine ⟨rfl, by omega, by rw [objWords_free ht, hw]; exact hn, ?_⟩
    show start + objWords (h start) = start + n
    rw [objWords_free ht, hw]
  have hh : arenaHeaders h ⟨start, n⟩ = [start] :=
    headers_of_tiles h (start + n) [start] start n hT (by simpa using hn)
  refine ⟨hh, ?_⟩
  unfold Tiled
  rw [hh]
  exact hT

theorem addArena_spec (s : GC) (start arenaSize undef : Nat)
    (hs : (s.freeLists.map FreeList.minSize).Pairwise (· < ·))
    (hfit : ∃ fl ∈ s.freeLists, fl.minSize ≤ arenaSize) :
    ∃ (i : Nat) (fl : FreeList) (s1 : GC), addArena s start arenaSize undef = .done s1 ∧
      s.freeLists[i]? = some fl ∧ fl.minSize ≤ arenaSize ∧
      (∀ g ∈ s.freeLists, g.minSize ≤ arenaSize → g.minSize ≤ fl.minSize) ∧
      s1.freeLists[i]? = some { fl with front := start } ∧
      (∀ j, j ≠ i → s1.freeLists[j]? = s.freeLists[j]?) ∧
      s1.heap start = { newFree (s.heap start) arenaSize with next := fl.front } ∧
      (∀ x, x ≠ start → s1.heap x = s.heap x) ∧
      s1.arenas = s.arenas ++ [⟨start, arenaSize⟩] ∧
      s1.totalSize = (s.totalSize + arenaSize) % 2 ^ 64 ∧
      s1.nextSize = (growSize arenaSize).getD undef ∧
      s1.ptrRoots = s.ptrRoots ∧ s1.objRoots = s.objRoots ∧ s1.validate = s.validate := by
  have hcell : (s.withHeap (setObj s.heap start (newFree (s.heap start) arenaSize))).heap start =
      newFree (s.heap start) arenaSize := setObj_same _ _ _
  have hw : freeWords
      ((s.withHeap (setObj s.heap start (newFree (s.heap start) arenaSize))).heap start) =
      arenaSize := by
    rw [hcell]; rfl
  rcases addToFreeList_sorted
      (s.withHeap (setObj s.heap start (newFree (s.heap start) arenaSize))) start hs with
    ⟨hall, -⟩ | ⟨i, fl, h1, h2, h3, s1, hd, h4, h5, h6, h7, h8, h9, h10⟩
  · obtain ⟨fl, hfl, hle⟩ := hfit
    have := hall fl hfl
    rw [hw] at this
    omega
  · rw [hw] at h2 h3
    rw [hcell] at h6
    have hpf : pushFree (s.withHeap (setObj s.heap start (newFree (s.heap start) arenaSize)))
        start = s1 := by
      unfold pushFree
      rw [hd]
    obtain ⟨-, -, -, f4, f5, -, -, -⟩ :=
      pushFree_fields (s.withHeap (setObj s.heap start (newFree (s.heap start) arenaSize))) start
    rw [hpf] at f4 f5
    refine ⟨i, fl,
      { s1 with
        arenas := s1.arenas ++ [⟨start, arenaSize⟩],
        totalSize := (s1.totalSize + arenaSize) % 2 ^ 64,
        nextSize := (growSize arenaSize).getD undef },
      by unfold addArena; rw [hd], h1, h2, h3, h4, h5, h6, ?_, ?_, ?_, rfl, h9, h10, f4⟩
    · intro x hx
      show s1.heap x = s.heap x
      rw [h7 x hx]
      exact setObj_other _ _ _ _ hx
    · show s1.arenas ++ [⟨start, arenaSize⟩] = s.arenas ++ [⟨start, arenaSize⟩]
      rw [h8]
      rfl
    · show (s1.totalSize + arenaSize) % 2 ^ 64 = (s.totalSize + arenaSize) % 2 ^ 64
      rw [f5]
      rfl

theorem growSize_small (n : Nat) (h : 3 * n < 2 ^ 53) : growSize n = some (3 * n / 2) := by
  have h1 : n < 2 ^ 53 := by omega
  have h2 : 3 * n / 2 < 2 ^ 64 := by omega
  simp only [growSize, roundDouble, h1, h, if_true, h2]

/-! ## The precision of the growth of the arena size -/

theorem excessBits_spec :
    ∀ (fuel k : Nat), excessBits fuel k ≠ 0 → 2 ^ 52 ≤ k / 2 ^ excessBits fuel k := by
  intro fuel
  induction fuel with
  | zero => intro k h; simp [excessBits] at h
  | succ fuel ih =>
    intro k h
    by_cases hk : k < 2 ^ 53
    · simp only [excessBits, hk, if_true, ne_eq, not_true_eq_false] at h
    · have e : excessBits (fuel + 1) k = 1 + excessBits fuel (k / 2) := by
        simp only [excessBits, hk, if_false]
      rw [e, Nat.pow_add, Nat.pow_one, ← Nat.div_div_eq_div_mul]
      by_cases h0 : excessBits fuel (k / 2) = 0
      · rw [h0]
        simp only [Nat.pow_zero, Nat.div_one]
        omega
      · exact ih (k / 2) h0

theorem roundDouble_bounds (k : Nat) :
    roundDouble k ≤ k + k / 2 ^ 52 ∧ k ≤ roundDouble k + k / 2 ^ 52 := by
  by_cases hk : k < 2 ^ 53
  · simp only [roundDouble, hk, if_true]
    omega
  · have hne : excessBits 64 k ≠ 0 := by
      have e : excessBits 64 k = 1 + excessBits 63 (k / 2) := by
        simp only [excessBits, hk, if_false]
      omega
    have hq := excessBits_spec 64 k hne
    have hE : 0 < 2 ^ excessBits 64 k := Nat.pow_pos (by decide)
    have hdm := Nat.div_add_mod k (2 ^ excessBits 64 k)
    have hr := Nat.mod_lt k hE
    have hmul : 2 ^ excessBits 64 k * 2 ^ 52 ≤ 2 ^ excessBits 64 k * (k / 2 ^ excessBits 64 k) :=
      Nat.mul_le_mul_left _ hq
    simp only [roundDouble, hk, if_false]
    generalize 2 ^ excessBits 64 k = E at *
    generalize hX : E * (k / E) = X at *
    have e1 : (k / E + 1) * E = X + E := by rw [← hX]; ring
    have e2 : k / E * E = X := by rw [← hX]; ring
    split
    · rw [e1]
      omega
    · rw [e2]
      omega

theorem growSize_defined (n : Nat) (hfit : WORD_SIZE * n < 2 ^ 64) :
    growSize n = some (roundDouble (3 * roundDouble n) / 2) ∧
    roundDouble (3 * roundDouble n) / 2 < 2 ^ 64 ∧
    roundDouble (3 * roundDouble n) / 2 ≤ 3 * n / 2 + n / 2 ^ 50 ∧
    3 * n / 2 ≤ roundDouble (3 * roundDouble n) / 2 + n / 2 ^ 50 := by
  have hn : 8 * n < 2 ^ 64 := hfit
  obtain ⟨a1, a2⟩ := roundDouble_bounds n
  obtain ⟨b1, b2⟩ := roundDouble_bounds (3 * roundDouble n)
  have hlt : roundDouble (3 * roundDouble n) / 2 < 2 ^ 64 := by omega
  refine ⟨?_, hlt, by omega, by omega⟩
  simp only [growSize, hlt, if_true]

/-! ## The sweep of an arena that need not be tiled -/

theorem objSize_eq_none_iff (o : Obj) : objSize o = none ↔ knownTag o.type = false := by
  unfold objSize knownTag
  cases o.type <;> simp [isValueTag]

theorem walk_step (h : Heap) (stop fuel pos n : Nat) (hlt : pos < stop)
    (hn : objSize (h pos) = some n) :
    walk h stop (fuel + 1) pos = pos :: walk h stop fuel (pos + n) ∧
      walkEnd h stop (fuel + 1) pos = walkEnd h stop fuel (pos + n) := by
  simp [walk, walkEnd, hlt, hn]

theorem walk_unknown (h : Heap) (stop fuel pos : Nat) (hlt : pos < stop)
    (hn : objSize (h pos) = none) :
    walk h stop (fuel + 1) pos = [pos] ∧ walkEnd h stop (fuel + 1) pos = pos := by
  simp [walk, walkEnd, hlt, hn]

theorem walk_past (h : Heap) (stop fuel pos : Nat) (hge : stop ≤ pos) :
    walk h stop fuel pos = [] ∧ walkEnd h stop fuel pos = pos := by
  cases fuel <;> simp [walk, walkEnd, not_lt.2 hge]

theorem walk_ge (h : Heap) (stop : Nat) :
    ∀ (fuel pos : Nat), ∀ a ∈ walk h stop fuel pos, pos ≤ a := by
  intro fuel
  induction fuel with
  | zero => intro pos a ha; simp [walk] at ha
  | succ fuel ih =>
    intro pos a ha
    by_cases hlt : pos < stop
    · cases hn : objSize (h pos) with
      | none =>
        rw [(walk_unknown h stop fuel pos hlt hn).1] at ha
        simp at ha
        omega
      | some n =>
        rw [(walk_step h stop fuel pos n hlt hn).1] at ha
        rcases List.mem_cons.1 ha with rfl | ha
        · exact le_refl _
        · have := ih _ a ha
          omega
    · rw [(walk_past h stop _ pos (not_lt.1 hlt)).1] at ha
      simp at ha

theorem walk_congr (h h1 : Heap) (stop lo : Nat)
    (hc : ∀ a, lo ≤ a → objSize (h1 a) = objSize (h a)) :
    ∀ (fuel pos : Nat), lo ≤ pos →
      walk h1 stop fuel pos = walk h stop fuel pos ∧
        walkEnd h1 stop fuel pos = walkEnd h stop fuel pos := by
  intro fuel
  induction fuel with
  | zero => intro pos _; exact ⟨rfl, rfl⟩
  | succ fuel ih =>
    intro pos hp
    by_cases hlt : pos < stop
    · cases hn : objSize (h pos) with
      | none =>
        have hn1 : objSize (h1 pos) = none := by rw [hc pos hp]; exact hn
        rw [(walk_unknown h stop fuel pos hlt hn).1, (walk_unknown h stop fuel pos hlt hn).2,
          (walk_unknown h1 stop fuel pos hlt hn1).1, (walk_unknown h1 stop fuel pos hlt hn1).2]
        exact ⟨rfl, rfl⟩
      | some n =>
        have hn1 : objSize (h1 pos) = some n := by rw [hc pos hp]; exact hn
        rw [(walk_step h stop fuel pos n hlt hn).1, (walk_step h stop fuel pos n hlt hn).2,
          (walk_step h1 stop fuel pos n hlt hn1).1, (walk_step h1 stop fuel pos n hlt hn1).2]
        obtain ⟨e1, e2⟩ := ih (pos + n) (by omega)
        exact ⟨by rw [e1], e2⟩
    · rw [(walk_past h stop _ pos (not_lt.1 hlt)).1, (walk_past h stop _ pos (not_lt.1 hlt)).2,
        (walk_past h1 stop _ pos (not_lt.1 hlt)).1, (walk_past h1 stop _ pos (not_lt.1 hlt)).2]
      exact ⟨rfl, rfl⟩

theorem walk_fuel (h : Heap) (stop k : Nat) :
    ∀ (fuel pos : Nat), (∀ a ∈ walk h stop fuel pos, objSize (h a) ≠ some 0) →
      stop ≤ pos + fuel →
      walk h stop (fuel + k) pos = walk h stop fuel pos ∧
        walkEnd h stop (fuel + k) pos = walkEnd h stop fuel pos := by
  intro fuel
  induction fuel with
  | zero =>
    intro pos _ hle
    have hge : stop ≤ pos := by omega
    rw [(walk_past h stop _ pos hge).1, (walk_past h stop _ pos hge).2,
      (walk_past h stop _ pos hge).1, (walk_past h stop _ pos hge).2]
    exact ⟨rfl, rfl⟩
  | succ fuel ih =>
    intro pos hsz hle
    by_cases hlt : pos < stop
    · have e : fuel + 1 + k = (fuel + k) + 1 := by omega
      rw [e]
      cases hn : objSize (h pos) with
      | none =>
        rw [(walk_unknown h stop _ pos hlt hn).1, (walk_unknown h stop _ pos hlt hn).2,
          (walk_unknown h stop _ pos hlt hn).1, (walk_unknown h stop _ pos hlt hn).2]
        exact ⟨rfl, rfl⟩
      | some n =>
        have hw := (walk_step h stop fuel pos n hlt hn).1
        have hn0 : n ≠ 0 := by
          intro h0
          subst h0
          exact hsz pos (by rw [hw]; exact List.mem_cons_self _ _) hn
        rw [(walk_step h stop _ pos n hlt hn).1, (walk_step h stop _ pos n hlt hn).2, hw,
          (walk_step h stop fuel pos n hlt hn).2]
        obtain ⟨e1, e2⟩ := ih (pos + n)
          (fun a ha => hsz a (by rw [hw]; exact List.mem_cons_of_mem _ ha)) (by omega)
        exact ⟨by rw [e1], e2⟩
    · rw [(walk_past h stop _ pos (not_lt.1 hlt)).1, (walk_past h stop _ pos (not_lt.1 hlt)).2,
        (walk_past h stop _ pos (not_lt.1 hlt)).1, (walk_past h stop _ pos (not_lt.1 hlt)).2]
      exact ⟨rfl, rfl⟩

theorem sweepFrom_past (stop fuel : Nat) (s s2 : GC) (pos c nf wf : Nat) (hge : stop ≤ pos)
    (hl : linkCurFree s c = .done s2) :
    sweepFrom stop fuel s pos c nf wf =
      if pos = stop then .done (s2, nf, wf) else .abort s2 := by
  cases fuel <;> simp [sweepFrom, freeUnmarkedLoop, not_lt.2 hge, hl]

theorem sweepFrom_unknown (stop fuel : Nat) (s : GC) (pos c nf wf : Nat) (hlt : pos < stop)
    (hn : objSize (s.heap pos) = none) :
    sweepFrom stop (fuel + 1) s pos c nf wf = .abort s := by
  simp [sweepFrom, freeUnmarkedLoop, hlt, hn]

/-- One step of the arena walk on a header of known, positive size: the sweep
    goes on from the next header in a state that is the same from there on. -/
theorem sweepFrom_advance (stop fuel : Nat) (s : GC) (pos c nf wf n : Nat) (hp : 0 < pos)
    (hL : ListsOk s) (hc : c ≠ 0 → c < pos ∧ 1 ≤ freeWords (s.heap c)) (hlt : pos < stop)
    (hn : objSize (s.heap pos) = some n) (hn0 : n ≠ 0) :
    ∃ (s1 : GC) (c1 nf1 wf1 : Nat),
      sweepFrom stop (fuel + 1) s pos c nf wf = sweepFrom stop fuel s1 (pos + n) c1 nf1 wf1 ∧
      (∀ a, pos + n ≤ a → s1.heap a = s.heap a) ∧ ListsOk s1 ∧
      (c1 ≠ 0 → c1 < pos + n ∧ 1 ≤ freeWords (s1.heap c1)) := by
  have hmerge : c ≠ 0 → ∃ s1, mergeFree s c n = some s1 ∧
      (∀ a, pos + n ≤ a → s1.heap a = s.heap a) ∧ ListsOk s1 ∧
      (c ≠ 0 → c < pos + n ∧ 1 ≤ freeWords (s1.heap c)) := by
    intro hc0
    obtain ⟨hclt, hc1⟩ := hc hc0
    refine ⟨_, mergeFree_some s c n hc1, ?_, hL, ?_⟩
    · intro a ha
      simp [GC.withHeap, setObj, show a ≠ c by omega]
    · intro _
      refine ⟨by omega, ?_⟩
      simp [GC.withHeap, setObj, setSize, freeWords]
      omega
  by_cases ht : (s.heap pos).type = .tFree
  · by_cases hc0 : c = 0
    · subst hc0
      refine ⟨s, pos, nf, wf, sweepFrom_free_first _ _ _ _ _ _ _ hlt hn ht, fun _ _ => rfl, hL, ?_⟩
      intro _
      have : freeWords (s.heap pos) = n := by
        have := objSize_free ht
        rw [hn] at this
        exact (Option.some.inj this).symm
      clear hmerge
      exact ⟨by omega, by omega⟩
    · obtain ⟨s1, hm, h1, h2, h3⟩ := hmerge hc0
      exact ⟨s1, c, nf, wf, sweepFrom_free_merge _ _ _ _ _ _ _ _ _ hlt hn ht hc0 hm, h1, h2, h3⟩
  · by_cases hmk : (s.heap pos).marked = true
    · have hl := linkCurFree_done s c hL
      refine ⟨unmarkAt (if c ≠ 0 ∧ freeWords (s.heap c) > 1 then pushFree s c else s) pos, 0,
        nf, wf, sweepFrom_marked _ _ _ _ _ _ _ _ _ hlt hn ht hmk hl, ?_, ?_, fun h => absurd rfl h⟩
      · intro a ha
        have hap : a ≠ pos := by omega
        have hac : c ≠ 0 → a ≠ c := fun hc0 => by have := (hc hc0).1; omega
        simp only [unmarkAt, GC.withHeap, setObj, hap, if_false]
        split
        · rename_i hcond
          exact pushFree_heap_other s c a (hac hcond.1)
        · rfl
      · have : ListsOk (if c ≠ 0 ∧ freeWords (s.heap c) > 1 then pushFree s c else s) := by
          split
          · exact pushFree_listsOk s c hL
          · exact hL
        exact this
    · have hmk0 : (s.heap pos).marked = false := by simpa using hmk
      by_cases hc0 : c = 0
      · subst hc0
        clear hmerge
        refine ⟨convertToFree s pos n, pos, nf + 1, wf + n,
          sweepFrom_dead_first _ _ _ _ _ _ _ hlt hn ht hmk0, ?_, hL, ?_⟩
        · intro a ha
          simp [convertToFree, GC.withHeap, setObj, show a ≠ pos by omega]
        · intro _
          refine ⟨by omega, ?_⟩
          simp [convertToFree, GC.withHeap, setObj, setSize, freeWords]
          omega
      · obtain ⟨s1, hm, h1, h2, h3⟩ := hmerge hc0
        exact ⟨s1, c, nf + 1, wf + n,
          sweepFrom_dead_merge _ _ _ _ _ _ _ _ _ hlt hn ht hmk0 hc0 hm, h1, h2, h3⟩

theorem sweepFrom_walk (stop : Nat) :
    ∀ (fuel : Nat) (s : GC) (pos c nf wf : Nat), 0 < pos → ListsOk s →
      (c ≠ 0 → c < pos ∧ 1 ≤ freeWords (s.heap c)) →
      (∀ a ∈ walk s.heap stop fuel pos, objSize (s.heap a) ≠ some 0) → stop ≤ pos + fuel →
      (((∀ a ∈ walk s.heap stop fuel pos, objSize (s.heap a) ≠ none) ∧
          walkEnd s.heap stop fuel pos = stop) →
        ∃ r, sweepFrom stop fuel s pos c nf wf = .done r) ∧
      (¬ ((∀ a ∈ walk s.heap stop fuel pos, objSize (s.heap a) ≠ none) ∧
          walkEnd s.heap stop fuel pos = stop) →
        ∃ s1, sweepFrom stop fuel s pos c nf wf = .abort s1) := by
  have past : ∀ (fuel : Nat) (s : GC) (pos c nf wf : Nat), ListsOk s → stop ≤ pos →
      (((∀ a ∈ walk s.heap stop fuel pos, objSize (s.heap a) ≠ none) ∧
          walkEnd s.heap stop fuel pos = stop) →
        ∃ r, sweepFrom stop fuel s pos c nf wf = .done r) ∧
      (¬ ((∀ a ∈ walk s.heap stop fuel pos, objSize (s.heap a) ≠ none) ∧
          walkEnd s.heap stop fuel pos = stop) →
        ∃ s1, sweepFrom stop fuel s pos c nf wf = .abort s1) := by
    intro fuel s pos c nf wf hL hge
    rw [sweepFrom_past stop fuel s _ pos c nf wf hge (linkCurFree_done s c hL),
      (walk_past s.heap stop fuel pos hge).1, (walk_past s.heap stop fuel pos hge).2]
    by_cases he : pos = stop
    · rw [if_pos he]
      exact ⟨fun _ => ⟨_, rfl⟩, fun hn => absurd ⟨fun a ha => by simp at ha, he⟩ hn⟩
    · rw [if_neg he]
      exact ⟨fun hp => absurd hp.2 he, fun _ => ⟨_, rfl⟩⟩
  intro fuel
  induction fuel with
  | zero =>
    intro s pos c nf wf _ hL _ _ hle
    exact past 0 s pos c nf wf hL (by omega)
  | succ fuel ih =>
    intro s pos c nf wf hp hL hc hsz hle
    by_cases hlt : pos < stop
    · cases hn : objSize (s.heap pos) with
      | none =>
        rw [sweepFrom_unknown stop fuel s pos c nf wf hlt hn,
          (walk_unknown s.heap stop fuel pos hlt hn).1]
        refine ⟨fun hP => absurd hn (hP.1 pos (List.mem_singleton.2 rfl)), fun _ => ⟨_, rfl⟩⟩
      | some n =>
        obtain ⟨hw, hwe⟩ := walk_step s.heap stop fuel pos n hlt hn
        have hn0 : n ≠ 0 := by
          intro h0
          subst h0
          exact hsz pos (by rw [hw]; exact List.mem_cons_self _ _) hn
        obtain ⟨s1, c1, nf1, wf1, hstep, hheap, hL1, hc1⟩ :=
          sweepFrom_advance stop fuel s pos c nf wf n hp hL hc hlt hn hn0
        obtain ⟨e1, e2⟩ := walk_congr s.heap s1.heap stop (pos + n)
          (fun a ha => by rw [hheap a ha]) fuel (pos + n) (le_refl _)
        have hcell : ∀ a ∈ walk s.heap stop fuel (pos + n), s1.heap a = s.heap a :=
          fun a ha => hheap a (walk_ge s.heap stop fuel (pos + n) a ha)
        obtain ⟨ihd, iha⟩ := ih s1 (pos + n) c1 nf1 wf1 (by omega) hL1 hc1
          (by
            intro a ha
            rw [e1] at ha
            rw [hcell a ha]
            exact hsz a (by rw [hw]; exact List.mem_cons_of_mem _ ha))
          (by omega)
        have hiff : ((∀ a ∈ walk s.heap stop (fuel + 1) pos, objSize (s.heap a) ≠ none) ∧
            walkEnd s.heap stop (fuel + 1) pos = stop) ↔
            ((∀ a ∈ walk s1.heap stop fuel (pos + n), objSize (s1.heap a) ≠ none) ∧
              walkEnd s1.heap stop fuel (pos + n) = stop) := by
          rw [hw, hwe, e1, e2]
          constructor
          · rintro ⟨h1, h2⟩
            exact ⟨fun a ha => by
              rw [hcell a ha]; exact h1 a (List.mem_cons_of_mem _ ha), h2⟩
          · rintro ⟨h1, h2⟩
            refine ⟨fun a ha => ?_, h2⟩
            rcases List.mem_cons.1 ha with rfl | ha
            · rw [hn]; simp
            · rw [← hcell a ha]; exact h1 a ha
        rw [hstep]
        exact ⟨fun hP => ihd (hiff.1 hP), fun hP => iha (fun h => hP (hiff.2 h))⟩
    · exact past (fuel + 1) s pos c nf wf hL (not_lt.1 hlt)

/-! ## The order of the blocks on a free-list -/

theorem Tiles_sorted (h : Heap) (stop : Nat) :
    ∀ (l : List Nat) (pos : Nat), Tiles h stop pos l → l.Pairwise (· < ·) := by
  intro l
  induction l with
  | nil => intro pos _; exact List.Pairwise.nil
  | cons a l ih =>
    intro pos hT
    obtain ⟨rfl, -, hw, hT1⟩ := hT
    refine List.Pairwise.cons ?_ (ih _ hT1)
    intro b hb
    have := (Tiles_ge h stop l _ hT1 b hb).1
    omega

/-- After the sweep the list of threshold `t` holds the `Free` headers of its
    size class, taken in the order of the arena walks and reversed. -/
theorem chainOf_eq_filter {s s1 : GC} {hm : Heap} (hW : WellFormed s)
    (hM : MarkedHeap s hm) (e1 : s1.heap = (sweepResult s hm).heap)
    (e2 : s1.freeLists = (sweepResult s hm).freeLists) (e3 : s1.arenas = s.arenas)
    (t : Nat) :
    chainOf s t (allOut hm s.arenas) =
      ((allHeaders s1).filter fun a =>
        decide ((s1.heap a).type = .tFree) && decide (2 ≤ freeWords (s1.heap a)) &&
          decide (sizeClass s1 (freeWords (s1.heap a)) = some t)).reverse := by
  obtain ⟨-, hlive, hfree, -⟩ := sweepResult_cells hW hM
  have hhd : allHeaders s1 = (allOut hm s.arenas).map Blk.addr := by
    rw [gcPost_allHeaders e1 e3, sweepResult_allHeaders hW hM]
  have hmin : s1.freeLists.map FreeList.minSize = s.freeLists.map FreeList.minSize := by
    rw [e2]; exact (sweepResult_fields s hm).2.2.2.2.2.2.2
  unfold chainOf
  rw [hhd, List.filter_map]
  congr 2
  apply List.filter_congr
  intro b hb
  simp only [Function.comp]
  by_cases hf : b.free = true
  · obtain ⟨nxt, hcell⟩ := hfree b hb hf
    rw [e1, hcell]
    simp only [freeWords, hf, decide_True, Bool.true_and, sizeClass_congr s s1 hmin]
    by_cases h1 : 1 < b.size
    · simp [h1, show 2 ≤ b.size from h1]
    · simp [h1, show ¬ 2 ≤ b.size from h1]
  · have hf0 : b.free = false := by simpa using hf
    obtain ⟨A, hA, hbA⟩ := (allOut_mem _ _ _).1 hb
    obtain ⟨-, -, hnf, -⟩ := arenaOut_live hm A b hbA hf0
    have hty : ¬ (s1.heap b.addr).type = .tFree := by
      rw [e1, hlive b hb hf0]
      exact hnf
    simp [hf0, hty]

/-! ## Facts about the example heaps -/

theorem strGC_allHeaders : allHeaders strGC = [8, 11, 16] := by
  decide

theorem strGC_wellFormed : WellFormed strGC := by
  have hreach : ∀ x, Reach strGC x → x = 8 ∨ x = 11 := by
    intro x hx
    induction hx with
    | ptr h h0 =>
      simp only [strGC, List.mem_singleton] at h
      exact Or.inl h
    | root hr hp h0 => simp [strGC] at hr
    | edge _ hp h0 ih =>
      rcases ih with rfl | rfl
      · simp only [strGC, strHeap, outEdges, exObj, if_true] at hp
        simp only [show (999 % 2 = 0) = False from by decide, if_false,
          List.mem_singleton] at hp
        exact Or.inr hp
      · simp [strGC, strHeap, outEdges, exObj] at hp
  refine ⟨⟨by decide, ⟨2, 0⟩, by simp [strGC], by decide⟩, ?_, ?_, ?_, ?_, ?_⟩
  · intro A hA
    simp only [strGC, List.mem_singleton] at hA
    subst hA
    decide
  · simp [strGC]
  · intro A hA
    simp only [strGC, List.mem_singleton] at hA
    subst hA
    unfold Tiled
    rw [show arenaHeaders strGC.heap ⟨8, 16⟩ = [8, 11, 16] from by decide]
    simp [Tiles, objWords, objSize, isValueTag, strGC, strHeap, exObj, freeWords]
  · intro a ha
    rw [strGC_allHeaders] at ha
    simp only [List.mem_cons, List.mem_singleton, List.not_mem_nil, or_false] at ha
    rcases ha with rfl | rfl | rfl <;> rfl
  · intro x hx
    rw [strGC_allHeaders]
    rcases hreach x hx with rfl | rfl <;> simp

theorem cycGC_reach : ∀ x, Reach cycGC x → x ∈ [8, 11, 14] := by
  intro x hx
  induction hx with
  | ptr h h0 =>
    simp only [cycGC, List.mem_cons, List.mem_singleton, List.not_mem_nil, or_false] at h
    rcases h with rfl | rfl <;> simp
  | root hr hp h0 => simp [cycGC] at hr
  | edge _ hp h0 ih =>
    simp only [List.mem_cons, List.mem_singleton, List.not_mem_nil, or_false] at ih
    rcases ih with rfl | rfl | rfl <;>
      simp only [cycGC, cycHeap, outEdges, exObj, List.mem_cons, List.mem_singleton,
        List.not_mem_nil, or_false, if_true] at hp
    · rcases hp with rfl | rfl <;> simp
    · simp only [show (11 = 8) = False from by decide, if_false, List.mem_cons,
        List.mem_singleton, List.not_mem_nil, or_false] at hp
      rcases hp with rfl | rfl <;> simp
    · simp only [show (14 = 8) = False from by decide, show (14 = 11) = False from by decide,
        if_false, List.mem_singleton] at hp
      subst hp
      simp

theorem orderGC_allHeaders : allHeaders orderGC = [8, 16, 24, 100] := by
  decide

theorem orderGC_reach : ∀ x, Reach orderGC x → x = 16 := by
  intro x hx
  induction hx with
  | ptr h h0 =>
    simp only [orderGC, List.mem_singleton] at h
    exact h
  | root hr hp h0 => simp [orderGC] at hr
  | edge _ hp h0 ih =>
    subst ih
    simp [orderGC, orderHeap, outEdges, exObj] at hp

theorem orderGC_wellFormed : WellFormed orderGC := by
  refine ⟨⟨by decide, ⟨2, 0⟩, by simp [orderGC], by decide⟩, ?_, ?_, ?_, ?_, ?_⟩
  · intro A hA
    simp only [orderGC, List.mem_cons, List.mem_singleton, List.not_mem_nil, or_false] at hA
    rcases hA with rfl | rfl <;> decide
  · simp [orderGC, Arena.disjoint]
  · intro A hA
    simp only [orderGC, List.mem_cons, List.mem_singleton, List.not_mem_nil, or_false] at hA
    rcases hA with rfl | rfl
    · unfold Tiled
      rw [show arenaHeaders orderGC.heap ⟨8, 24⟩ = [8, 16, 24] from by decide]
      simp [Tiles, objWords, objSize, isValueTag, orderGC, orderHeap, exObj, freeWords]
    · unfold Tiled
      rw [show arenaHeaders orderGC.heap ⟨100, 8⟩ = [100] from by decide]
      simp [Tiles, objWords, objSize, isValueTag, orderGC, orderHeap, exObj, freeWords]
  · intro a ha
    rw [orderGC_allHeaders] at ha
    simp only [List.mem_cons, List.mem_singleton, List.not_mem_nil, or_false] at ha
    rcases ha with rfl | rfl | rfl | rfl <;> rfl
  · intro x hx
    rw [orderGC_allHeaders, orderGC_reach x hx]
    simp

theorem orderGC_traceable : Traceable orderGC := by
  refine ⟨fun r hr => by simp [orderGC] at hr, ?_⟩
  intro x hx
  rw [orderGC_reach x hx]
  simp [orderGC, orderHeap, exObj]

/-! ## Maps built in key order -/

theorem mapAssign_append {α : Type} (key : String) (value : α) :
    ∀ (m : List (String × α)), (∀ x ∈ m, x.1.toList < key.toList) →
      mapAssign m key value = m ++ [(key, value)] := by
  intro m
  induction m with
  | nil => intro _; rfl
  | cons x m ih =>
    intro h
    obtain ⟨k, v⟩ := x
    have hk : k.toList < key.toList := h (k, v) (List.mem_cons_self _ _)
    have h1 : ¬ key.toList < k.toList := lt_asymm hk
    have h2 : key ≠ k := by
      intro e
      subst e
      exact lt_irrefl _ hk
    simp only [mapAssign, h1, h2, if_false, List.cons_append]
    rw [ih (fun y hy => h y (List.mem_cons_of_mem _ hy))]

theorem mapEmplace_append {α : Type} (key : String) (value : α) :
    ∀ (m : List (String × α)), (∀ x ∈ m, x.1.toList < key.toList) →
      mapEmplace m key value = m ++ [(key, value)] := by
  intro m
  induction m with
  | nil => intro _; rfl
  | cons x m ih =>
    intro h
    obtain ⟨k, v⟩ := x
    have hk : k.toList < key.toList := h (k, v) (List.mem_cons_self _ _)
    have h1 : ¬ key.toList < k.toList := lt_asymm hk
    have h2 : key ≠ k := by
      intro e
      subst e
      exact lt_irrefl _ hk
    simp only [mapEmplace, h1, h2, if_false, List.cons_append]
    rw [ih (fun y hy => h y (List.mem_cons_of_mem _ hy))]

theorem attrsToJsonLoop_object :
    ∀ (rest : Attrs) (m : List (String × Json)),
      rest.Pairwise (fun x y => x.1.toList < y.1.toList) →
      (∀ x ∈ m, ∀ y ∈ rest, x.1.toList < y.1.toList) →
      attrsToJsonLoop rest (.object m) =
        some (.object (m ++ rest.map fun e => (e.1, attrToJson e.2))) := by
  intro rest
  induction rest with
  | nil => intro m _ _; simp [attrsToJsonLoop]
  | cons e rest ih =>
    intro m hs hm
    obtain ⟨name, v⟩ := e
    have hs1 := List.pairwise_cons.1 hs
    have hlt : ∀ x ∈ m, x.1.toList < name.toList :=
      fun x hx => hm x hx (name, v) (List.mem_cons_self _ _)
    have hnext : ∀ (j : Json), ∀ x ∈ m ++ [(name, j)], ∀ y ∈ rest, x.1.toList < y.1.toList := by
      intro j x hx y hy
      rcases List.mem_append.1 hx with hx | hx
      · exact hm x hx y (List.mem_cons_of_mem _ hy)
      · rw [List.mem_singleton.1 hx]
        exact hs1.1 y hy
    cases v with
    | int n =>
      simp only [attrsToJsonLoop, Json.assign, mapAssign_append name _ m hlt]
      rw [ih _ hs1.2 (hnext _)]
      simp [attrToJson]
    | str t =>
      simp only [attrsToJsonLoop, Json.assign, mapAssign_append name _ m hlt]
      rw [ih _ hs1.2 (hnext _)]
      simp [attrToJson]

theorem attrsToJson_sorted (a : Attrs) (hs : a.Pairwise (fun x y => x.1.toList < y.1.toList)) :
    attrsToJson a =
      some (if a = [] then .null else .object (a.map fun e => (e.1, attrToJson e.2))) := by
  cases a with
  | nil => rfl
  | cons e rest =>
    obtain ⟨name, v⟩ := e
    have hs1 := List.pairwise_cons.1 hs
    have hnext : ∀ (j : Json), ∀ x ∈ [(name, j)], ∀ y ∈ rest, x.1.toList < y.1.toList := by
      intro j x hx y hy
      rw [List.mem_singleton.1 hx]
      exact hs1.1 y hy
    cases v with
    | int n =>
      simp only [attrsToJson, attrsToJsonLoop, Json.assign]
      rw [attrsToJsonLoop_object rest _ hs1.2 (hnext _)]
      simp [attrToJson]
    | str t =>
      simp only [attrsToJson, attrsToJsonLoop, Json.assign]
      rw [attrsToJsonLoop_object rest _ hs1.2 (hnext _)]
      simp [attrToJson]

theorem jsonToAttrsLoop_entries :
    ∀ (rest acc : Attrs), rest.Pairwise (fun x y => x.1.toList < y.1.toList) →
      (∀ x ∈ acc, ∀ y ∈ rest, x.1.toList < y.1.toList) →
      jsonToAttrsLoop (rest.map fun e => (e.1, attrToJson e.2)) acc = .ok (acc ++ rest) := by
  intro rest
  induction rest with
  | nil => intro acc _ _; simp [jsonToAttrsLoop]
  | cons e rest ih =>
    intro acc hs hm
    obtain ⟨name, v⟩ := e
    have hs1 := List.pairwise_cons.1 hs
    have hlt : ∀ x ∈ acc, x.1.toList < name.toList :=
      fun x hx => hm x hx (name, v) (List.mem_cons_self _ _)
    have hnext : ∀ x ∈ acc ++ [(name, v)], ∀ y ∈ rest, x.1.toList < y.1.toList := by
      intro x hx y hy
      rcases List.mem_append.1 hx with hx | hx
      · exact hm x hx y (List.mem_cons_of_mem _ hy)
      · rw [List.mem_singleton.1 hx]
        exact hs1.1 y hy
    cases v with
    | int n =>
      have e : attrToJson (.int n) = .number_integer n := rfl
      simp only [List.map_cons, e, jsonToAttrsLoop, Json.is_number, if_true,
        Json.getInt64, mapEmplace_append name _ acc hlt]
      rw [ih _ hs1.2 hnext]
      simp
    | str t =>
      have e : attrToJson (.str t) = .string t := rfl
      simp only [List.map_cons, e, jsonToAttrsLoop, Json.is_number, Json.is_string,
        Bool.false_eq_true, if_false, if_true, Json.getString, mapEmplace_append name _ acc hlt]
      rw [ih _ hs1.2 hnext]
      simp

/-! ## The claims on tracing and the mark phase -/

/-- C11. LongString context tagging.  Tracing a `LongString` calls `push` on
    its string-body pointer and then, if and only if the low bit of the context
    field is 0, on the context field: the calls of `push` are exactly that list
    (and tracing returns when the pointers it pushes pass `assertObject`).
    Consequently, on a well-formed heap whose only root is a pointer slot on a
    `LongString` with a context field of low bit 1 and a `String` body, with no
    assumption on the context field itself (it may lie outside every arena),
    the collection completes, the string and its body keep their cells and stay
    headers of their arena, and the mark phase traces no object but the string
    and its body, whatever its outcome. -/
theorem longstring_context_tagging (s : GC) (p : Nat) (hW : WellFormed s)
    (hptr : s.ptrRoots = [p]) (hobj : s.objRoots = []) (hp0 : p ≠ 0)
    (hty : (s.heap p).type = .tLongString) (hodd : (s.heap p).string_context % 2 = 1)
    (hb0 : (s.heap p).string_s ≠ 0)
    (hbody : (s.heap (s.heap p).string_s).type = .tString) :
    (∀ (t : GC) (stack : List Nat) (obj : Obj), obj.type = .tLongString →
      (∀ stack1 calls, pushPointersWith (pushLogged t) (stack, []) obj = some (stack1, calls) →
        calls = obj.string_s ::
          (if obj.string_context % 2 = 0 then [obj.string_context] else [])) ∧
      ((obj.string_s ≠ 0 → assertObject t obj.string_s = true) →
        (obj.string_context % 2 = 0 → obj.string_context ≠ 0 →
          assertObject t obj.string_context = true) →
        ∃ stack1 calls,
          pushPointersWith (pushLogged t) (stack, []) obj = some (stack1, calls))) ∧
    (∃ N, ∀ fuel, N ≤ fuel → ∃ s1, gc fuel s = .done s1) ∧
    (∀ fuel s1, gc fuel s = .done s1 → ∀ x, x = p ∨ x = (s.heap p).string_s →
      s1.heap x = s.heap x ∧ x ∈ allHeaders s1) ∧
    ∀ fuel, ∀ x ∈ (markPhaseLog fuel s).2, x = p ∨ x = (s.heap p).string_s := by
  have hedges : outEdges (s.heap p) = [(s.heap p).string_s] := by
    simp only [outEdges, hty]
    rw [if_neg (by omega)]
  have hreach : ∀ x, Reach s x → x = p ∨ x = (s.heap p).string_s := by
    intro x hx
    induction hx with
    | ptr h h0 =>
      rw [hptr] at h
      exact Or.inl (List.mem_singleton.1 h)
    | root hr hp h0 => rw [hobj] at hr; simp at hr
    | edge _ hp h0 ih =>
      rcases ih with rfl | rfl
      · rw [hedges] at hp
        exact Or.inr (List.mem_singleton.1 hp)
      · simp [outEdges, hbody] at hp
  have hrp : Reach s p := Reach.ptr (by rw [hptr]; simp) hp0
  have hrb : Reach s (s.heap p).string_s :=
    Reach.edge hrp (by rw [hedges]; simp) hb0
  have hT : Traceable s := by
    refine ⟨fun r hr => by rw [hobj] at hr; simp at hr, ?_⟩
    intro x hx
    rcases hreach x hx with rfl | rfl
    · rw [hty]; simp
    · rw [hbody]; simp
  refine ⟨?_, gc_total s hW hT, ?_, ?_⟩
  · intro t stack obj ho
    have he : outEdges obj =
        obj.string_s :: (if obj.string_context % 2 = 0 then [obj.string_context] else []) := by
      simp only [outEdges, ho]
      split <;> rfl
    refine ⟨?_, ?_⟩
    · intro stack1 calls hc
      rw [pushPointersWith_logged] at hc
      cases hpp : pushPointers t stack obj with
      | none => rw [hpp] at hc; simp at hc
      | some st =>
        rw [hpp] at hc
        simp only [Option.map_some', Option.some.injEq, Prod.mk.injEq, List.nil_append] at hc
        rw [← hc.2, he]
    · intro h1 h2
      rw [pushPointersWith_logged, pushPointers_eq]
      have htr : traceable obj.type = true := by rw [ho]; rfl
      simp only [htr, if_true]
      obtain ⟨st, hst⟩ := pushEach_ok t (outEdges obj) stack (by
        intro q hq hq0
        rw [he] at hq
        rcases List.mem_cons.1 hq with rfl | hq
        · exact h1 hq0
        · by_cases hev : obj.string_context % 2 = 0
          · rw [if_pos hev] at hq
            rw [List.mem_singleton.1 hq] at hq0 ⊢
            exact h2 hev hq0
          · rw [if_neg hev] at hq
            simp at hq)
      rw [hst]
      exact ⟨st, _, rfl⟩
  · intro fuel s1 hgc x hx
    have hxr : Reach s x := by
      rcases hx with rfl | rfl
      · exact hrp
      · exact hrb
    obtain ⟨hP, hTr⟩ := gc_done s hW fuel s1 hgc
    obtain ⟨hm, hM, e1, -, e3, -⟩ := gcPost_state hP
    obtain ⟨hcell, hhd, -, -⟩ := sweepResult_reach hW hTr hM hxr
    exact ⟨by rw [e1]; exact hcell, by rw [gcPost_allHeaders e1 e3]; exact hhd⟩
  · intro fuel x hx
    exact hreach x ((markPhaseLog_spec s fuel).2.2.1 x hx).2

/-- The theorem of C11 on the example heap: the string at 8 has the context
    field 999, which is odd and outside the arena; with validation on, the
    collection with fuel 30 completes and keeps the string and its body at 11,
    and the mark phase traces exactly these two. -/
theorem longstring_context_tagging_witness :
    WellFormed strGC ∧ (strGC.heap 8).string_context % 2 = 1 ∧
    isObject strGC (strGC.heap 8).string_context = false ∧
    (∃ s1, gc 30 strGC = .done s1 ∧ ∀ x, x = 8 ∨ x = 11 →
      s1.heap x = strGC.heap x ∧ x ∈ allHeaders s1) ∧
    (markPhaseLog 30 strGC).2 = [11, 8] ∧
    ∀ fuel, ∀ x ∈ (markPhaseLog fuel strGC).2, x = 8 ∨ x = 11 :=
  ⟨strGC_wellFormed, by decide, by decide,
    ⟨_, rfl, (longstring_context_tagging strGC 8 strGC_wellFormed rfl rfl (by decide) rfl
      (by decide) (by decide) rfl).2.2.1 30 _ rfl⟩,
    by decide,
    (longstring_context_tagging strGC 8 strGC_wellFormed rfl rfl (by decide) rfl
      (by decide) (by decide) rfl).2.2.2⟩

/-- C12. Trace contract.  For an object of any known tag other than `Free`
    (`traceable`), the switch of `pushPointers` is the one of
    `pushPointersWith` run with the collector's `push`; run with the recording
    `push`, the calls it makes are exactly the list `outEdges obj`, the
    out-edges that the tag table of section 3.3 gives for the tag, each once
    and in the order of the table; the stack it leaves is the old stack with
    the non-null out-edges on top, so a null child is never put on the stack;
    and it does return when every non-null out-edge passes `assertObject`. -/
theorem trace_contract (s : GC) (stack : List Nat) (obj : Obj)
    (hk : traceable obj.type = true) :
    pushPointersWith (push s) stack obj = pushPointers s stack obj ∧
    (∀ stack1 calls, pushPointersWith (pushLogged s) (stack, []) obj = some (stack1, calls) →
      calls = outEdges obj ∧ pushPointers s stack obj = some stack1 ∧
      stack1 = ((outEdges obj).filter fun p => decide (p ≠ 0)).reverse ++ stack ∧
      (0 ∉ stack → 0 ∉ stack1)) ∧
    ((∀ p ∈ outEdges obj, p ≠ 0 → assertObject s p = true) →
      ∃ stack1, pushPointersWith (pushLogged s) (stack, []) obj =
        some (stack1, outEdges obj)) := by
  refine ⟨pushPointersWith_push s stack obj, ?_, ?_⟩
  · intro stack1 calls hc
    rw [pushPointersWith_logged] at hc
    cases hpp : pushPointers s stack obj with
    | none => rw [hpp] at hc; simp at hc
    | some st =>
      rw [hpp] at hc
      simp only [Option.map_some', Option.some.injEq, Prod.mk.injEq, List.nil_append] at hc
      obtain ⟨rfl, rfl⟩ := hc
      have hst : st = ((outEdges obj).filter fun p => decide (p ≠ 0)).reverse ++ stack := by
        rw [pushPointers_eq] at hpp
        simp only [hk, if_true] at hpp
        exact pushEach_some _ _ _ _ hpp
      refine ⟨rfl, rfl, hst, ?_⟩
      intro h0 hin
      rw [hst] at hin
      simp only [List.mem_append, List.mem_reverse, List.mem_filter, decide_eq_true_eq] at hin
      rcases hin with ⟨-, h⟩ | h
      · exact h rfl
      · exact h0 h
  · intro hall
    rw [pushPointersWith_logged, pushPointers_eq]
    simp only [hk, if_true]
    obtain ⟨st, hst⟩ := pushEach_ok s (outEdges obj) stack hall
    rw [hst]
    exact ⟨st, rfl⟩

/-- The theorem of C12 on the `List2` cell of the example heap, whose first
    element is null: `push` is called on the null pointer and on 56, in this
    order, and only 56 is put on the stack. -/
theorem trace_contract_witness :
    traceable (exGC.heap 8).type = true ∧
    pushPointersWith (pushLogged exGC) ([], []) (exGC.heap 8) = some ([56], [0, 56]) ∧
    outEdges (exGC.heap 8) = [0, 56] ∧
    pushPointers exGC [] (exGC.heap 8) = some [56] :=
  ⟨rfl, by decide, rfl,
    ((trace_contract exGC [] (exGC.heap 8) rfl).2.1 [56] [0, 56] (by decide)).2.1⟩

/-- C13. Marked counter.  Take a heap in which no reachable object is marked
    when the collection starts.  Whenever the mark phase completes, the
    counter `marked` is the number of distinct addresses transitively reachable
    from the roots: there is a list without repetition whose members are
    exactly the reachable objects and whose length is `marked` (an object is
    counted once however many edges reach it; the embedded root objects are not
    in the heap and are not counted).  The mark phase does complete, for every
    fuel above `markBound`, when the reachable objects are finitely many, of
    known tag other than `Free`, and pass `assertObject`. -/
theorem marked_counter (s : GC) (h0 : ∀ x, Reach s x → (s.heap x).marked = false) :
    (∀ L : List Nat, (∀ x, Reach s x → x ∈ L) →
      (∀ r ∈ s.objRoots, traceable r.type = true) →
      (∀ x, Reach s x → traceable (s.heap x).type = true ∧ assertObject s x = true) →
      ∀ fuel, markBound L s ≤ fuel → ∃ s1 marked, markPhase fuel s = .done (s1, marked)) ∧
    ∀ fuel s1 marked, markPhase fuel s = .done (s1, marked) →
      (∃ L : List Nat, L.Nodup ∧ (∀ x, x ∈ L ↔ Reach s x) ∧ marked = L.length) ∧
      marked = Set.ncard {x | Reach s x} := by
  refine ⟨?_, ?_⟩
  · intro L hL hroots hT fuel hfuel
    obtain ⟨h1, h2⟩ := markPhase_total s L hL h0 fuel hfuel
    cases hr : markPhase fuel s with
    | timeout => exact absurd hr h1
    | abort s1 => exact absurd hr (h2 hroots hT s1)
    | done res => exact ⟨res.1, res.2, rfl⟩
  · intro fuel s1 marked hd
    obtain ⟨-, hnd, hlog, hfin⟩ := markPhaseLog_spec s fuel
    obtain ⟨-, hiff, hcount⟩ := hfin s1 marked hd
    obtain ⟨-, hmk, -, -⟩ := markPhase_done s h0 fuel s1 marked hd
    have hmem : ∀ x, x ∈ (markPhaseLog fuel s).2 ↔ Reach s x := by
      intro x
      constructor
      · intro hx
        exact (hlog x hx).2
      · intro hx
        have h1 : (s1.heap x).marked = true := by rw [(hmk x hx).1]
        rcases (hiff x).1 h1 with h | h
        · rw [h0 x hx] at h
          simp at h
        · exact h
    refine ⟨⟨_, hnd, hmem, hcount⟩, ?_⟩
    have hset : {x | Reach s x} = ((markPhaseLog fuel s).2.toFinset : Set Nat) := by
      ext x
      simp [hmem]
    rw [hset, Set.ncard_coe_Finset, List.toFinset_card_of_nodup hnd]
    exact hcount

set_option maxRecDepth 100000 in
/-- The theorem of C13 on a chain of 100 `List2` cells of which only the head
    is registered: the mark phase with fuel 101 completes with `marked = 100`,
    and 100 is the number of reachable objects. -/
theorem marked_counter_witness :
    (∀ x, Reach chainGC x → (chainGC.heap x).marked = false) ∧
    ∃ s1, markPhase 101 chainGC = .done (s1, 100) ∧
      (∃ L : List Nat, L.Nodup ∧ (∀ x, x ∈ L ↔ Reach chainGC x) ∧ 100 = L.length) ∧
      100 = Set.ncard {x | Reach chainGC x} :=
  ⟨fun x _ => by unfold chainGC chainHeap; dsimp only; split <;> rfl,
    _, rfl, (marked_counter chainGC
      (fun x _ => by unfold chainGC chainHeap; dsimp only; split <;> rfl)).2 101 _ 100 rfl⟩

/-! ## The claims on arenas -/

/-- C14. Arena birth.  With the eight lists of the constructor, a region of
    `arenaSize >= 2` words at a non-null address `start`, and a total that
    stays below 2^64, `addArena` returns and: the new arena is the last of the
    arena collection and the ones before it are as they were; the walk of the
    new arena meets one header, `start`, a `Free` block of `arenaSize` words
    with its mark clear; that block is the front of the list with the largest
    threshold not above `arenaSize`, its `next` is the old front of that list
    (so the blocks that were on the list, `chain`, follow it) and the other
    lists are as they were; `totalSize` has grown by `arenaSize`; no other cell
    of the heap has changed, so every other arena that does not contain
    `start` has the headers and the tiling it had. -/
theorem arena_birth (s : GC) (start arenaSize undef : Nat) (hsize : 2 ≤ arenaSize)
    (hstart : 0 < start)
    (hth : s.freeLists.map FreeList.minSize = [2, 3, 4, 8, 16, 32, 64, 128])
    (htot : s.totalSize + arenaSize < 2 ^ 64) :
    ∃ s1, addArena s start arenaSize undef = .done s1 ∧
      s1.arenas = s.arenas ++ [⟨start, arenaSize⟩] ∧
      arenaHeaders s1.heap ⟨start, arenaSize⟩ = [start] ∧ Tiled s1.heap ⟨start, arenaSize⟩ ∧
      (s1.heap start).type = .tFree ∧ freeWords (s1.heap start) = arenaSize ∧
      (s1.heap start).marked = false ∧
      (∃ (i : Nat) (fl : FreeList), s.freeLists[i]? = some fl ∧ fl.minSize ≤ arenaSize ∧
        (∀ g ∈ s.freeLists, g.minSize ≤ arenaSize → g.minSize ≤ fl.minSize) ∧
        s1.freeLists[i]? = some { fl with front := start } ∧
        (s1.heap start).next = fl.front ∧
        (∀ j, j ≠ i → s1.freeLists[j]? = s.freeLists[j]?) ∧
        ∀ chain, Chain s.heap fl.front chain → start ∉ chain →
          Chain s1.heap start (start :: chain)) ∧
      s1.totalSize = s.totalSize + arenaSize ∧
      (∀ x, x ≠ start → s1.heap x = s.heap x) ∧
      (∀ A ∈ s.arenas, ¬ (A.start ≤ start ∧ start < A.start + A.size) → Tiled s.heap A →
        arenaHeaders s1.heap A = arenaHeaders s.heap A ∧ Tiled s1.heap A) ∧
      s1.ptrRoots = s.ptrRoots ∧ s1.objRoots = s.objRoots := by
  have hs : (s.freeLists.map FreeList.minSize).Pairwise (· < ·) := by
    rw [hth]; decide
  have hfit : ∃ fl ∈ s.freeLists, fl.minSize ≤ arenaSize := by
    have : 2 ∈ s.freeLists.map FreeList.minSize := by rw [hth]; decide
    obtain ⟨fl, hfl, e⟩ := List.mem_map.1 this
    exact ⟨fl, hfl, by omega⟩
  obtain ⟨i, fl, s1, hd, h1, h2, h3, h4, h5, h6, h7, h8, h9, -, h11, h12, -⟩ :=
    addArena_spec s start arenaSize undef hs hfit
  have hty : (s1.heap start).type = .tFree := by rw [h6]; rfl
  have hw : freeWords (s1.heap start) = arenaSize := by rw [h6]; rfl
  obtain ⟨hh, hT⟩ := single_free_block s1.heap start arenaSize hty hw (by omega)
  refine ⟨s1, hd, h8, hh, hT, hty, hw, by rw [h6]; rfl, ⟨i, fl, h1, h2, h3, h4, by rw [h6], h5, ?_⟩,
    by rw [h9]; exact Nat.mod_eq_of_lt htot, h7, ?_, h11, h12⟩
  · intro chain hc hnot
    refine ⟨rfl, by omega, ?_⟩
    rw [h6]
    exact Chain_congr s.heap s1.heap chain fl.front
      (fun a ha => by rw [h7 a (fun e => hnot (e ▸ ha))]) hc
  · intro A _ hout hTA
    obtain ⟨e1, e2, -⟩ := arena_congr s.heap s1.heap A
      (fun a ha1 ha2 => h7 a (fun e => hout (e ▸ ⟨ha1, ha2⟩))) hTA
    exact ⟨e1, e2⟩

/-- The theorem of C14 on the example heap: an arena of 48 words at 200 is
    added to the two arenas; its block goes on the list of threshold 32, which
    was empty. -/
theorem arena_birth_witness :
    ∃ s1, addArena exGC 200 48 0 = .done s1 ∧
      s1.arenas = [⟨8, 64⟩, ⟨100, 4⟩, ⟨200, 48⟩] ∧
      arenaHeaders s1.heap ⟨200, 48⟩ = [200] ∧ Tiled s1.heap ⟨200, 48⟩ ∧
      (s1.heap 200).type = .tFree ∧ freeWords (s1.heap 200) = 48 ∧
      (s1.heap 200).marked = false ∧
      s1.freeLists = [⟨2, 0⟩, ⟨3, 0⟩, ⟨4, 100⟩, ⟨8, 64⟩, ⟨16, 0⟩, ⟨32, 200⟩, ⟨64, 0⟩, ⟨128, 0⟩] ∧
      s1.totalSize = 68 + 48 := by
  obtain ⟨s1, h1, h2, h3, h4, h5, h6, h7, -, h9, -⟩ :=
    arena_birth exGC 200 48 0 (by decide) (by decide) rfl (by decide)
  refine ⟨s1, h1, h2, h3, h4, h5, h6, h7, ?_, h9⟩
  have e : addArena exGC 200 48 0 = .done
      { exGC with
        heap := setObj (setObj exGC.heap 200 (newFree (exGC.heap 200) 48)) 200
          { newFree (exGC.heap 200) 48 with next := 0 },
        freeLists := [⟨2, 0⟩, ⟨3, 0⟩, ⟨4, 100⟩, ⟨8, 64⟩, ⟨16, 0⟩, ⟨32, 200⟩, ⟨64, 0⟩, ⟨128, 0⟩],
        arenas := [⟨8, 64⟩, ⟨100, 4⟩, ⟨200, 48⟩],
        totalSize := 116, nextSize := 72 } := rfl
  rw [e] at h1
  simp only [Outcome.done.injEq] at h1
  rw [← h1]

/-- C15. Initial arena size.  Whatever byte count the environment gives
    (`env`, when the variable is set; 131072 by default), whatever the memory
    holds and wherever the first region lies, the constructor returns (the
    `abort()` of `addToFreeList` is not reached) with exactly one arena, of
    `max 2 (b / WORD_SIZE)` words, which is at least 2; the arena is one `Free`
    block of that size, and `totalSize` is that size.  With the default and a
    word of 8 bytes the arena has 16384 words. -/
theorem initial_arena_size (h : Heap) (validate : Bool) (env : Option Nat)
    (start undef : Nat) :
    (∃ s1, newGC h validate env start undef = .done s1 ∧
      s1.arenas = [⟨start, max 2 (env.getD 131072 / WORD_SIZE)⟩] ∧
      (s1.heap start).type = .tFree ∧
      freeWords (s1.heap start) = max 2 (env.getD 131072 / WORD_SIZE) ∧
      arenaHeaders s1.heap ⟨start, max 2 (env.getD 131072 / WORD_SIZE)⟩ = [start] ∧
      s1.totalSize = max 2 (env.getD 131072 / WORD_SIZE) % 2 ^ 64) ∧
    2 ≤ max 2 (env.getD 131072 / WORD_SIZE) ∧
    (∀ s1, newGC h validate env start undef ≠ .abort s1) ∧
    WORD_SIZE = 8 ∧ max 2 ((none : Option Nat).getD 131072 / WORD_SIZE) = 16384 := by
  have key : ∃ s1, newGC h validate env start undef = .done s1 ∧
      s1.arenas = [⟨start, max 2 (env.getD 131072 / WORD_SIZE)⟩] ∧
      (s1.heap start).type = .tFree ∧
      freeWords (s1.heap start) = max 2 (env.getD 131072 / WORD_SIZE) ∧
      arenaHeaders s1.heap ⟨start, max 2 (env.getD 131072 / WORD_SIZE)⟩ = [start] ∧
      s1.totalSize = max 2 (env.getD 131072 / WORD_SIZE) % 2 ^ 64 := by
    have hsorted : (emptyLists.map FreeList.minSize).Pairwise (· < ·) := by decide
    obtain ⟨i, fl, s1, hd, -, -, -, -, -, h6, -, h8, h9, -⟩ :=
      addArena_spec
        { heap := h, arenas := [], freeLists := emptyLists, ptrRoots := [], objRoots := [],
          totalSize := 0, nextSize := max 2 (env.getD 131072 / WORD_SIZE),
          allTimeWordsFreed := 0, validate := validate }
        start (max 2 (env.getD 131072 / WORD_SIZE)) undef hsorted
        ⟨⟨2, 0⟩, by simp [emptyLists], le_max_left _ _⟩
    have hty : (s1.heap start).type = .tFree := by rw [h6]; rfl
    have hw : freeWords (s1.heap start) = max 2 (env.getD 131072 / WORD_SIZE) := by
      rw [h6]; rfl
    refine ⟨s1, hd, h8, hty, hw,
      (single_free_block s1.heap start _ hty hw
        (lt_of_lt_of_le (by decide) (le_max_left 2 _))).1, ?_⟩
    rw [h9]
    simp
  refine ⟨key, le_max_left _ _, ?_, rfl, by decide⟩
  intro s1 ha
  obtain ⟨s2, hd, -⟩ := key
  rw [hd] at ha
  simp at ha

/-- C16. Arena growth policy, as the code has it.  Take an arena size `n`
    of at least 2 whose size in bytes fits a 64-bit `size_t` (a larger region
    cannot be acquired) and the eight lists of the constructor.  Then
    `addArena` returns and the size recorded for the next arena is the
    product `n * 1.5` of line 83, computed in `double` and truncated: it does
    not depend on `undef`, it is below 2^64, so the conversion to `size_t`
    never overflows, it is 1.5 times `n` rounded down whenever `3 * n < 2^53`,
    and in every case it is within `n / 2^50` of that. -/
theorem arena_growth_policy (s : GC) (start n undef : Nat) (hsize : 2 ≤ n)
    (hth : s.freeLists.map FreeList.minSize = [2, 3, 4, 8, 16, 32, 64, 128])
    (hfit : WORD_SIZE * n < 2 ^ 64) :
    ∃ s1, addArena s start n undef = .done s1 ∧
      s1.nextSize = roundDouble (3 * roundDouble n) / 2 ∧
      s1.nextSize < 2 ^ 64 ∧
      (3 * n < 2 ^ 53 → s1.nextSize = 3 * n / 2) ∧
      s1.nextSize ≤ 3 * n / 2 + n / 2 ^ 50 ∧ 3 * n / 2 ≤ s1.nextSize + n / 2 ^ 50 := by
  have hs : (s.freeLists.map FreeList.minSize).Pairwise (· < ·) := by
    rw [hth]; decide
  have hfl : ∃ fl ∈ s.freeLists, fl.minSize ≤ n := by
    have : 2 ∈ s.freeLists.map FreeList.minSize := by rw [hth]; decide
    obtain ⟨fl, hfl, e⟩ := List.mem_map.1 this
    exact ⟨fl, hfl, by omega⟩
  obtain ⟨i, fl, s1, hd, -, -, -, -, -, -, -, -, -, h10, -⟩ :=
    addArena_spec s start n undef hs hfl
  obtain ⟨g1, g2, g3, g4⟩ := growSize_defined n hfit
  have hnext : s1.nextSize = roundDouble (3 * roundDouble n) / 2 := by
    rw [h10, g1]
    rfl
  refine ⟨s1, hd, hnext, by rw [hnext]; exact g2, ?_, by rw [hnext]; exact g3,
    by rw [hnext]; exact g4⟩
  intro h3
  rw [h10, growSize_small n h3]
  rfl

/-- The theorem of C16 on the example heap: after an arena of 32 words the
    next arena size is 48. -/
theorem arena_growth_policy_witness :
    ∃ s1, addArena exGC 200 32 0 = .done s1 ∧ s1.nextSize = 48 := by
  obtain ⟨s1, h1, -, -, h4, -⟩ :=
    arena_growth_policy exGC 200 32 0 (by decide) rfl (by decide)
  exact ⟨s1, h1, h4 (by decide)⟩

/-- C16 as the claim states it fails at an arena of 3002399751580333 words,
    whose size in bytes fits `size_t` and whose growth does not overflow: 1.5
    times that size rounded down is 4503599627370499, which fits `size_t`, and
    `addArena` records 4503599627370500, whatever the platform does with a
    conversion that is not defined. -/
theorem arena_growth_policy_counterexample :
    WORD_SIZE * 3002399751580333 < 2 ^ 64 ∧
    3 * 3002399751580333 / 2 = 4503599627370499 ∧ 4503599627370499 < 2 ^ 64 ∧
    (∃ s1, addArena exGC 200 3002399751580333 0 = .done s1 ∧
      s1.nextSize = 4503599627370500) ∧
    ∃ s1, addArena exGC 200 3002399751580333 (2 ^ 64 - 1) = .done s1 ∧
      s1.nextSize = 4503599627370500 :=
  ⟨by decide, by decide, by decide, ⟨_, rfl, rfl⟩, ⟨_, rfl, rfl⟩⟩

/-! ## The claims on the sweep -/

/-- C17. Sweep failure condition.  Take an arena at a non-null address, the
    segregated lists, and a heap in which every header reached by the walk from
    the arena start that has a size has a size of at least one word.  Then
    `freeUnmarked` returns (for some fuel) if and only if every header reached
    by the walk has a known tag and the walk ends exactly on the arena end.
    With fuel of at least the arena size the model never runs out of fuel:
    `freeUnmarked` returns or aborts; it aborts when a header reached has an
    unknown tag, and when the walk ends beyond the arena end. -/
theorem sweep_failure_condition (s : GC) (A : Arena) (hpos : 0 < A.start) (hL : ListsOk s)
    (hsz : ∀ a ∈ walk s.heap (A.start + A.size) A.size A.start, objSize (s.heap a) ≠ some 0) :
    ((∃ fuel r, freeUnmarked fuel s A = .done r) ↔
      ((∀ a ∈ walk s.heap (A.start + A.size) A.size A.start,
          knownTag (s.heap a).type = true) ∧
        walkEnd s.heap (A.start + A.size) A.size A.start = A.start + A.size)) ∧
    (∀ fuel, A.size ≤ fuel →
      (∃ r, freeUnmarked fuel s A = .done r) ∨ ∃ s1, freeUnmarked fuel s A = .abort s1) ∧
    ((∃ a ∈ walk s.heap (A.start + A.size) A.size A.start, knownTag (s.heap a).type = false) →
      ∀ fuel, A.size ≤ fuel → ∃ s1, freeUnmarked fuel s A = .abort s1) ∧
    (A.start + A.size < walkEnd s.heap (A.start + A.size) A.size A.start →
      ∀ fuel, A.size ≤ fuel → ∃ s1, freeUnmarked fuel s A = .abort s1) := by
  obtain ⟨hd, ha⟩ := sweepFrom_walk (A.start + A.size) A.size s A.start 0 0 0 hpos hL
    (fun h => absurd rfl h) hsz (le_refl _)
  have hknown : (∀ a ∈ walk s.heap (A.start + A.size) A.size A.start,
      knownTag (s.heap a).type = true) ↔
      ∀ a ∈ walk s.heap (A.start + A.size) A.size A.start, objSize (s.heap a) ≠ none := by
    constructor
    · intro h a ha hn
      have := (objSize_eq_none_iff _).1 hn
      rw [h a ha] at this
      simp at this
    · intro h a ha
      by_contra hk
      exact h a ha ((objSize_eq_none_iff _).2 (by simpa using hk))
  have hnt : sweepFrom (A.start + A.size) A.size s A.start 0 0 0 ≠ .timeout := by
    by_cases hP : (∀ a ∈ walk s.heap (A.start + A.size) A.size A.start,
        objSize (s.heap a) ≠ none) ∧
        walkEnd s.heap (A.start + A.size) A.size A.start = A.start + A.size
    · obtain ⟨r, hr⟩ := hd hP
      rw [hr]; simp
    · obtain ⟨s1, hr⟩ := ha hP
      rw [hr]; simp
  have hfuel : ∀ fuel, A.size ≤ fuel →
      freeUnmarked fuel s A = sweepFrom (A.start + A.size) A.size s A.start 0 0 0 := by
    intro fuel hf
    rw [freeUnmarked_eq_sweepFrom]
    have := sweepFrom_mono (A.start + A.size) s A.start 0 0 0 (fuel - A.size) A.size hnt
    rwa [show A.size + (fuel - A.size) = fuel by omega] at this
  have hiff : (∃ fuel r, freeUnmarked fuel s A = .done r) ↔
      ((∀ a ∈ walk s.heap (A.start + A.size) A.size A.start, objSize (s.heap a) ≠ none) ∧
        walkEnd s.heap (A.start + A.size) A.size A.start = A.start + A.size) := by
    constructor
    · rintro ⟨fuel, r, hr⟩
      by_contra hP
      obtain ⟨s1, hab⟩ := ha hP
      rw [freeUnmarked_eq_sweepFrom] at hr
      have h1 := sweepFrom_mono (A.start + A.size) s A.start 0 0 0 A.size fuel
        (by rw [hr]; simp)
      have h2 := sweepFrom_mono (A.start + A.size) s A.start 0 0 0 fuel A.size hnt
      rw [show A.size + fuel = fuel + A.size by omega, h1, hr, hab] at h2
      simp at h2
    · intro hP
      obtain ⟨r, hr⟩ := hd hP
      exact ⟨A.size, r, by rw [freeUnmarked_eq_sweepFrom]; exact hr⟩
  have habort : ¬ ((∀ a ∈ walk s.heap (A.start + A.size) A.size A.start,
      objSize (s.heap a) ≠ none) ∧
      walkEnd s.heap (A.start + A.size) A.size A.start = A.start + A.size) →
      ∀ fuel, A.size ≤ fuel → ∃ s1, freeUnmarked fuel s A = .abort s1 := by
    intro hP fuel hf
    rw [hfuel fuel hf]
    exact ha hP
  refine ⟨by rw [hknown]; exact hiff, ?_, ?_, ?_⟩
  · intro fuel hf
    rw [hfuel fuel hf]
    by_cases hP : (∀ a ∈ walk s.heap (A.start + A.size) A.size A.start,
        objSize (s.heap a) ≠ none) ∧
        walkEnd s.heap (A.start + A.size) A.size A.start = A.start + A.size
    · exact Or.inl (hd hP)
    · exact Or.inr (ha hP)
  · rintro ⟨a, hmem, hk⟩
    exact habort (fun hP => hP.1 a hmem ((objSize_eq_none_iff _).2 hk))
  · intro hover
    exact habort (fun hP => by omega)

/-- The theorem of C17 on the example heap: the first arena (words 8 to 71)
    is walked through known tags to its end and is swept; cut to 60 words the
    walk ends at 72, beyond the end at 68, and the sweep aborts; the second
    arena stretched to 8 words has a header of unknown tag at 104, and the
    sweep aborts. -/
theorem sweep_failure_condition_witness :
    (walk exGC.heap 72 64 8 = [8, 16, 24, 32, 40, 48, 56, 64] ∧ walkEnd exGC.heap 72 64 8 = 72 ∧
      ∃ fuel r, freeUnmarked fuel exGC ⟨8, 64⟩ = .done r) ∧
    (walkEnd exGC.heap 68 60 8 = 72 ∧
      ∀ fuel, 60 ≤ fuel → ∃ s1, freeUnmarked fuel exGC ⟨8, 60⟩ = .abort s1) ∧
    (walk exGC.heap 108 8 100 = [100, 104] ∧ knownTag (exGC.heap 104).type = false ∧
      ∀ fuel, 8 ≤ fuel → ∃ s1, freeUnmarked fuel exGC ⟨100, 8⟩ = .abort s1) :=
  ⟨⟨by decide, by decide,
      (sweep_failure_condition exGC ⟨8, 64⟩ (by decide) exGC_lists (by decide)).1.2
        ⟨by decide, by decide⟩⟩,
    ⟨by decide,
      (sweep_failure_condition exGC ⟨8, 60⟩ (by decide) exGC_lists (by decide)).2.2.2
        (by decide)⟩,
    ⟨by decide, by decide,
      (sweep_failure_condition exGC ⟨100, 8⟩ (by decide) exGC_lists (by decide)).2.2.1
        ⟨104, by decide, by decide⟩⟩⟩

/-- C18. Free-list order after a collection.  On a well-formed heap, whenever
    `gc` completes: the arenas are those of before, in the same order; the walk
    of each arena meets its headers in increasing address; and each segregated
    list links, from its front through the `next` fields, exactly the `Free`
    headers of two words or more of its size class, in the reverse of sweep
    order, where sweep order (`allHeaders`) is the walks of the arenas one
    after the other in arena order.  So the front of each list is the last
    such block that the sweep reached (null when there is none). -/
theorem free_list_order (s : GC) (hW : WellFormed s) :
    (Traceable s → ∃ N, ∀ fuel, N ≤ fuel → ∃ s1, gc fuel s = .done s1) ∧
    ∀ fuel s1, gc fuel s = .done s1 →
      s1.arenas = s.arenas ∧
      allHeaders s1 = s1.arenas.flatMap (arenaHeaders s1.heap) ∧
      (∀ A ∈ s1.arenas, (arenaHeaders s1.heap A).Pairwise (· < ·)) ∧
      ∀ fl ∈ s1.freeLists,
        Chain s1.heap fl.front
          ((allHeaders s1).filter fun a =>
            decide ((s1.heap a).type = .tFree) && decide (2 ≤ freeWords (s1.heap a)) &&
              decide (sizeClass s1 (freeWords (s1.heap a)) = some fl.minSize)).reverse ∧
        fl.front =
          (((allHeaders s1).filter fun a =>
            decide ((s1.heap a).type = .tFree) && decide (2 ≤ freeWords (s1.heap a)) &&
              decide (sizeClass s1 (freeWords (s1.heap a)) = some fl.minSize)).getLast?).getD
            0 := by
  refine ⟨gc_total s hW, ?_⟩
  intro fuel s1 hgc
  obtain ⟨hP, hTr⟩ := gc_done s hW fuel s1 hgc
  obtain ⟨hm, hM, e1, e2, e3, -⟩ := gcPost_state hP
  obtain ⟨hW1, -⟩ := gcPost_wellFormed hW hTr hP
  have hchain : ∀ fl ∈ s1.freeLists,
      Chain s1.heap fl.front
        ((allHeaders s1).filter fun a =>
          decide ((s1.heap a).type = .tFree) && decide (2 ≤ freeWords (s1.heap a)) &&
            decide (sizeClass s1 (freeWords (s1.heap a)) = some fl.minSize)).reverse := by
    intro fl hfl
    rw [← chainOf_eq_filter hW hM e1 e2 e3 fl.minSize, e1]
    exact sweepResult_chains hW hM fl (by rw [← e2]; exact hfl)
  refine ⟨e3, rfl, fun A hA => Tiles_sorted _ _ _ _ (hW1.tiled A hA), ?_⟩
  intro fl hfl
  refine ⟨hchain fl hfl, ?_⟩
  have := Chain_front _ _ _ (hchain fl hfl)
  rw [this, List.head?_reverse]

/-- The theorem of C18 on a heap with three reclaimable blocks of 8 words: two
    dead objects at 8 and 24 in the first arena and the free block at 100 in the
    second.  After the collection the list of threshold 8 starts at 100, the
    block reached last, and links 24 and then 8. -/
theorem free_list_order_witness :
    WellFormed orderGC ∧
    ∃ s1, gc 100 orderGC = .done s1 ∧
      allHeaders s1 = [8, 16, 24, 100] ∧
      s1.freeLists = [⟨2, 0⟩, ⟨3, 0⟩, ⟨4, 0⟩, ⟨8, 100⟩, ⟨16, 0⟩, ⟨32, 0⟩, ⟨64, 0⟩, ⟨128, 0⟩] ∧
      (s1.heap 100).next = 24 ∧ (s1.heap 24).next = 8 ∧ (s1.heap 8).next = 0 ∧
      ((allHeaders s1).filter fun a =>
        decide ((s1.heap a).type = .tFree) && decide (2 ≤ freeWords (s1.heap a)) &&
          decide (sizeClass s1 (freeWords (s1.heap a)) = some 8)).reverse = [100, 24, 8] ∧
      ∀ fl ∈ s1.freeLists,
        Chain s1.heap fl.front
          ((allHeaders s1).filter fun a =>
            decide ((s1.heap a).type = .tFree) && decide (2 ≤ freeWords (s1.heap a)) &&
              decide (sizeClass s1 (freeWords (s1.heap a)) = some fl.minSize)).reverse :=
  ⟨orderGC_wellFormed, _, rfl, by decide, by decide, by decide, by decide, by decide, by decide,
    fun fl hfl => (((free_list_order orderGC orderGC_wellFormed).2 100 _ rfl).2.2.2 fl hfl).1⟩

/-! ## The claim on termination of the mark phase -/

/-- C19. Termination of the mark phase.  On a heap in which the objects
    reachable from the roots are finitely many (all in the list `L`), cycles
    and shared children allowed and whatever the mark bits are at the start,
    the mark phase ends for every fuel above `markBound L s`: it returns or it
    aborts, it does not run out of fuel.  And whatever the fuel and the
    outcome, no object is handed to `pushPointers` twice: the record of the
    traced objects (`markPhaseLog`, which runs as `markPhase` does) has no
    repetition, and every object in it was unmarked when the collection
    started and reachable. -/
theorem mark_phase_terminates (s : GC) (L : List Nat) (hfin : ∀ x, Reach s x → x ∈ L) :
    (∀ fuel, markBound L s ≤ fuel →
      (∃ s1 marked, markPhase fuel s = .done (s1, marked)) ∨
        ∃ s1, markPhase fuel s = .abort s1) ∧
    ∀ fuel, (markPhaseLog fuel s).1 = markPhase fuel s ∧
      (markPhaseLog fuel s).2.Nodup ∧
      (∀ x ∈ (markPhaseLog fuel s).2, (s.heap x).marked = false ∧ Reach s x) ∧
      ∀ s1 marked, markPhase fuel s = .done (s1, marked) →
        marked = (markPhaseLog fuel s).2.length ∧
        ∀ x ∈ (markPhaseLog fuel s).2, (s1.heap x).marked = true := by
  refine ⟨?_, ?_⟩
  · intro fuel hfuel
    have hnt := markPhase_terminates s L hfin fuel hfuel
    cases hr : markPhase fuel s with
    | timeout => exact absurd hr hnt
    | abort s1 => exact Or.inr ⟨s1, rfl⟩
    | done res => exact Or.inl ⟨res.1, res.2, rfl⟩
  · intro fuel
    obtain ⟨h1, h2, h3, h4⟩ := markPhaseLog_spec s fuel
    refine ⟨h1, h2, h3, ?_⟩
    intro s1 marked hd
    obtain ⟨-, g2, g3⟩ := h4 s1 marked hd
    exact ⟨g3, fun x hx => (g2 x).2 (Or.inr hx)⟩

/-- The theorem of C19 on three cells with a cycle and a shared child, both
    `List2` cells registered: the bound is 9, the mark phase with fuel 9
    completes with `marked = 3`, and each of the three cells is traced once. -/
theorem mark_phase_terminates_witness :
    (∀ x, Reach cycGC x → x ∈ [8, 11, 14]) ∧ markBound [8, 11, 14] cycGC = 9 ∧
    (∃ s1, markPhase 9 cycGC = .done (s1, 3)) ∧
    (markPhaseLog 9 cycGC).2 = [11, 14, 8] ∧
    ((∃ s1 marked, markPhase 9 cycGC = .done (s1, marked)) ∨
      ∃ s1, markPhase 9 cycGC = .abort s1) ∧
    (markPhaseLog 9 cycGC).2.Nodup :=
  ⟨cycGC_reach, by decide, ⟨_, rfl⟩, by decide,
    (mark_phase_terminates cycGC [8, 11, 14] cycGC_reach).1 9 (by decide),
    ((mark_phase_terminates cycGC [8, 11, 14] cycGC_reach).2 9).2.1⟩

/-! ## The claim on attributes -/

/-- C20. Attribute/JSON round trip.  For every attribute map `a` (a list of
    entries in increasing key order, each value a string or an integer),
    `attrsToJson a` returns a JSON value (null for the empty map, else the
    object with the same keys) and `jsonToAttrs` of that value returns, without
    an error, a map equal to `a`. -/
theorem attrs_json_round_trip (a : Attrs)
    (hsorted : a.Pairwise (fun x y => x.1.toList < y.1.toList)) :
    ∃ j, attrsToJson a = some j ∧ jsonToAttrs j = .ok a ∧
      (a = [] → j = .null) ∧
      (a ≠ [] → j = .object (a.map fun e => (e.1, attrToJson e.2))) := by
  refine ⟨_, attrsToJson_sorted a hsorted, ?_, ?_, ?_⟩
  · by_cases ha : a = []
    · subst ha
      rfl
    · rw [if_neg ha]
      have := jsonToAttrsLoop_entries a [] hsorted (fun x hx => by simp at hx)
      simpa [jsonToAttrs, Json.items] using this
  · intro ha
    rw [if_pos ha]
  · intro ha
    rw [if_neg ha]

/-- The theorem of C20 on a map of two strings and one integer, and on the
    empty map, whose JSON form is null. -/
theorem attrs_json_round_trip_witness :
    (∃ j, attrsToJson [("narHash", .str "sha256-0"), ("rev", .str "c0ffee"),
        ("revCount", .int (-7))] = some j ∧
      jsonToAttrs j = .ok [("narHash", .str "sha256-0"), ("rev", .str "c0ffee"),
        ("revCount", .int (-7))] ∧
      j = .object [("narHash", .string "sha256-0"), ("rev", .string "c0ffee"),
        ("revCount", .number_integer (-7))]) ∧
    attrsToJson [] = some .null ∧ jsonToAttrs .null = .ok [] := by
  refine ⟨?_, rfl, rfl⟩
  obtain ⟨j, h1, h2, -, h4⟩ := attrs_json_round_trip
    [("narHash", .str "sha256-0"), ("rev", .str "c0ffee"), ("revCount", .int (-7))]
    (by decide)
  exact ⟨j, h1, h2, h4 (by simp)⟩

end Nix
